import Mathlib

/-!
# Verification of the BMS magazine article-extraction core

A shallow embedding, in Lean 4, of the article text extraction pipeline of
`bms_article_text.py` (Bouwen met Staal magazine extraction), together with
proofs and refutations of its specified properties.

Modelling conventions:
* Python `str` values are modelled as `List Char` (`PyStr`).
* Python `float` geometry and font sizes are modelled as exact rationals
  (`Rat`); the constants involved (8.5, 9.5, 60.0) are exactly
  representable, and none of the verified properties depends on rounding.
* Functions that may raise a Python exception return `Except String α`.
  Error message texts are abbreviated (the original messages interpolate
  issue numbers and titles); no property depends on message contents.
* A document is modelled as the list, per page, of the `ArticlePageLine`
  records that `collect_page_lines` produces for that page (the PyMuPDF
  parsing itself is outside the modelled core).
-/

namespace BMS

/-- Python `str` modelled as a list of characters. -/
abbrev PyStr := List Char

/-- Python `str.isspace` / regex `\s` (they agree in CPython): the
whitespace code points of the Basic Multilingual Plane. -/
def pyIsSpace (c : Char) : Bool :=
  let n := c.toNat
  decide ((0x09 ≤ n ∧ n ≤ 0x0D) ∨ (0x1C ≤ n ∧ n ≤ 0x1F) ∨ n = 0x20 ∨
    n = 0x85 ∨ n = 0xA0 ∨ n = 0x1680 ∨ (0x2000 ≤ n ∧ n ≤ 0x200A) ∨
    n = 0x2028 ∨ n = 0x2029 ∨ n = 0x202F ∨ n = 0x205F ∨ n = 0x3000)

/-- Python `str.isalpha`, modelled on the Basic Latin and Latin-1 blocks
(the only code points exercised by this file; letters above U+00FF are not
modelled). -/
def pyIsAlpha (c : Char) : Bool :=
  let n := c.toNat
  decide ((0x41 ≤ n ∧ n ≤ 0x5A) ∨ (0x61 ≤ n ∧ n ≤ 0x7A) ∨ n = 0xAA ∨
    n = 0xB5 ∨ n = 0xBA ∨ (0xC0 ≤ n ∧ n ≤ 0xD6) ∨ (0xD8 ≤ n ∧ n ≤ 0xF6) ∨
    (0xF8 ≤ n ∧ n ≤ 0xFF))

/-- The character class `[A-Za-zÀ-ÿ]` used by the hyphenation regexes of
`bms_article_text.py` (note: as a plain range, `À-ÿ` includes U+00F7 `÷`). -/
def latinLetter (c : Char) : Bool :=
  let n := c.toNat
  decide ((0x41 ≤ n ∧ n ≤ 0x5A) ∨ (0x61 ≤ n ∧ n ≤ 0x7A) ∨ (0xC0 ≤ n ∧ n ≤ 0xFF))

/-- Python `str.lstrip()` (strip leading whitespace). -/
def pyLstrip (t : PyStr) : PyStr := t.dropWhile pyIsSpace

/-- Python `str.rstrip()` (strip trailing whitespace). -/
def pyRstrip (t : PyStr) : PyStr := t.rdropWhile pyIsSpace

/-- Python `str.strip()`. -/
def pyStrip (t : PyStr) : PyStr := pyRstrip (pyLstrip t)

/-- `enums.TextType` from `enums.py`. -/
inductive TextType where
  | INTRO
  | SUBHEADING
  | PARAGRAPH
  | BODY
deriving DecidableEq

/-- Bounding box `(x0, y0, x1, y1)` of a line, in points. -/
structure BBox where
  x0 : Rat
  y0 : Rat
  x1 : Rat
  y1 : Rat
deriving DecidableEq

/-- `ArticlePageLine` from `bms_article_text.py`: one visual line extracted
from a PDF page.  The `spans` field of the Python dataclass (raw PyMuPDF
span dictionaries) is never read again after line construction and is
omitted from the model. -/
structure ArticlePageLine where
  page_index : Int
  text : PyStr
  bbox : BBox
  x_center : Rat
  x_left : Rat
  y_top : Rat
  max_font_size : Rat
  has_univers : Bool
  has_minion : Bool
  is_bold_like : Bool
  column_index : Option Nat := none
deriving DecidableEq

/-- `ArticleBlock` from `bms_article_text.py`: a classified unit of the
extracted article flow. -/
structure ArticleBlock where
  texttype : TextType
  text : PyStr
  page : Int
  column : Nat
  order_index : Nat
deriving DecidableEq

/-- The fields of `bms_toc.Magazine` read by the extraction core. -/
structure Magazine where
  issue_number : Option Int := none
  pdf_index_offset : Option Int := none
deriving DecidableEq

/-- The fields of the article descriptor (`bms_toc.ArticleInfo`, imported
as `Article` by `bms_article_text.py`) read by the extraction core. -/
structure Article where
  page : Option Int := none
  chapot : PyStr := []
  title : PyStr := []
deriving DecidableEq

/-! ## Constants (`bms_article_text.py`, module head) -/

def RELEVANT_SIZE_MIN : Rat := 8.5

def RELEVANT_SIZE_MAX : Rat := 9.5

def COLUMN_GAP_THRESHOLD : Rat := 60

/-! ## Mapping: TOC → PDF page -/

/-- `compute_pdf_index_for_article`.  On a missing `article.page` the
source prints an `[ERROR]` diagnostic and returns the sentinel `-1`
instead of raising (the `raise` is commented out in the source). -/
def compute_pdf_index_for_article (magazine : Magazine) (article : Article) :
    Except String Int :=
  match article.page with
  | none => Except.ok (-1)
  | some p =>
    match magazine.pdf_index_offset with
    | none => Except.error ("Magazine.pdf_index_offset is None.")
    | some off =>
      if p + off < 0 then Except.error ("Computed negative pdf_index")
      else Except.ok (p + off)

/-! ## Relevance filter -/

/-- `is_relevant_main_text`. -/
def is_relevant_main_text (line : ArticlePageLine) : Bool :=
  if line.max_font_size < RELEVANT_SIZE_MIN ∨ line.max_font_size > RELEVANT_SIZE_MAX then
    false
  else if ¬ (line.has_univers ∨ line.has_minion) then
    false
  else
    true

/-! ## Stable sorting (Python `sorted`) -/

/-- One step of a stable insertion sort: insert `x` after every element
that compares `le` to it. -/
def pyInsert (le : α → α → Bool) (x : α) : List α → List α
  | [] => [x]
  | y :: ys => if le y x then y :: pyInsert le x ys else x :: y :: ys

/-- Python's stable `sorted`, modelled as a stable insertion sort (any two
stable sorts with respect to the same total preorder agree). -/
def pySorted (le : α → α → Bool) (l : List α) : List α :=
  l.foldl (fun acc x => pyInsert le x acc) []

/-! ## Column assignment -/

/-- Width of a line's bounding box (`ln.bbox[2] - ln.bbox[0]`). -/
def lineWidth (ln : ArticlePageLine) : Rat := ln.bbox.x1 - ln.bbox.x0

/-- Steps 1–2 of `assign_columns` on the `(width, x_left)` geometry of
each line: median width and anchor selection (with the fallback to all
lines when no anchors exist). -/
def anchorsOf (geo : List (Rat × Rat)) : List (Rat × Rat) :=
  let widths := geo.map (fun g => g.1)
  let widths_sorted := pySorted (fun a b => decide (a ≤ b)) widths
  let median_width := widths_sorted.getD (widths_sorted.length / 2) 0
  let width_threshold := 3 / 5 * median_width
  let anchors := geo.filter (fun g => decide (g.1 ≥ width_threshold))
  if anchors.isEmpty then geo else anchors

/-- One step of the greedy column-reference construction: a left edge
becomes a new reference only if it is farther than the gap threshold from
every existing reference. -/
def leftsStep (cs : List Rat) (x : Rat) : List Rat :=
  if cs.isEmpty then cs ++ [x]
  else if cs.all (fun c => decide (|x - c| > COLUMN_GAP_THRESHOLD)) then cs ++ [x]
  else cs

/-- Step 3 of `assign_columns`: the at most three greedy column reference
positions.  The source sorts the anchor *lines* by `x_left` and then only
ever reads their `x_left`; sorting the `x_left` values directly yields
the same list. -/
def columnRefsGeo (geo : List (Rat × Rat)) : List Rat :=
  let anchorLefts := pySorted (fun a b => decide (a ≤ b)) ((anchorsOf geo).map (fun g => g.2))
  let lefts := anchorLefts.foldl leftsStep []
  let lefts := if lefts.isEmpty then anchorLefts.take 1 else lefts
  lefts.take 3

/-- The column reference positions of `assign_columns` for a line list. -/
def columnRefs (lines : List ArticlePageLine) : List Rat :=
  columnRefsGeo (lines.map (fun ln => (lineWidth ln, ln.x_left)))

/-- Python `distances.index(min(distances))`: first position of the
minimum value. -/
def pyIndexMin (l : List Rat) : Nat :=
  match l with
  | [] => 0
  | x :: xs => l.findIdx (fun v => decide (v = xs.foldl min x))

/-- Step 4 of `assign_columns`: the column index of a line at horizontal
position `x`, given the reference positions. -/
def colFor (refs : List Rat) (x : Rat) : Nat :=
  pyIndexMin (refs.map (fun c => |x - c|))

/-- `assign_columns`: assign a column index (0..2) to each line based on
x-position clustering.  The Python function mutates the lines in place;
the model returns the updated list. -/
def assign_columns (lines : List ArticlePageLine) : List ArticlePageLine :=
  if lines.isEmpty then lines
  else
    lines.map (fun ln =>
      { ln with column_index := some (colFor (columnRefs lines) ln.x_left) })

/-! ## Classification -/

/-- `determine_line_texttype`: classify a relevant line into intro,
subheading, or body, given whether body text has already been seen. -/
def determine_line_texttype (line : ArticlePageLine) (body_seen : Bool) :
    Option TextType :=
  if ¬ is_relevant_main_text line then none
  else if line.has_minion ∧ ¬ line.has_univers then some TextType.BODY
  else if line.has_univers ∧ ¬ line.has_minion then
    if line.is_bold_like then
      if ¬ body_seen then some TextType.INTRO else some TextType.SUBHEADING
    else some TextType.BODY
  else some TextType.BODY

/-! ## End-of-article marker -/

/-- The recognized closing-quote characters of `check_end_marker`. -/
def closing_quotes : List Char := ['\'', '’', '"', '»', '”']

/-- Python `t.rfind(c)`: index of the last occurrence, `-1` when absent. -/
def pyRfindChar (t : PyStr) (c : Char) : Int :=
  match t.reverse.findIdx? (fun d => decide (d = c)) with
  | some i => (t.length : Int) - 1 - i
  | none => -1

/-- The backward-scanning `while` loops of `check_end_marker`, phrased on
`k = j + 1` so that Python's `j = -1` corresponds to `k = 0`: starting
just below position `k`, skip characters satisfying `p` and return the
final `k`. -/
def skipBackWhile (p : Char → Bool) (t : PyStr) : Nat → Nat
  | 0 => 0
  | k + 1 =>
    match t.get? k with
    | some c => if p c then skipBackWhile p t k else k + 1
    | none => k + 1

/-- `check_end_marker`: detect the end-of-article marker `'. •'` (with
optional closing quotes) in a line and strip it for output. -/
def check_end_marker (line : ArticlePageLine) : Bool × PyStr :=
  let t := line.text
  if ¬ t.contains '•' then (false, t)
  else if (pyLstrip t).head? = some '•' then (false, t)
  else
    let bullet_idx := pyRfindChar t '•'
    if bullet_idx = -1 then (false, t)
    else
      let k1 := skipBackWhile pyIsSpace t bullet_idx.toNat
      if k1 = 0 then (false, t)
      else
        let quote_end := k1 - 1
        let k2 := skipBackWhile (fun c => closing_quotes.contains c) t k1
        if k2 = 0 then (false, t)
        else if t.get? (k2 - 1) = some '.' then
          (true, pyRstrip (t.take (quote_end + 1)))
        else (false, t)

/-- `check_end_marker` as §4.5 of the specification words it: reject if
the bullet is absent or is the first non-whitespace character; otherwise
take everything before the last bullet, drop trailing whitespace, then
drop a run of closing quotes, and require a final period; the cleaned
text keeps the period and the skipped quotes. -/
def check_end_marker_spec (line : ArticlePageLine) : Bool × PyStr :=
  let t := line.text
  if ¬ t.contains '•' then (false, t)
  else if (t.dropWhile pyIsSpace).head? = some '•' then (false, t)
  else
    let beforeBullet := ((t.reverse.dropWhile (fun c => decide (c ≠ '•'))).tail).reverse
    let kept := beforeBullet.rdropWhile pyIsSpace
    let core := kept.rdropWhile (fun c => closing_quotes.contains c)
    if core.getLast? = some '.' then (true, kept) else (false, t)

/-! ## Extraction pipeline -/

/-- Python sequence indexing `doc[i]`: a negative index counts from the
end (PyMuPDF page access follows this convention); out of range fails. -/
def pyDocGet (doc : List (List ArticlePageLine)) (i : Int) :
    Option (List ArticlePageLine) :=
  if 0 ≤ i then doc.get? i.toNat
  else if (-i).toNat ≤ doc.length then doc.get? (doc.length - (-i).toNat)
  else none

/-- Python `range(s, n)` over integers (`n` a length). -/
def intRange (s : Int) (n : Nat) : List Int :=
  if s < (n : Int) then (List.range ((n : Int) - s).toNat).map (fun k : Nat => s + (k : Int))
  else []

/-- The reading-order key of `extract_article_blocks`:
`(ln.column_index or 0, ln.y_top)` compared lexicographically. -/
def readingOrderLe (a b : ArticlePageLine) : Bool :=
  decide (a.column_index.getD 0 < b.column_index.getD 0 ∨
    (a.column_index.getD 0 = b.column_index.getD 0 ∧ a.y_top ≤ b.y_top))

/-- The mutable locals of the scanning loop of `extract_article_blocks`. -/
structure ExtState where
  blocks : List ArticleBlock
  order_index : Nat
  body_seen : Bool
  last_page_with_content : Option Int
deriving DecidableEq

/-- The block appended for one classified line: classifier output BODY is
mapped to block kind PARAGRAPH (the default), INTRO and SUBHEADING pass
through; the text is the end-marker-cleaned text, the column is
`ln.column_index or 0`, and the order index is the running counter. -/
def blockOf (page_index : Int) (ln : ArticlePageLine) (texttype : TextType)
    (st : ExtState) : ArticleBlock :=
  { texttype :=
      if texttype = TextType.INTRO then TextType.INTRO
      else if texttype = TextType.SUBHEADING then TextType.SUBHEADING
      else TextType.PARAGRAPH,
    text := (check_end_marker ln).2,
    page := page_index,
    column := ln.column_index.getD 0,
    order_index := st.order_index }

/-- The combined state mutation performed by the body of the
`for ln in candidate_lines` loop: set `body_seen` on a BODY line, record
the page as the last with content, append the block, and advance the
order counter. -/
def stepState (page_index : Int) (ln : ArticlePageLine) (texttype : TextType)
    (st : ExtState) : ExtState :=
  { blocks := st.blocks ++ [blockOf page_index ln texttype st],
    order_index := st.order_index + 1,
    body_seen := if texttype = TextType.BODY then true else st.body_seen,
    last_page_with_content := some page_index }

/-- The inner `for ln in candidate_lines` loop of `extract_article_blocks`.
Returns the updated state and whether the end marker was reached. -/
def processLines (page_index : Int) : List ArticlePageLine → ExtState → ExtState × Bool
  | [], st => (st, false)
  | ln :: rest, st =>
    match determine_line_texttype ln st.body_seen with
    | none => processLines page_index rest st
    | some texttype =>
      let st2 := stepState page_index ln texttype st
      if (check_end_marker ln).1 then (st2, true) else processLines page_index rest st2

/-- The outer `for page_index in range(start_index, len(doc))` loop of
`extract_article_blocks`. -/
def pageLoop (doc : List (List ArticlePageLine)) :
    List Int → ExtState → Except String ExtState
  | [], st => Except.ok st
  | i :: rest, st =>
    match pyDocGet doc i with
    | none => Except.error ("IndexError")
    | some page_lines =>
      let candidate_lines := page_lines.filter is_relevant_main_text
      if candidate_lines.isEmpty then pageLoop doc rest st
      else
        let withCols := assign_columns candidate_lines
        let ordered := pySorted readingOrderLe withCols
        let r := processLines i ordered st
        if r.2 then Except.ok r.1 else pageLoop doc rest r.1

/-- `extract_article_blocks`: extract an article as an ordered stream of
`ArticleBlock` records, together with the PDF index of the last page on
which a block was appended (falling back to the start index).  The
warning print for a missing end marker is a side effect only and is not
modelled. -/
def extract_article_blocks (doc : List (List ArticlePageLine))
    (magazine : Magazine) (article : Article) :
    Except String (List ArticleBlock × Int) :=
  match compute_pdf_index_for_article magazine article with
  | Except.error e => Except.error e
  | Except.ok start_index =>
    match pageLoop doc (intRange start_index doc.length) ⟨[], 0, false, none⟩ with
    | Except.error e => Except.error e
    | Except.ok st =>
      Except.ok (st.blocks, st.last_page_with_content.getD start_index)

/-! ## Claim C6: the line classifier -/

/-- C6 (confirmed): for every line that passes the relevance filter, the
classifier returns BODY for serif-only (Minion) lines; for sans-only
(Univers) bold lines INTRO before body has been seen and SUBHEADING
after; and BODY in every other case (sans-only non-bold, both family
flags set, or neither — the last being vacuous under the filter). -/
theorem C6_line_classifier (line : ArticlePageLine) (body_seen : Bool)
    (hrel : is_relevant_main_text line = true) :
    (line.has_minion = true → line.has_univers = false →
      determine_line_texttype line body_seen = some TextType.BODY)
    ∧ (line.has_univers = true → line.has_minion = false → line.is_bold_like = true →
      body_seen = false → determine_line_texttype line body_seen = some TextType.INTRO)
    ∧ (line.has_univers = true → line.has_minion = false → line.is_bold_like = true →
      body_seen = true → determine_line_texttype line body_seen = some TextType.SUBHEADING)
    ∧ ((line.has_univers = true ∧ line.has_minion = false ∧ line.is_bold_like = false) ∨
      (line.has_univers = true ∧ line.has_minion = true) ∨
      (line.has_univers = false ∧ line.has_minion = false) →
      determine_line_texttype line body_seen = some TextType.BODY) := by
  cases hm : line.has_minion <;> cases hu : line.has_univers <;>
    cases hb : line.is_bold_like <;> cases body_seen <;>
      simp_all [determine_line_texttype]

/-- A serif (Minion) 9 pt line used to witness `C6_line_classifier`. -/
def c6SerifLine : ArticlePageLine :=
  { page_index := 0, text := "Voorbeeldregel".toList, bbox := ⟨50, 100, 250, 110⟩,
    x_center := 150, x_left := 50, y_top := 100, max_font_size := 9,
    has_univers := false, has_minion := true, is_bold_like := false }

/-- Witness for `C6_line_classifier` at a concrete serif-only line. -/
theorem C6_line_classifier_witness :
    determine_line_texttype c6SerifLine false = some TextType.BODY :=
  (C6_line_classifier c6SerifLine false (by with_unfolding_all decide)).1 rfl rfl

/-! ## Claim C1: start-index computation and error behaviour -/

/-- C1 (counterexample): with a missing printed start page,
`compute_pdf_index_for_article` does *not* raise — it returns the
sentinel `-1` — and `extract_article_blocks` returns a (here empty)
block stream instead of raising an error for this article. -/
theorem C1_missing_page_counterexample :
    compute_pdf_index_for_article { issue_number := some 305, pdf_index_offset := some 9 }
      { page := none } = Except.ok (-1)
    ∧ extract_article_blocks [[]] { issue_number := some 305, pdf_index_offset := some 9 }
      { page := none } = Except.ok ([], -1) :=
  ⟨rfl, rfl⟩

/-- C1 (amended): extraction starts at printed start page + page offset;
a missing page offset, or a negative computed start index, raises an
error that is fatal for this article; but a missing start page is only a
printed diagnostic and yields the sentinel start index `-1` without
raising. -/
theorem C1_start_index_amended (m : Magazine) (a : Article) :
    (a.page = none → compute_pdf_index_for_article m a = Except.ok (-1))
    ∧ (∀ p, a.page = some p → m.pdf_index_offset = none →
      (compute_pdf_index_for_article m a).isOk = false)
    ∧ (∀ p off, a.page = some p → m.pdf_index_offset = some off → p + off < 0 →
      (compute_pdf_index_for_article m a).isOk = false)
    ∧ (∀ p off, a.page = some p → m.pdf_index_offset = some off → 0 ≤ p + off →
      compute_pdf_index_for_article m a = Except.ok (p + off)) := by
  refine ⟨?_, ?_, ?_, ?_⟩
  · intro h
    simp [compute_pdf_index_for_article, h]
  · intro p hp hoff
    simp [compute_pdf_index_for_article, hp, hoff, Except.isOk, Except.toBool]
  · intro p off hp hoff hneg
    simp [compute_pdf_index_for_article, hp, hoff, hneg, Except.isOk, Except.toBool]
  · intro p off hp hoff hpos
    simp [compute_pdf_index_for_article, hp, hoff, not_lt.mpr hpos]

/-- Witness for `C1_start_index_amended` at a concrete magazine/article. -/
theorem C1_start_index_amended_witness :
    compute_pdf_index_for_article { pdf_index_offset := some 9 } { page := some 23 } =
      Except.ok (23 + 9) :=
  (C1_start_index_amended { pdf_index_offset := some 9 } { page := some 23 }).2.2.2
    23 9 rfl rfl (by decide)

/-! ## Claim C9: column assignment -/

theorem isEmpty_map (f : α → β) (l : List α) : (l.map f).isEmpty = l.isEmpty := by
  cases l <;> rfl

theorem pyInsert_length (le : α → α → Bool) (x : α) (l : List α) :
    (pyInsert le x l).length = l.length + 1 := by
  induction l with
  | nil => rfl
  | cons y ys ih =>
    by_cases h : le y x
    · simp [pyInsert, h, ih]
    · simp [pyInsert, h]

theorem pySorted_foldl_length (le : α → α → Bool) (l acc : List α) :
    (l.foldl (fun acc x => pyInsert le x acc) acc).length = acc.length + l.length := by
  induction l generalizing acc with
  | nil => simp
  | cons x xs ih =>
    simp only [List.foldl_cons, ih, pyInsert_length, List.length_cons]
    omega

theorem pySorted_length (le : α → α → Bool) (l : List α) :
    (pySorted le l).length = l.length := by
  simpa using pySorted_foldl_length le l []

theorem foldl_min_mem (x : Rat) (xs : List Rat) : xs.foldl min x ∈ x :: xs := by
  induction xs generalizing x with
  | nil => simp
  | cons y ys ih =>
    have h := ih (min x y)
    rw [List.foldl_cons]
    rcases List.mem_cons.mp h with h1 | h1
    · rcases min_choice x y with hc | hc
      · rw [h1, hc]; exact List.mem_cons_self _ _
      · rw [h1, hc]; exact List.mem_cons_of_mem _ (List.mem_cons_self _ _)
    · exact List.mem_cons_of_mem _ (List.mem_cons_of_mem _ h1)

theorem pyIndexMin_lt_length (l : List Rat) (h : l ≠ []) : pyIndexMin l < l.length := by
  match l with
  | x :: xs =>
    simp only [pyIndexMin]
    exact List.findIdx_lt_length_of_exists ⟨xs.foldl min x, foldl_min_mem x xs, by simp⟩

theorem anchorsOf_ne_nil (geo : List (Rat × Rat)) (h : geo ≠ []) : anchorsOf geo ≠ [] := by
  simp only [anchorsOf]
  split
  · exact h
  · next hf => simpa [List.isEmpty_iff] using hf

theorem leftsStep_ne_nil (acc : List Rat) (x : Rat) : leftsStep acc x ≠ [] := by
  simp only [leftsStep]
  split
  · simp
  · split
    · simp
    · next hne _ => simpa [List.isEmpty_iff] using hne

theorem foldl_leftsStep_ne_nil (l : List Rat) :
    ∀ acc : List Rat, acc ≠ [] → l.foldl leftsStep acc ≠ [] := by
  induction l with
  | nil => intro acc h; simpa using h
  | cons x xs ih =>
    intro acc h
    rw [List.foldl_cons]
    exact ih _ (leftsStep_ne_nil acc x)

theorem columnRefsGeo_ne_nil (geo : List (Rat × Rat)) (h : geo ≠ []) :
    columnRefsGeo geo ≠ [] := by
  have h1 : anchorsOf geo ≠ [] := anchorsOf_ne_nil geo h
  have h2 : pySorted (fun a b => decide (a ≤ b)) ((anchorsOf geo).map (fun g => g.2)) ≠ [] := by
    intro hc
    apply h1
    have := congrArg List.length hc
    rw [pySorted_length, List.length_map] at this
    exact List.length_eq_zero.mp this
  have h3 : (pySorted (fun a b => decide (a ≤ b))
      ((anchorsOf geo).map (fun g => g.2))).foldl leftsStep [] ≠ [] := by
    match hm : pySorted (fun a b => decide (a ≤ b)) ((anchorsOf geo).map (fun g => g.2)) with
    | [] => exact absurd hm h2
    | y :: ys =>
      rw [hm, List.foldl_cons]
      exact foldl_leftsStep_ne_nil ys _ (leftsStep_ne_nil [] y)
  simp only [columnRefsGeo]
  rw [if_neg (by simpa [List.isEmpty_iff] using h3)]
  intro hc
  rcases List.take_eq_nil_iff.mp hc with h4 | h4
  · exact absurd h4 (by norm_num)
  · exact h3 h4

theorem columnRefsGeo_length_le (geo : List (Rat × Rat)) :
    (columnRefsGeo geo).length ≤ 3 := by
  simp only [columnRefsGeo]
  split <;> simp [List.length_take]

theorem columnRefs_map_update (lines : List ArticlePageLine)
    (g : ArticlePageLine → Option Nat) :
    columnRefs (lines.map (fun ln => { ln with column_index := g ln })) =
      columnRefs lines := by
  simp only [columnRefs, List.map_map]
  rfl

/-- C9 (confirmed): `assign_columns` is idempotent — a second run yields
the identical column index for every line — and every index it assigns
lies in {0, 1, 2}. -/
theorem C9_assign_columns_idempotent (lines : List ArticlePageLine) :
    assign_columns (assign_columns lines) = assign_columns lines
    ∧ ∀ ln ∈ assign_columns lines, ∀ k, ln.column_index = some k → k ≤ 2 := by
  constructor
  · by_cases h : lines = []
    · subst h; rfl
    · have hne : lines.isEmpty = false := by
        cases lines with
        | nil => exact absurd rfl h
        | cons a l => rfl
      have e1 : assign_columns lines =
          lines.map (fun ln =>
            { ln with column_index := some (colFor (columnRefs lines) ln.x_left) }) := by
        simp [assign_columns, hne]
      have hne2 : (assign_columns lines).isEmpty = false := by
        rw [e1, isEmpty_map]; exact hne
      have e2 : columnRefs (assign_columns lines) = columnRefs lines := by
        rw [e1]
        exact columnRefs_map_update lines _
      conv_lhs => rw [assign_columns]
      rw [hne2]
      simp only [Bool.false_eq_true, if_false, e2]
      conv_lhs => rw [e1, List.map_map]
      rw [e1]
      apply List.map_congr_left
      intro ln _
      rfl
  · intro ln hln k hk
    by_cases h : lines = []
    · subst h
      simp [assign_columns] at hln
    · have hne : lines.isEmpty = false := by
        cases lines with
        | nil => exact absurd rfl h
        | cons a l => rfl
      have e1 : assign_columns lines =
          lines.map (fun ln =>
            { ln with column_index := some (colFor (columnRefs lines) ln.x_left) }) := by
        simp [assign_columns, hne]
      rw [e1] at hln
      obtain ⟨l0, _, rfl⟩ := List.mem_map.mp hln
      simp only [Option.some.injEq] at hk
      subst hk
      have hrefs : columnRefs lines ≠ [] := by
        apply columnRefsGeo_ne_nil
        intro hc
        apply h
        have := congrArg List.length hc
        rw [List.length_map] at this
        exact List.length_eq_zero.mp this
      have hlt : colFor (columnRefs lines) l0.x_left < (columnRefs lines).length := by
        have hd : (columnRefs lines).map (fun c => |l0.x_left - c|) ≠ [] := by
          intro hc
          apply hrefs
          have := congrArg List.length hc
          rw [List.length_map] at this
          exact List.length_eq_zero.mp this
        have := pyIndexMin_lt_length _ hd
        simpa [colFor, List.length_map] using this
      have hle := columnRefsGeo_length_le (lines.map (fun ln => (lineWidth ln, ln.x_left)))
      have : colFor (columnRefs lines) l0.x_left < 3 := lt_of_lt_of_le hlt hle
      omega

/-- Two concrete lines used to witness `C9_assign_columns_idempotent`. -/
def c9Lines : List ArticlePageLine :=
  [{ page_index := 0, text := "Linker kolom".toList, bbox := ⟨50, 100, 250, 110⟩,
     x_center := 150, x_left := 50, y_top := 100, max_font_size := 9,
     has_univers := false, has_minion := true, is_bold_like := false },
   { page_index := 0, text := "Rechter kolom".toList, bbox := ⟨300, 100, 500, 110⟩,
     x_center := 400, x_left := 300, y_top := 100, max_font_size := 9,
     has_univers := false, has_minion := true, is_bold_like := false }]

set_option maxRecDepth 8000 in
/-- Witness for `C9_assign_columns_idempotent` on two concrete lines. -/
theorem C9_assign_columns_idempotent_witness :
    assign_columns (assign_columns c9Lines) = assign_columns c9Lines
    ∧ (1 : Nat) ≤ 2 := by
  refine ⟨(C9_assign_columns_idempotent c9Lines).1, ?_⟩
  refine (C9_assign_columns_idempotent c9Lines).2
    { (c9Lines.get ⟨1, by decide⟩) with column_index := some 1 } ?_ 1 rfl
  with_unfolding_all decide

/-! ## Claims C7, C8, C10: invariants of the extraction loop -/

theorem determine_ne_paragraph (ln : ArticlePageLine) (b : Bool) :
    determine_line_texttype ln b ≠ some TextType.PARAGRAPH := by
  unfold determine_line_texttype
  repeat' split
  all_goals simp

theorem determine_intro_body_seen_false (ln : ArticlePageLine) (b : Bool)
    (h : determine_line_texttype ln b = some TextType.INTRO) : b = false := by
  cases b
  · rfl
  · exfalso
    unfold determine_line_texttype at h
    repeat' split at h
    all_goals simp_all

/-- A generic preservation principle for the page loop: any state
predicate preserved by `processLines` and holding initially holds for the
state `pageLoop` returns. -/
theorem pageLoop_preserve (doc : List (List ArticlePageLine)) (P : ExtState → Prop)
    (hp : ∀ page lines st, P st → P (processLines page lines st).1) :
    ∀ (idxs : List Int) (st st' : ExtState),
      P st → pageLoop doc idxs st = Except.ok st' → P st' := by
  intro idxs
  induction idxs with
  | nil =>
    intro st st' h hok
    simp only [pageLoop, Except.ok.injEq] at hok
    exact hok ▸ h
  | cons i rest ih =>
    intro st st' h hok
    simp only [pageLoop] at hok
    cases hd : pyDocGet doc i with
    | none => rw [hd] at hok; cases hok
    | some page_lines =>
      rw [hd] at hok
      dsimp only at hok
      by_cases he : (page_lines.filter is_relevant_main_text).isEmpty
      · rw [if_pos he] at hok
        exact ih st st' h hok
      · rw [if_neg he] at hok
        by_cases hend : (processLines i
            (pySorted readingOrderLe (assign_columns
              (page_lines.filter is_relevant_main_text))) st).2
        · rw [if_pos hend] at hok
          simp only [Except.ok.injEq] at hok
          exact hok ▸ hp _ _ st h
        · rw [if_neg hend] at hok
          exact ih _ st' (hp _ _ st h) hok

/-- The C7 ordering relation between blocks: a PARAGRAPH block is never
followed by an INTRO block. -/
def noIntroAfterPara (x y : ArticleBlock) : Prop :=
  x.texttype = TextType.PARAGRAPH → y.texttype ≠ TextType.INTRO

/-- The C7 loop invariant: while body text has not been seen no PARAGRAPH
block has been emitted, and the emitted stream never has an INTRO block
after a PARAGRAPH block. -/
def IntroInv (st : ExtState) : Prop :=
  (st.body_seen = false → ∀ b ∈ st.blocks, b.texttype ≠ TextType.PARAGRAPH)
  ∧ st.blocks.Pairwise noIntroAfterPara

theorem processLines_introInv (page : Int) (lines : List ArticlePageLine) :
    ∀ st : ExtState, IntroInv st → IntroInv (processLines page lines st).1 := by
  induction lines with
  | nil => intro st h; exact h
  | cons ln rest ih =>
    intro st h
    simp only [processLines]
    cases hdet : determine_line_texttype ln st.body_seen with
    | none => exact ih st h
    | some tt =>
      have hstep : IntroInv (stepState page ln tt st) := by
        cases tt with
        | BODY =>
          refine ⟨by simp [stepState], ?_⟩
          simp only [stepState]
          rw [List.pairwise_append]
          refine ⟨h.2, by simp, ?_⟩
          intro a _ b hb
          simp only [List.mem_singleton] at hb
          subst hb
          intro _
          simp [blockOf, noIntroAfterPara]
        | INTRO =>
          have hbs : st.body_seen = false := determine_intro_body_seen_false ln _ hdet
          constructor
          · intro _ b hb
            simp only [stepState, List.mem_append, List.mem_singleton] at hb
            rcases hb with hb | hb
            · exact h.1 hbs b hb
            · subst hb; simp [blockOf]
          · simp only [stepState]
            rw [List.pairwise_append]
            refine ⟨h.2, by simp, ?_⟩
            intro a ha b hb
            simp only [List.mem_singleton] at hb
            subst hb
            intro hpa
            exact absurd hpa (h.1 hbs a ha)
        | SUBHEADING =>
          constructor
          · intro hbs b hb
            simp only [stepState] at hbs
            simp only [stepState, List.mem_append, List.mem_singleton] at hb
            rcases hb with hb | hb
            · exact h.1 (by simpa using hbs) b hb
            · subst hb; simp [blockOf]
          · simp only [stepState]
            rw [List.pairwise_append]
            refine ⟨h.2, by simp, ?_⟩
            intro a _ b hb
            simp only [List.mem_singleton] at hb
            subst hb
            intro _
            simp [blockOf, noIntroAfterPara]
        | PARAGRAPH => exact absurd hdet (determine_ne_paragraph ln st.body_seen)
      by_cases hend : (check_end_marker ln).1
      · simp only [hend, if_true]
        exact hstep
      · simp only [hend, Bool.false_eq_true, if_false]
        exact ih _ hstep

/-- C7 (confirmed): in every article's raw block stream, no INTRO block
appears after a PARAGRAPH (body) block — the body-seen state is sticky
for the remainder of the article. -/
theorem C7_no_intro_after_body (doc : List (List ArticlePageLine))
    (magazine : Magazine) (article : Article) (blocks : List ArticleBlock) (last : Int)
    (hok : extract_article_blocks doc magazine article = Except.ok (blocks, last)) :
    blocks.Pairwise noIntroAfterPara := by
  unfold extract_article_blocks at hok
  cases hc : compute_pdf_index_for_article magazine article with
  | error e => rw [hc] at hok; cases hok
  | ok s =>
    rw [hc] at hok
    dsimp only at hok
    cases hp : pageLoop doc (intRange s doc.length) ⟨[], 0, false, none⟩ with
    | error e => rw [hp] at hok; cases hok
    | ok st =>
      rw [hp] at hok
      dsimp only at hok
      simp only [Except.ok.injEq, Prod.mk.injEq] at hok
      have hinv : IntroInv st :=
        pageLoop_preserve doc IntroInv processLines_introInv _ _ st
          ⟨(fun _ b hb => absurd hb (List.not_mem_nil b)), List.Pairwise.nil⟩ hp
      exact hok.1 ▸ hinv.2

/-- A one-page document with a body line then a bold sans line, used to
witness the extraction-invariant claims. -/
def c7Doc : List (List ArticlePageLine) :=
  [[{ page_index := 0, text := "Eerste regel.".toList, bbox := ⟨50, 100, 250, 110⟩,
      x_center := 150, x_left := 50, y_top := 100, max_font_size := 9,
      has_univers := false, has_minion := true, is_bold_like := false },
    { page_index := 0, text := "Einde. •".toList, bbox := ⟨50, 120, 250, 130⟩,
      x_center := 150, x_left := 50, y_top := 120, max_font_size := 9,
      has_univers := true, has_minion := false, is_bold_like := true }]]

set_option maxRecDepth 8000 in
/-- Witness for `C7_no_intro_after_body` on a concrete document. -/
theorem C7_no_intro_after_body_witness :
    (extract_article_blocks c7Doc { pdf_index_offset := some 0 } { page := some 0 } =
      Except.ok ([⟨TextType.PARAGRAPH, "Eerste regel.".toList, 0, 0, 0⟩,
        ⟨TextType.SUBHEADING, "Einde.".toList, 0, 0, 1⟩], 0))
    ∧ List.Pairwise noIntroAfterPara
        [(⟨TextType.PARAGRAPH, "Eerste regel.".toList, 0, 0, 0⟩ : ArticleBlock),
         ⟨TextType.SUBHEADING, "Einde.".toList, 0, 0, 1⟩] := by
  have h1 : extract_article_blocks c7Doc { pdf_index_offset := some 0 } { page := some 0 } =
      Except.ok ([⟨TextType.PARAGRAPH, "Eerste regel.".toList, 0, 0, 0⟩,
        ⟨TextType.SUBHEADING, "Einde.".toList, 0, 0, 1⟩], 0) := by
    with_unfolding_all rfl
  exact ⟨h1, C7_no_intro_after_body c7Doc _ _ _ 0 h1⟩

/-- The C8 loop invariant: the order counter equals the number of emitted
blocks, whose order indices are exactly `0, 1, 2, …` in list order. -/
def OrderInv (st : ExtState) : Prop :=
  st.order_index = st.blocks.length
  ∧ st.blocks.map (fun b => b.order_index) = List.range st.blocks.length

theorem processLines_orderInv (page : Int) (lines : List ArticlePageLine) :
    ∀ st : ExtState, OrderInv st → OrderInv (processLines page lines st).1 := by
  induction lines with
  | nil => intro st h; exact h
  | cons ln rest ih =>
    intro st h
    simp only [processLines]
    cases hdet : determine_line_texttype ln st.body_seen with
    | none => exact ih st h
    | some tt =>
      have hstep : OrderInv (stepState page ln tt st) := by
        constructor
        · simp [stepState, h.1]
        · simp only [stepState, List.map_append, List.map_cons, List.map_nil,
            List.length_append, List.length_cons, List.length_nil]
          rw [h.2]
          have hb : (blockOf page ln tt st).order_index = st.blocks.length := h.1 ▸ rfl
          rw [hb]
          rw [show st.blocks.length + (0 + 1) = st.blocks.length + 1 by omega,
            List.range_succ]
      by_cases hend : (check_end_marker ln).1
      · simp only [hend, if_true]
        exact hstep
      · simp only [hend, Bool.false_eq_true, if_false]
        exact ih _ hstep

/-- C8 (confirmed): in every article's raw block stream the order_index
values are exactly `0, 1, 2, …` in list position order, with no gaps and
no repeats. -/
theorem C8_order_index_dense (doc : List (List ArticlePageLine))
    (magazine : Magazine) (article : Article) (blocks : List ArticleBlock) (last : Int)
    (hok : extract_article_blocks doc magazine article = Except.ok (blocks, last)) :
    blocks.map (fun b => b.order_index) = List.range blocks.length := by
  unfold extract_article_blocks at hok
  cases hc : compute_pdf_index_for_article magazine article with
  | error e => rw [hc] at hok; cases hok
  | ok s =>
    rw [hc] at hok
    dsimp only at hok
    cases hp : pageLoop doc (intRange s doc.length) ⟨[], 0, false, none⟩ with
    | error e => rw [hp] at hok; cases hok
    | ok st =>
      rw [hp] at hok
      dsimp only at hok
      simp only [Except.ok.injEq, Prod.mk.injEq] at hok
      have hinv : OrderInv st :=
        pageLoop_preserve doc OrderInv processLines_orderInv
          (intRange s doc.length) ⟨[], 0, false, none⟩ st ⟨rfl, rfl⟩ hp
      exact hok.1 ▸ hinv.2

/-- A one-page, one-line document used to witness `C8_order_index_dense`. -/
def c8Doc : List (List ArticlePageLine) :=
  [[{ page_index := 0, text := "Slot. •".toList, bbox := ⟨50, 100, 250, 110⟩,
      x_center := 150, x_left := 50, y_top := 100, max_font_size := 9,
      has_univers := false, has_minion := true, is_bold_like := false }]]

set_option maxRecDepth 8000 in
/-- Witness for `C8_order_index_dense` on a concrete document. -/
theorem C8_order_index_dense_witness :
    (extract_article_blocks c8Doc { pdf_index_offset := some 0 } { page := some 0 } =
      Except.ok ([⟨TextType.PARAGRAPH, "Slot.".toList, 0, 0, 0⟩], 0))
    ∧ List.map (fun b => b.order_index)
        [(⟨TextType.PARAGRAPH, "Slot.".toList, 0, 0, 0⟩ : ArticleBlock)] =
      List.range 1 := by
  have h1 : extract_article_blocks c8Doc { pdf_index_offset := some 0 } { page := some 0 } =
      Except.ok ([⟨TextType.PARAGRAPH, "Slot.".toList, 0, 0, 0⟩], 0) := by
    with_unfolding_all rfl
  refine ⟨h1, ?_⟩
  have h2 := C8_order_index_dense c8Doc _ _ _ 0 h1
  simpa using h2

/-! ### Claim C10: empty scans return normally -/

theorem mem_intRange {i s : Int} {n : Nat} (h : i ∈ intRange s n) :
    s ≤ i ∧ i < (n : Int) := by
  unfold intRange at h
  split at h
  · obtain ⟨k, hk, rfl⟩ := List.mem_map.mp h
    rw [List.mem_range] at hk
    omega
  · cases h

theorem pageLoop_allSkip (doc : List (List ArticlePageLine)) (idxs : List Int)
    (hall : ∀ i ∈ idxs, ∃ pl, pyDocGet doc i = some pl ∧
      (pl.filter is_relevant_main_text).isEmpty) :
    ∀ st : ExtState, pageLoop doc idxs st = Except.ok st := by
  induction idxs with
  | nil => intro st; rfl
  | cons i rest ih =>
    intro st
    obtain ⟨pl, hpl, he⟩ := hall i (List.mem_cons_self i rest)
    simp only [pageLoop]
    rw [hpl]
    dsimp only
    rw [if_pos he]
    exact ih (fun j hj => hall j (List.mem_cons_of_mem i hj)) st

/-- C10 (confirmed): when no scanned page contributes a relevant line —
in particular when the computed start index is at or beyond the page
count, so that the scan is empty — `extract_article_blocks` returns an
empty block list together with the computed start index as the
last-page-with-content value, without raising. -/
theorem C10_empty_scan_returns (doc : List (List ArticlePageLine))
    (magazine : Magazine) (article : Article) (s : Int)
    (hc : compute_pdf_index_for_article magazine article = Except.ok s)
    (hs : 0 ≤ s)
    (hno : ∀ pl ∈ doc.drop s.toNat, ∀ ln ∈ pl, is_relevant_main_text ln = false) :
    extract_article_blocks doc magazine article = Except.ok ([], s) := by
  unfold extract_article_blocks
  rw [hc]
  dsimp only
  have hall : ∀ i ∈ intRange s doc.length, ∃ pl, pyDocGet doc i = some pl ∧
      (pl.filter is_relevant_main_text).isEmpty := by
    intro i hi
    obtain ⟨h1, h2⟩ := mem_intRange hi
    have hi0 : 0 ≤ i := le_trans hs h1
    have hlt : i.toNat < doc.length := by omega
    have hpl : doc.get? i.toNat = some (doc.get ⟨i.toNat, hlt⟩) := List.get?_eq_get hlt
    refine ⟨doc.get ⟨i.toNat, hlt⟩, ?_, ?_⟩
    · simp only [pyDocGet, if_pos hi0]
      exact hpl
    · have hmem : doc.get ⟨i.toNat, hlt⟩ ∈ doc.drop s.toNat := by
        have hg : (doc.drop s.toNat).get? (i.toNat - s.toNat) =
            some (doc.get ⟨i.toNat, hlt⟩) := by
          rw [List.get?_drop]
          rw [show s.toNat + (i.toNat - s.toNat) = i.toNat by omega]
          exact hpl
        exact List.get?_mem hg
      rw [List.isEmpty_iff, List.filter_eq_nil_iff]
      intro ln hln
      simp [hno _ hmem ln hln]
  rw [pageLoop_allSkip doc _ hall ⟨[], 0, false, none⟩]
  rfl

/-- A document whose single page has only an oversized (irrelevant)
heading line, used to witness `C10_empty_scan_returns`. -/
def c10Doc : List (List ArticlePageLine) :=
  [[{ page_index := 0, text := "Grote kop".toList, bbox := ⟨50, 100, 400, 130⟩,
      x_center := 225, x_left := 50, y_top := 100, max_font_size := 24,
      has_univers := true, has_minion := false, is_bold_like := true }]]

set_option maxRecDepth 8000 in
/-- Witness for `C10_empty_scan_returns` on a concrete document. -/
theorem C10_empty_scan_returns_witness :
    extract_article_blocks c10Doc { pdf_index_offset := some 0 } { page := some 0 } =
      Except.ok ([], 0) :=
  C10_empty_scan_returns c10Doc _ _ 0 rfl (by decide)
    (by with_unfolding_all decide)

/-! ## Header merging (`merge_multiline_headers`) -/

/-- Membership of a block kind in `header_texttypes = {INTRO, SUBHEADING}`. -/
def isHeaderKind (tt : TextType) : Bool :=
  decide (tt = TextType.INTRO ∨ tt = TextType.SUBHEADING)

/-- `next_text and next_text[0].isalpha()`. -/
def startsAlphaB (t : PyStr) : Bool :=
  match t.head? with
  | some c => pyIsAlpha c
  | none => false

/-- One iteration of the inner merge loop of `merge_multiline_headers`:
strip the next fragment, skip it when empty, drop a trailing plain hyphen
and glue when the fragment starts with a letter, otherwise join with a
single space. -/
def joinNext (acc : PyStr) (t : PyStr) : PyStr :=
  let next_text := pyStrip t
  if next_text = [] then acc
  else if acc.getLast? = some '-' ∧ startsAlphaB next_text then acc.dropLast ++ next_text
  else acc ++ ' ' :: next_text

/-- The single merged block produced for one header run: text is the
accumulated merge, the other fields come from the run's first block. -/
def mkMerged (k : TextType) (acc : PyStr) (fb : ArticleBlock) : ArticleBlock :=
  { texttype := k, text := acc, page := fb.page, column := fb.column,
    order_index := fb.order_index }

/-- The `while` loops of `merge_multiline_headers` as a single pass with
an optional in-progress header run `(kind, accumulated text, first block)`.
When the run's kind stops matching, the merged block is emitted and the
breaking block starts a fresh scan (the inlined last case). -/
def mergeGo : Option (TextType × PyStr × ArticleBlock) → List ArticleBlock → List ArticleBlock
  | none, [] => []
  | some (k, acc, fb), [] => [mkMerged k acc fb]
  | none, b :: bs =>
    if isHeaderKind b.texttype then mergeGo (some (b.texttype, pyStrip b.text, b)) bs
    else b :: mergeGo none bs
  | some (k, acc, fb), b :: bs =>
    if b.texttype = k then mergeGo (some (k, joinNext acc b.text, fb)) bs
    else
      mkMerged k acc fb ::
        (if isHeaderKind b.texttype then mergeGo (some (b.texttype, pyStrip b.text, b)) bs
         else b :: mergeGo none bs)

/-- `merge_multiline_headers`: merge consecutive header blocks of the
same kind into single blocks. -/
def merge_multiline_headers (blocks : List ArticleBlock) : List ArticleBlock :=
  mergeGo none blocks

/-! ## Hyphenation repair (`fix_hyphenation_across_block_breaks`) -/

/-- The hyphen-like characters of the repair regex: plain hyphen, soft
hyphen, and the Unicode hyphen/dash variants U+2010–U+2014. -/
def hyphen_chars : List Char := ['-', '­', '‐', '‑', '‒', '–', '—']

/-- The match of `re_end_hyphen` (applied to the right-stripped text of
the first block): `^(?P<pfx>.*?)(?P<left>[A-Za-zÀ-ÿ]+)\s*[hyphen]\s*$`.
Returns the captured prefix and letter run.  The lazy prefix `.*?` cannot
match a newline, so a newline anywhere before the trailing letter run
defeats the match. -/
def m1Match (s : PyStr) : Option (PyStr × PyStr) :=
  match s.getLast? with
  | none => none
  | some c =>
    if c ∈ hyphen_chars then
      let s2 := (s.dropLast).rdropWhile pyIsSpace
      let left := s2.rtakeWhile latinLetter
      if left = [] then none
      else
        let pfx := s2.rdropWhile latinLetter
        if pfx.contains '\n' then none
        else some (pfx, left)
    else none

/-- The match of `re_start_letters` on the second block's text:
`^(?P<lead>\s*[^A-Za-zÀ-ÿ]*)(?P<right>[A-Za-zÀ-ÿ]+)(?P<rest>.*)$`.
Returns `(lead, right, rest)`.  `.*$` tolerates exactly one final
newline, which then falls outside the captured `rest`. -/
def m2Match (t : PyStr) : Option (PyStr × PyStr × PyStr) :=
  let lead := t.takeWhile (fun c => ¬ latinLetter c)
  let t2 := t.drop lead.length
  let right := t2.takeWhile latinLetter
  if right = [] then none
  else
    let r := t2.drop right.length
    if r.contains '\n' then
      if r.getLast? = some '\n' ∧ ¬ (r.dropLast).contains '\n' then some (lead, right, r.dropLast)
      else none
    else some (lead, right, r)

/-- The mergeable block kinds of the repairer (all three flow kinds). -/
def isMergeableKind (tt : TextType) : Bool :=
  decide (tt = TextType.PARAGRAPH ∨ tt = TextType.INTRO ∨ tt = TextType.SUBHEADING)

/-- `fix_hyphenation_across_block_breaks`: merge a consecutive same-kind
block pair when the first ends in a letter run and a hyphen-like
character and the second starts with letters; the merged text is
`prefix + left + right + rest` (the hyphen, surrounding whitespace and
the second block's non-letter lead are dropped), with the first block's
page/column/order_index. -/
def fix_hyphenation_across_block_breaks : List ArticleBlock → List ArticleBlock
  | [] => []
  | [b] => [b]
  | a :: b :: rest =>
    if isMergeableKind a.texttype ∧ b.texttype = a.texttype then
      match m1Match (pyRstrip a.text), m2Match b.text with
      | some m1, some m2 =>
        { texttype := a.texttype, text := m1.1 ++ m1.2 ++ m2.2.1 ++ m2.2.2,
          page := a.page, column := a.column, order_index := a.order_index } ::
          fix_hyphenation_across_block_breaks rest
      | _, _ => a :: fix_hyphenation_across_block_breaks (b :: rest)
    else a :: fix_hyphenation_across_block_breaks (b :: rest)

/-! ## Claim C4: header hyphen handling -/

/-- C4 (counterexample): a header fragment ending in an en dash (U+2013,
a hyphen-like character) followed by a letter-initial fragment is joined
*with a space and without dropping the dash* — the merge glue only fires
on a plain hyphen-minus, not on every hyphen-like character. -/
theorem C4_hyphen_like_counterexample :
    merge_multiline_headers
      [⟨TextType.SUBHEADING, "Sub–".toList, 0, 0, 0⟩,
       ⟨TextType.SUBHEADING, "titel".toList, 0, 0, 1⟩] =
      [⟨TextType.SUBHEADING, "Sub– titel".toList, 0, 0, 0⟩]
    ∧ "Sub– titel".toList ≠ "Subtitel".toList :=
  ⟨rfl, by decide⟩

/-- C4 (amended): in the header merger, when the accumulated header text
ends with a *plain hyphen-minus* and the next same-kind fragment starts
with a letter, the hyphen is dropped and the fragments are joined
directly with no space; otherwise they are joined with a single space;
the merged block carries the first sub-block's page, column and
order_index. -/
theorem C4_header_join_amended (k : TextType) (b1 b2 : ArticleBlock)
    (hk : isHeaderKind k = true) (h1 : b1.texttype = k) (h2 : b2.texttype = k)
    (ht1 : pyStrip b1.text = b1.text)
    (ht2 : pyStrip b2.text = b2.text) (hn2 : b2.text ≠ []) :
    merge_multiline_headers [b1, b2] =
      [{ texttype := k,
         text :=
           if b1.text.getLast? = some '-' ∧ startsAlphaB b2.text then
             b1.text.dropLast ++ b2.text
           else b1.text ++ ' ' :: b2.text,
         page := b1.page, column := b1.column, order_index := b1.order_index }] := by
  subst h1
  simp only [merge_multiline_headers, mergeGo, hk, if_true, ht1, h2, if_pos rfl]
  rw [show joinNext b1.text b2.text =
      (if b1.text.getLast? = some '-' ∧ startsAlphaB b2.text then
        b1.text.dropLast ++ b2.text
      else b1.text ++ ' ' :: b2.text) from by
    simp only [joinNext, ht2]
    rw [if_neg hn2]]
  rfl

/-- Witness for `C4_header_join_amended`: a plain-hyphen header wrap is
repaired into a direct join. -/
theorem C4_header_join_amended_witness :
    merge_multiline_headers
      [⟨TextType.SUBHEADING, "Sub-".toList, 0, 0, 0⟩,
       ⟨TextType.SUBHEADING, "titel".toList, 0, 0, 1⟩] =
      [⟨TextType.SUBHEADING, "Subtitel".toList, 0, 0, 0⟩] := by
  rw [C4_header_join_amended TextType.SUBHEADING _ _ (by decide) rfl rfl (by decide)
    (by decide) (by decide)]
  decide

/-! ## Claim C3: fixed-point behaviour of the two repair passes -/

/-- C3 (counterexample): `fix_hyphenation_across_block_breaks` is *not*
a fixed point of its own output: when a merged block still ends in a
hyphen it merges again with its successor on a second pass. -/
theorem C3_fixpoint_counterexample :
    fix_hyphenation_across_block_breaks
      [⟨TextType.PARAGRAPH, "aaa-".toList, 0, 0, 0⟩,
       ⟨TextType.PARAGRAPH, "bbb-".toList, 0, 0, 1⟩,
       ⟨TextType.PARAGRAPH, "ccc".toList, 0, 0, 2⟩] =
      [⟨TextType.PARAGRAPH, "aaabbb-".toList, 0, 0, 0⟩,
       ⟨TextType.PARAGRAPH, "ccc".toList, 0, 0, 2⟩]
    ∧ fix_hyphenation_across_block_breaks
      [⟨TextType.PARAGRAPH, "aaabbb-".toList, 0, 0, 0⟩,
       ⟨TextType.PARAGRAPH, "ccc".toList, 0, 0, 2⟩] =
      [⟨TextType.PARAGRAPH, "aaabbbccc".toList, 0, 0, 0⟩] :=
  ⟨by decide, by decide⟩

/-! ### Auxiliary facts about stripping -/

/-- Leading/trailing-whitespace freedom, the invariant `pyStrip` creates. -/
def Trimmed (l : PyStr) : Prop :=
  (∀ c, l.head? = some c → pyIsSpace c = false)
  ∧ (∀ c, l.getLast? = some c → pyIsSpace c = false)

theorem dropWhile_head_not (p : Char → Bool) (l : PyStr) :
    ∀ c, (l.dropWhile p).head? = some c → p c = false := by
  induction l with
  | nil => intro c h; cases h
  | cons x xs ih =>
    intro c h
    by_cases hp : p x
    · rw [List.dropWhile_cons_of_pos hp] at h
      exact ih c h
    · rw [List.dropWhile_cons_of_neg hp] at h
      cases h
      simpa using hp

theorem rdropWhile_getLast_not (p : Char → Bool) (l : PyStr) :
    ∀ c, (l.rdropWhile p).getLast? = some c → p c = false := by
  intro c h
  rw [List.rdropWhile, List.getLast?_reverse] at h
  exact dropWhile_head_not p l.reverse c h

theorem head?_of_isPrefix {l₁ l₂ : List Char} (h : l₁ <+: l₂) {c : Char}
    (hc : l₁.head? = some c) : l₂.head? = some c := by
  obtain ⟨t, rfl⟩ := h
  cases l₁ with
  | nil => cases hc
  | cons x xs => cases hc; rfl

theorem trimmed_strip (t : PyStr) : Trimmed (pyStrip t) := by
  constructor
  · intro c h
    have hpre : pyRstrip (pyLstrip t) <+: pyLstrip t := List.rdropWhile_prefix _ _
    exact dropWhile_head_not pyIsSpace t c (head?_of_isPrefix hpre h)
  · intro c h
    exact rdropWhile_getLast_not pyIsSpace (pyLstrip t) c h

theorem trimmed_iff (l : PyStr) : pyStrip l = l ↔ Trimmed l := by
  constructor
  · intro h
    rw [← h]
    exact trimmed_strip l
  · intro ⟨h1, h2⟩
    have hl : pyLstrip l = l := by
      cases hl : l with
      | nil => rfl
      | cons c cs =>
        have := h1 c (by rw [hl]; rfl)
        rw [pyLstrip, List.dropWhile_cons_of_neg (by simp [this])]
    have hr : pyRstrip l = l := by
      rw [pyRstrip, List.rdropWhile_eq_self_iff]
      intro hne
      have := h2 (l.getLast hne) (List.getLast?_eq_getLast l hne)
      simp [this]
    rw [pyStrip, hl, hr]

theorem strip_strip (t : PyStr) : pyStrip (pyStrip t) = pyStrip t :=
  (trimmed_iff (pyStrip t)).mpr (trimmed_strip t)

theorem head?_append_left {l₁ l₂ : List Char} {c : Char} (h : l₁.head? = some c) :
    (l₁ ++ l₂).head? = some c := by
  cases l₁ with
  | nil => cases h
  | cons x xs => cases h; rfl

theorem getLast?_append_right {l₁ l₂ : List Char} {c : Char} (h : l₂.getLast? = some c) :
    (l₁ ++ l₂).getLast? = some c := by
  rw [List.getLast?_append, h]
  rfl

/-! ### Claim C3 (amended): the header merge pass is idempotent on
trimmed streams -/

/-- The amended-claim hypothesis: every header block carries trimmed,
nonempty text (true of every pipeline-produced stream, whose block texts
come from whitespace-normalized lines). -/
def HdrOK (b : ArticleBlock) : Prop :=
  isHeaderKind b.texttype = true → (pyStrip b.text = b.text ∧ b.text ≠ [])

/-- Adjacent blocks are never headers of the same kind. -/
def hdrNoClash (a b : ArticleBlock) : Prop :=
  isHeaderKind a.texttype = true → isHeaderKind b.texttype = true →
    a.texttype ≠ b.texttype

theorem mkMerged_self (b : ArticleBlock) : mkMerged b.texttype b.text b = b := by
  cases b
  rfl

theorem joinNext_ok (acc t : PyStr) (hT : Trimmed acc) (hne : acc ≠ []) :
    Trimmed (joinNext acc t) ∧ joinNext acc t ≠ [] := by
  have hTs : Trimmed (pyStrip t) := trimmed_strip t
  unfold joinNext
  by_cases h0 : pyStrip t = []
  · rw [if_pos h0]
    exact ⟨hT, hne⟩
  · rw [if_neg h0]
    obtain ⟨d, hd⟩ : ∃ d, (pyStrip t).head? = some d := by
      cases hs : pyStrip t with
      | nil => exact absurd hs h0
      | cons x xs => exact ⟨x, rfl⟩
    obtain ⟨e, he⟩ : ∃ e, (pyStrip t).getLast? = some e := by
      cases hs : (pyStrip t).getLast? with
      | none =>
        have hnil : pyStrip t = [] := List.getLast?_eq_none.mp hs
        exact absurd hnil h0
      | some x => exact ⟨x, rfl⟩
    by_cases hg : acc.getLast? = some '-' ∧ startsAlphaB (pyStrip t)
    · rw [if_pos hg]
      refine ⟨⟨?_, ?_⟩, by simp [h0]⟩
      · intro c h
        rw [List.head?_append] at h
        cases hdl : acc.dropLast.head? with
        | none =>
          rw [hdl] at h
          rw [Option.none_or, hd] at h
          cases h
          exact hTs.1 _ hd
        | some d2 =>
          rw [hdl] at h
          simp only [Option.or] at h
          cases h
          apply hT.1
          cases hacc : acc with
          | nil => exact absurd hacc hne
          | cons a as =>
            rw [hacc] at hdl
            cases has : as with
            | nil => rw [has, List.dropLast_single] at hdl; cases hdl
            | cons a2 as2 =>
              rw [has, List.dropLast_cons₂] at hdl
              cases hdl
              rfl
      · intro c h
        rw [getLast?_append_right he] at h
        cases h
        exact hTs.2 _ he
    · rw [if_neg hg]
      refine ⟨⟨?_, ?_⟩, by simp⟩
      · intro c h
        cases hacc : acc with
        | nil => exact absurd hacc hne
        | cons a as =>
          rw [hacc] at h
          cases h
          exact hT.1 _ (by rw [hacc]; rfl)
      · intro c h
        have he2 : (' ' :: pyStrip t).getLast? = some e := by
          cases hs : pyStrip t with
          | nil => exact absurd hs h0
          | cons x xs =>
            rw [List.getLast?_cons_cons]
            rw [hs] at he
            exact he
        rw [getLast?_append_right he2] at h
        cases h
        exact hTs.2 _ he

/-- Running the merge loop inside a header run: it emits exactly one
merged block (kind and first-block metadata preserved, text still
trimmed and nonempty) and resumes the outer scan on a suffix whose head
no longer matches the run's kind. -/
theorem mergeGo_some_eq (bs : List ArticleBlock) :
    ∀ (k : TextType) (acc : PyStr) (fb : ArticleBlock), Trimmed acc → acc ≠ [] →
    ∃ acc2 rest, mergeGo (some (k, acc, fb)) bs = mkMerged k acc2 fb :: mergeGo none rest
      ∧ rest <:+ bs
      ∧ (∀ b2, rest.head? = some b2 → b2.texttype ≠ k)
      ∧ Trimmed acc2 ∧ acc2 ≠ [] := by
  induction bs with
  | nil =>
    intro k acc fb hT hne
    exact ⟨acc, [], rfl, List.nil_suffix, (fun b2 h => by simp at h), hT, hne⟩
  | cons b bs ih =>
    intro k acc fb hT hne
    by_cases hbk : b.texttype = k
    · simp only [mergeGo, if_pos hbk]
      have hj := joinNext_ok acc b.text hT hne
      obtain ⟨acc2, rest, heq, hsuf, hhead, hT2, hne2⟩ := ih k (joinNext acc b.text) fb hj.1 hj.2
      exact ⟨acc2, rest, heq, hsuf.trans (List.suffix_cons b bs), hhead, hT2, hne2⟩
    · simp only [mergeGo, if_neg hbk]
      refine ⟨acc, b :: bs, ?_, List.suffix_refl _, ?_, hT, hne⟩
      · rfl
      · intro b2 h
        cases h
        exact hbk

/-- On a stream whose header texts are trimmed and where no two adjacent
blocks are headers of the same kind, the merge pass is the identity. -/
theorem mergeGo_none_id : ∀ l : List ArticleBlock, (∀ b ∈ l, HdrOK b) →
    l.Chain' hdrNoClash → mergeGo none l = l := by
  intro l
  induction l with
  | nil => intro _ _; rfl
  | cons b bs ih =>
    intro hall hch
    by_cases hh : isHeaderKind b.texttype
    · have hok := hall b (List.mem_cons_self b bs) hh
      simp only [mergeGo, if_pos hh, hok.1]
      obtain ⟨acc2, rest, heq, hsuf, hhead, hT2, hne2⟩ :=
        mergeGo_some_eq bs b.texttype b.text b ((trimmed_iff b.text).mp hok.1) hok.2
      cases bs with
      | nil =>
        simp only [mergeGo] at heq ⊢
        exact mkMerged_self b ▸ rfl
      | cons b2 bs2 =>
        have hb2 : b2.texttype ≠ b.texttype := by
          intro hc
          have hh2 : isHeaderKind b2.texttype := by rw [hc]; exact hh
          exact (List.chain'_cons.mp hch).1 hh hh2 hc.symm
        simp only [mergeGo, if_neg hb2]
        have : (if isHeaderKind b2.texttype = true then
            mergeGo (some (b2.texttype, pyStrip b2.text, b2)) bs2
          else b2 :: mergeGo none bs2) = mergeGo none (b2 :: bs2) := by
          simp only [mergeGo]
        rw [this, mkMerged_self b,
          ih (fun x hx => hall x (List.mem_cons_of_mem b hx)) (List.chain'_cons.mp hch).2]
    · simp only [mergeGo, Bool.not_eq_true] at hh ⊢
      rw [hh]
      simp only [Bool.false_eq_true, if_false]
      cases bs with
      | nil => rfl
      | cons b2 bs2 =>
        rw [ih (fun x hx => hall x (List.mem_cons_of_mem b hx)) (List.chain'_cons.mp hch).2]

/-- The merge pass establishes the very invariants under which it is the
identity: header texts trimmed and nonempty, no two adjacent same-kind
headers — and it preserves the head block's kind. -/
theorem mergeGo_none_clean : ∀ (n : Nat) (l : List ArticleBlock), l.length ≤ n →
    (∀ b ∈ l, HdrOK b) →
    (∀ b ∈ mergeGo none l, HdrOK b) ∧ (mergeGo none l).Chain' hdrNoClash ∧
      (mergeGo none l).head?.map (fun b => b.texttype) =
        l.head?.map (fun b => b.texttype) := by
  intro n
  induction n with
  | zero =>
    intro l hl _
    have : l = [] := List.length_eq_zero.mp (Nat.le_zero.mp hl)
    subst this
    exact ⟨(fun b hb => absurd hb (List.not_mem_nil b)), List.chain'_nil, rfl⟩
  | succ n ih =>
    intro l hl hall
    cases l with
    | nil => exact ⟨(fun b hb => absurd hb (List.not_mem_nil b)), List.chain'_nil, rfl⟩
    | cons b bs =>
      by_cases hh : isHeaderKind b.texttype
      · have hok := hall b (List.mem_cons_self b bs) hh
        simp only [mergeGo, if_pos hh, hok.1]
        obtain ⟨acc2, rest, heq, hsuf, hhead, hT2, hne2⟩ :=
          mergeGo_some_eq bs b.texttype b.text b ((trimmed_iff b.text).mp hok.1) hok.2
        rw [heq]
        have hrlen : rest.length ≤ n := by
          have := hsuf.length_le
          simp only [List.length_cons] at hl
          omega
        have hrall : ∀ x ∈ rest, HdrOK x :=
          fun x hx => hall x (List.mem_cons_of_mem b (hsuf.subset hx))
        obtain ⟨ih1, ih2, ih3⟩ := ih rest hrlen hrall
        refine ⟨?_, ?_, ?_⟩
        · intro x hx
          rcases List.mem_cons.mp hx with hx | hx
          · subst hx
            intro _
            exact ⟨(trimmed_iff acc2).mpr hT2, hne2⟩
          · exact ih1 x hx
        · rw [List.chain'_cons']
          refine ⟨?_, ih2⟩
          intro y hy
          rw [Option.mem_def] at hy
          intro _ _
          cases hrest : rest with
          | nil =>
            rw [hrest] at hy
            simp only [mergeGo] at hy
            cases hy
          | cons r rs =>
            have hy3 : y.texttype = r.texttype := by
              rw [hrest] at hy ih3
              rw [hy] at ih3
              simpa using ih3
            show (mkMerged b.texttype acc2 b).texttype ≠ y.texttype
            simp only [mkMerged]
            rw [hy3]
            exact Ne.symm (hhead r (by rw [hrest]; rfl))
        · rfl
      · simp only [mergeGo, Bool.not_eq_true] at hh
        simp only [mergeGo, hh, Bool.false_eq_true, if_false]
        have hblen : bs.length ≤ n := by
          simp only [List.length_cons] at hl
          omega
        obtain ⟨ih1, ih2, ih3⟩ :=
          ih bs hblen (fun x hx => hall x (List.mem_cons_of_mem b hx))
        refine ⟨?_, ?_, rfl⟩
        · intro x hx
          rcases List.mem_cons.mp hx with hx | hx
          · subst hx
            exact hall _ (List.mem_cons_self _ _)
          · exact ih1 x hx
        · rw [List.chain'_cons']
          refine ⟨?_, ih2⟩
          intro y _
          intro hyh
          rw [hh] at hyh
          cases hyh

/-- C3 (amended): `merge_multiline_headers` is a fixed point on every
block stream whose header blocks carry trimmed, nonempty text — in
particular on every pipeline-produced stream.  (The companion conjunct
of the original claim fails: `fix_hyphenation_across_block_breaks` is
not a fixed point, see the counterexample.) -/
theorem C3_header_merge_fixpoint_amended (blocks : List ArticleBlock)
    (h : ∀ b ∈ blocks, isHeaderKind b.texttype = true →
      (pyStrip b.text = b.text ∧ b.text ≠ [])) :
    merge_multiline_headers (merge_multiline_headers blocks) =
      merge_multiline_headers blocks := by
  obtain ⟨h1, h2, _⟩ := mergeGo_none_clean blocks.length blocks le_rfl h
  exact mergeGo_none_id _ h1 h2

/-- Witness for `C3_header_merge_fixpoint_amended` on a concrete stream
with a two-fragment intro header. -/
theorem C3_header_merge_fixpoint_amended_witness :
    merge_multiline_headers (merge_multiline_headers
      [⟨TextType.INTRO, "Kop".toList, 0, 0, 0⟩,
       ⟨TextType.INTRO, "vervolg".toList, 0, 0, 1⟩,
       ⟨TextType.PARAGRAPH, "Tekst.".toList, 0, 0, 2⟩]) =
    merge_multiline_headers
      [⟨TextType.INTRO, "Kop".toList, 0, 0, 0⟩,
       ⟨TextType.INTRO, "vervolg".toList, 0, 0, 1⟩,
       ⟨TextType.PARAGRAPH, "Tekst.".toList, 0, 0, 2⟩] :=
  C3_header_merge_fixpoint_amended _ (by decide)

/-! ## Claim C5: the end-marker detector -/

theorem skipBack_rdrop (p : Char → Bool) (t : PyStr) :
    ∀ k : Nat, k ≤ t.length →
      skipBackWhile p t k = (List.rdropWhile p (t.take k)).length := by
  intro k
  induction k with
  | zero => intro _; rfl
  | succ k ih =>
    intro hk
    have hklt : k < t.length := hk
    obtain ⟨c, hc⟩ : ∃ c, t.get? k = some c := by
      cases hg : t.get? k with
      | none =>
        rw [List.get?_eq_none] at hg
        omega
      | some c => exact ⟨c, rfl⟩
    have hc2 : t[k]? = some c := by
      rw [← List.get?_eq_getElem?]
      exact hc
    rw [List.take_succ, hc2]
    simp only [Option.toList_some]
    by_cases hp : p c
    · rw [List.rdropWhile_concat_pos _ _ _ hp]
      simp only [skipBackWhile, hc, if_pos hp]
      exact ih (le_of_lt hklt)
    · rw [List.rdropWhile_concat_neg _ _ _ hp]
      simp only [skipBackWhile, hc, if_neg hp]
      rw [List.length_append, List.length_take]
      simp [Nat.min_eq_left (le_of_lt hklt)]

theorem first_occ {x : Char} : ∀ l : PyStr, x ∈ l → ∃ a r, l = a ++ x :: r ∧ x ∉ a := by
  intro l
  induction l with
  | nil => intro h; cases h
  | cons c cs ih =>
    intro h
    by_cases hc : c = x
    · subst hc
      exact ⟨[], cs, rfl, List.not_mem_nil c⟩
    · have hx : x ∈ cs := by
        rcases List.mem_cons.mp h with h1 | h1
        · exact absurd h1.symm hc
        · exact h1
      obtain ⟨a, r, rfl, hna⟩ := ih hx
      refine ⟨c :: a, r, rfl, ?_⟩
      intro hmem
      rcases List.mem_cons.mp hmem with h1 | h1
      · exact hc h1.symm
      · exact hna h1

theorem last_bullet_decomp (t : PyStr) (h : '•' ∈ t) :
    ∃ before after : PyStr, t = before ++ '•' :: after ∧ '•' ∉ after := by
  have hr : '•' ∈ t.reverse := List.mem_reverse.mpr h
  obtain ⟨a, r, hd, hna⟩ := first_occ t.reverse hr
  refine ⟨r.reverse, a.reverse, ?_, by simpa using hna⟩
  have h2 := congrArg List.reverse hd
  rw [List.reverse_reverse] at h2
  rw [h2, List.reverse_append, List.reverse_cons, List.append_assoc]
  rfl

theorem findIdx?_eq_length (l1 l2 : PyStr) (x : Char) (h : x ∉ l1) :
    List.findIdx? (fun d => decide (d = x)) (l1 ++ x :: l2) = some l1.length := by
  induction l1 with
  | nil => simp [List.findIdx?_cons]
  | cons c cs ih =>
    have hne : ¬ (c = x) := fun hc => h (by rw [hc]; exact List.mem_cons_self x cs)
    rw [List.cons_append, List.findIdx?_cons, if_neg (by simp [hne]), List.findIdx?_succ,
      ih (fun hx => h (List.mem_cons_of_mem c hx))]
    rfl

theorem pyRfindChar_eq (before after : PyStr) (h : '•' ∉ after) :
    pyRfindChar (before ++ '•' :: after) '•' = (before.length : Int) := by
  unfold pyRfindChar
  have h1 : (before ++ '•' :: after).reverse = after.reverse ++ '•' :: before.reverse := by
    rw [List.reverse_append, List.reverse_cons, List.append_assoc]
    rfl
  rw [h1, findIdx?_eq_length _ _ _ (by simpa using h)]
  simp only [List.length_append, List.length_cons, List.length_reverse]
  push_cast
  omega

/-- C5 (confirmed): the end-marker detector agrees everywhere with its
specification reading — reject when the bullet is absent or is the first
non-whitespace character, otherwise scan back from the last bullet over
whitespace then closing quotes and demand a period, returning the text
truncated after the period and quotes — and yields
`(True, "Dit is een zin.")` on `"Dit is een zin. •"`. -/
theorem C5_end_marker_detector :
    (∀ line : ArticlePageLine, check_end_marker line = check_end_marker_spec line)
    ∧ check_end_marker
        { page_index := 0, text := "Dit is een zin. •".toList, bbox := ⟨0, 0, 0, 0⟩,
          x_center := 0, x_left := 0, y_top := 0, max_font_size := 9,
          has_univers := false, has_minion := true, is_bold_like := false } =
      (true, "Dit is een zin.".toList) := by
  constructor
  · intro line
    by_cases hb : line.text.contains '•'
    · by_cases hf : (line.text.dropWhile pyIsSpace).head? = some '•'
      · simp [check_end_marker, check_end_marker_spec, pyLstrip, hb, hf]
      · have hmem : '•' ∈ line.text := by simpa [List.contains] using hb
        obtain ⟨before, after, hdec, hnb⟩ := last_bullet_decomp line.text hmem
        have hrfind : pyRfindChar line.text '•' = (before.length : Int) := by
          rw [hdec]
          exact pyRfindChar_eq before after hnb
        have hlen : line.text.length = before.length + after.length + 1 := by
          rw [hdec]
          simp only [List.length_append, List.length_cons]
          omega
        have hblen : before.length ≤ line.text.length := by omega
        have htake : line.text.take before.length = before := by
          rw [hdec]
          exact List.take_left' rfl
        have hBB : ((line.text.reverse.dropWhile (fun c => decide (c ≠ '•'))).tail).reverse
            = before := by
          have h1 : line.text.reverse = after.reverse ++ '•' :: before.reverse := by
            rw [hdec, List.reverse_append, List.reverse_cons, List.append_assoc]
            rfl
          rw [h1, List.dropWhile_append]
          have h2 : after.reverse.dropWhile (fun c => decide (c ≠ '•')) = [] := by
            rw [List.dropWhile_eq_nil_iff]
            intro x hx
            simp only [decide_eq_true_eq, Decidable.not_not]
            by_contra hxx
            exact hnb (List.mem_reverse.mp (by
              have : x = '•' := by simpa using hxx
              rw [← this]
              exact hx))
          rw [h2]
          simp only [List.isEmpty_nil, if_true]
          rw [List.dropWhile_cons_of_neg (by simp)]
          simp
        set kept := List.rdropWhile pyIsSpace before with hkeptdef
        set core := kept.rdropWhile (fun c => closing_quotes.contains c) with hcoredef
        have hk1 : skipBackWhile pyIsSpace line.text ((before.length : Int)).toNat
            = kept.length := by
          rw [Int.toNat_natCast, skipBack_rdrop pyIsSpace line.text before.length hblen, htake]
        have hkpre : ∃ s, line.text = kept ++ s := by
          obtain ⟨w, hw⟩ := List.rdropWhile_prefix pyIsSpace before
          exact ⟨w ++ '•' :: after, by rw [hdec, ← hw, List.append_assoc]⟩
        obtain ⟨s, hs⟩ := hkpre
        have htake2 : line.text.take kept.length = kept := by
          rw [hs]
          exact List.take_left' rfl
        have hk2 : skipBackWhile (fun c => closing_quotes.contains c) line.text kept.length
            = core.length := by
          rw [skipBack_rdrop _ _ kept.length (by rw [hs]; simp), htake2]
        simp only [check_end_marker, check_end_marker_spec, pyLstrip]
        rw [hrfind]
        simp only [if_neg (not_not_intro hb), if_neg hf, hBB, hk1]
        rw [if_neg (show ¬((before.length : Int) = -1) from by omega)]
        by_cases hkept : kept.length = 0
        · rw [if_pos hkept]
          have hkeptnil : kept = [] := List.length_eq_zero.mp hkept
          rw [← hkeptdef, hkeptnil]
          simp [List.rdropWhile]
        · rw [if_neg hkept, hk2, ← hkeptdef, ← hcoredef]
          by_cases hcore : core.length = 0
          · rw [if_pos hcore]
            have hcorenil : core = [] := List.length_eq_zero.mp hcore
            rw [hcorenil]
            simp
          · rw [if_neg hcore]
            have hcpre : ∃ s2, line.text = core ++ s2 := by
              obtain ⟨w2, hw2⟩ := List.rdropWhile_prefix (fun c => closing_quotes.contains c) kept
              rw [hcoredef]
              exact ⟨w2 ++ s, by rw [hs, ← List.append_assoc, hw2]⟩
            have hget : line.text.get? (core.length - 1) = core.getLast? := by
              obtain ⟨s2, hs2⟩ := hcpre
              rw [hs2, List.get?_append (by omega), List.getLast?_eq_get?]
            rw [hget]
            by_cases hdot : core.getLast? = some '.'
            · rw [if_pos hdot, if_pos hdot]
              have he : kept.length - 1 + 1 = kept.length := by omega
              rw [he, htake2]
              have hrk : pyRstrip kept = kept := by
                rw [pyRstrip, List.rdropWhile_eq_self_iff]
                intro hne
                have := rdropWhile_getLast_not pyIsSpace before (kept.getLast hne)
                  (by rw [← hkeptdef]; exact List.getLast?_eq_getLast kept hne)
                simp [this]
              rw [hrk]
            · rw [if_neg hdot, if_neg hdot]
    · have hnmem : ¬ ('•' ∈ line.text) := by simpa [List.contains] using hb
      simp [check_end_marker, check_end_marker_spec, hnmem]
  · decide

/-! ## Text cleanup (`_dehyphenate_and_reflow`) and its `textwrap` model -/

/-- Python `str.replace` for single characters. -/
def pyReplaceChar (t : PyStr) (a b : Char) : PyStr :=
  t.map (fun c => if c = a then b else c)

/-- Python `str.replace(a, "")` for a single character. -/
def pyRemoveChar (t : PyStr) (a : Char) : PyStr :=
  t.filter (fun c => decide (c ≠ a))

/-- Python `str.strip("\n")`. -/
def pyStripNL (t : PyStr) : PyStr :=
  (t.dropWhile (fun c => decide (c = '\n'))).rdropWhile (fun c => decide (c = '\n'))

/-- Index of the last `'\n'` in a string, if any. -/
def lastNLIdx (run : PyStr) : Option Nat :=
  (run.reverse.findIdx? (fun c => decide (c = '\n'))).map (fun i => run.length - 1 - i)

/-- `re.split(r"\n\s*\n", ·)`: at each `'\n'`, the greedy `\s*` runs to
the end of the following whitespace run and backtracks to the last `'\n'`
inside it; without one there is no match and scanning continues.  The
fuel strictly exceeds the number of steps (each consumes a character). -/
def splitBlankGo : Nat → PyStr → PyStr → List PyStr
  | 0, cur, _ => [cur.reverse]
  | _ + 1, cur, [] => [cur.reverse]
  | fuel + 1, cur, c :: rest =>
    if c = '\n' then
      match lastNLIdx (rest.takeWhile pyIsSpace) with
      | some p => cur.reverse :: splitBlankGo fuel [] (rest.drop (p + 1))
      | none => splitBlankGo fuel (c :: cur) rest
    else splitBlankGo fuel (c :: cur) rest

def splitBlank (s : PyStr) : List PyStr := splitBlankGo (s.length + 1) [] s

/-- The line-break characters of Python `str.splitlines`. -/
def isSplitLineChar (c : Char) : Bool :=
  decide (c = '\n' ∨ c = '\r' ∨ c.toNat = 0x0B ∨ c.toNat = 0x0C ∨ c.toNat = 0x1C ∨
    c.toNat = 0x1D ∨ c.toNat = 0x1E ∨ c.toNat = 0x85 ∨ c.toNat = 0x2028 ∨ c.toNat = 0x2029)

/-- Python `str.splitlines` (no terminal empty line; `"\r\n"` counts as
one break). -/
def pySplitLinesGo : PyStr → PyStr → List PyStr
  | cur, [] => if cur.isEmpty then [] else [cur.reverse]
  | cur, '\r' :: '\n' :: rest => cur.reverse :: pySplitLinesGo [] rest
  | cur, c :: rest =>
    if isSplitLineChar c then cur.reverse :: pySplitLinesGo [] rest
    else pySplitLinesGo (c :: cur) rest

def pySplitLines (t : PyStr) : List PyStr := pySplitLinesGo [] t

/-- `re.sub(r"\s+", " ", ·)`: collapse every whitespace run to a single
space (tracking whether the previous character was whitespace). -/
def collapseGo : Bool → PyStr → PyStr
  | _, [] => []
  | prevWS, c :: rest =>
    if pyIsSpace c then
      if prevWS then collapseGo true rest else ' ' :: collapseGo true rest
    else c :: collapseGo false rest

def collapseWS (t : PyStr) : PyStr := collapseGo false t

/-- Python `str.split()`: the maximal nonempty whitespace-free runs. -/
def pyWordsGo : PyStr → PyStr → List PyStr
  | cur, [] => if cur.isEmpty then [] else [cur.reverse]
  | cur, c :: rest =>
    if pyIsSpace c then
      if cur.isEmpty then pyWordsGo [] rest else cur.reverse :: pyWordsGo [] rest
    else pyWordsGo (c :: cur) rest

def pyWords (t : PyStr) : List PyStr := pyWordsGo [] t

/-- `re.search(r"[A-Za-zÀ-ÿ]-$", ·)` on a newline-free buffer. -/
def endsLetterHyphen (b : PyStr) : Bool :=
  match b.reverse with
  | '-' :: d :: _ => latinLetter d
  | _ => false

/-- `re.match(r"[A-Za-zÀ-ÿ]", ·)`. -/
def startsLetterB (t : PyStr) : Bool :=
  match t with
  | c :: _ => latinLetter c
  | [] => false

/-- The intra-paragraph line-joining loop of `_dehyphenate_and_reflow`:
glue directly (dropping the trailing hyphen) when the buffer ends in a
letter and hyphen and the stripped next line starts with a letter,
otherwise join with a single space. -/
def joinBuf (buffer : PyStr) : List PyStr → PyStr
  | [] => buffer
  | next :: rest =>
    let nxt := pyLstrip next
    if endsLetterHyphen buffer ∧ startsLetterB nxt then joinBuf (buffer.dropLast ++ nxt) rest
    else joinBuf (buffer ++ ' ' :: nxt) rest

/-! ### `textwrap.fill` with CPython's default options (`break_long_words`
and `break_on_hyphens` on, whitespace dropped, no indents).  `expand_tabs`
is omitted: the only caller passes a whitespace-collapsed, tab-free
buffer. -/

/-- ASCII decimal digits (the `\d` of the wordsep pattern, modelled for
the code points this file exercises). -/
def pyIsDigit (c : Char) : Bool := decide ('0' ≤ c ∧ c ≤ '9')

/-- Python regex `\w` (word character), on the modelled code points. -/
def twWord (c : Char) : Bool := pyIsAlpha c ∨ pyIsDigit c ∨ c = '_'

/-- The `[^\d\W]` letter class of `textwrap`'s wordsep pattern. -/
def twLetter (c : Char) : Bool := twWord c ∧ ¬ pyIsDigit c

/-- The `word_punct` class `[\w!"\'&.,?]` of the wordsep pattern. -/
def twWordPunct (c : Char) : Bool :=
  twWord c ∨ decide (c ∈ ['!', '"', '\'', '&', '.', ',', '?'])

/-- The em-dash lookahead `-{2,}\w`: at least two hyphens followed by a
word character. -/
def emDashAhead (rest : PyStr) : Bool :=
  let run := rest.takeWhile (fun c => decide (c = '-'))
  decide (2 ≤ run.length) &&
    (match rest.drop run.length with
     | c :: _ => twWord c
     | [] => false)

/-- The hyphenated-word lookbehind `(?<=[letter]{2}-)|(?<=[letter]-[letter]-)`
evaluated on the reversed consumed text (head = last consumed char). -/
def hyphenBehind (acc : PyStr) : Bool :=
  match acc with
  | '-' :: l1 :: c2 :: tail =>
    twLetter l1 && (twLetter c2 || (decide (c2 = '-') &&
      (match tail with
       | l2 :: _ => twLetter l2
       | [] => false)))
  | _ => false

/-- The hyphenated-word lookahead `(?=[letter]-?[letter])`. -/
def hyphenAhead (rest : PyStr) : Bool :=
  match rest with
  | c :: rest2 =>
    twLetter c && (match rest2 with
      | d :: rest3 => twLetter d || (decide (d = '-') &&
          (match rest3 with
           | e :: _ => twLetter e
           | [] => false))
      | [] => false)
  | [] => false

/-- The minimal scan `\S+?` of one word chunk: consume characters until
the first position where one of the wordsep exits applies — hyphenated
word split, end of word (whitespace or end of text), or em-dash ahead
after word punctuation. -/
def wordScan : PyStr → PyStr → PyStr × PyStr
  | acc, [] => (acc.reverse, [])
  | acc, c :: rest =>
    let acc2 := c :: acc
    if (hyphenBehind acc2 && hyphenAhead rest) = true then (acc2.reverse, rest)
    else if (match rest with
             | [] => true
             | d :: _ => pyIsSpace d) = true then (acc2.reverse, rest)
    else if (twWordPunct c && emDashAhead rest) = true then (acc2.reverse, rest)
    else wordScan acc2 rest

/-- `TextWrapper._split` (the wordsep pattern): split text into
whitespace runs, em-dash runs, and word chunks; `prev` carries the last
character of the previous chunk for the em-dash lookbehind.  Each chunk
is nonempty, so the caller's fuel strictly exceeds the chunk count. -/
def splitChunksGo : Nat → Option Char → PyStr → List PyStr
  | 0, _, _ => []
  | _ + 1, _, [] => []
  | fuel + 1, prev, c :: rest =>
    if pyIsSpace c then
      let chunk := (c :: rest).takeWhile pyIsSpace
      chunk :: splitChunksGo fuel chunk.getLast? ((c :: rest).dropWhile pyIsSpace)
    else if ((match prev with
             | some p => twWordPunct p
             | none => false) && emDashAhead (c :: rest)) = true then
      let run := (c :: rest).takeWhile (fun d => decide (d = '-'))
      run :: splitChunksGo fuel run.getLast? ((c :: rest).dropWhile (fun d => decide (d = '-')))
    else
      let r := wordScan [] (c :: rest)
      r.1 :: splitChunksGo fuel r.1.getLast? r.2

def splitChunks (t : PyStr) : List PyStr := splitChunksGo (t.length + 1) none t

/-- A chunk consisting of whitespace (`chunk.strip() == ''`). -/
def isWSChunk (ch : PyStr) : Bool := ch.all pyIsSpace

/-- The greedy inner loop of `_wrap_chunks`: take chunks while they fit. -/
def takeLine (w : Nat) : Nat → List PyStr → List PyStr × List PyStr
  | _, [] => ([], [])
  | len, ch :: rest =>
    if len + ch.length ≤ w then
      let r := takeLine w (len + ch.length) rest
      (ch :: r.1, r.2)
    else ([], ch :: rest)

/-- `_handle_long_word`: how many characters of an over-long chunk go on
the current line (preferring a break after the last hyphen that fits). -/
def handleLongWordEnd (w curLen : Nat) (chunk : PyStr) : Nat :=
  let space_left := if w < 1 then 1 else w - curLen
  if space_left < chunk.length then
    match (chunk.take space_left).reverse.findIdx? (fun d => decide (d = '-')) with
    | some j =>
      let hyphen := (chunk.take space_left).length - 1 - j
      if 0 < hyphen ∧ (chunk.take hyphen).any (fun d => decide (d ≠ '-')) then hyphen + 1
      else space_left
    | none => space_left
  else space_left

/-- One iteration of the outer `_wrap_chunks` loop: optionally drop a
leading whitespace chunk (only once a line exists), take greedily, break
an over-long head chunk, drop a trailing whitespace chunk, and emit the
line if nonempty. -/
def buildLine (w : Nat) (started : Bool) (chunks : List PyStr) : Option PyStr × List PyStr :=
  let chunks1 := match chunks with
    | ch :: rest => if started ∧ isWSChunk ch then rest else ch :: rest
    | [] => []
  let tl := takeLine w 0 chunks1
  let curLen := (tl.1.map List.length).sum
  let step2 : List PyStr × List PyStr := match tl.2 with
    | ch :: rest2 =>
      if w < ch.length then
        let e := handleLongWordEnd w curLen ch
        (tl.1 ++ [ch.take e], ch.drop e :: rest2)
      else (tl.1, ch :: rest2)
    | [] => (tl.1, [])
  let cur2 := match step2.1.getLast? with
    | some last => if isWSChunk last then step2.1.dropLast else step2.1
    | none => step2.1
  if cur2.isEmpty then (none, step2.2) else (some cur2.join, step2.2)

/-- The outer loop of `_wrap_chunks`; every iteration consumes a chunk or
shortens the head chunk, except a single stall per full line, so the
caller's fuel bounds the iteration count. -/
def wrapGo (w : Nat) : Nat → Bool → List PyStr → List PyStr
  | 0, _, _ => []
  | _ + 1, _, [] => []
  | fuel + 1, started, chs =>
    let r := buildLine w started chs
    match r.1 with
    | some line => line :: wrapGo w fuel true r.2
    | none => wrapGo w fuel started r.2

def wrapChunks (w : Nat) (chunks : List PyStr) : List PyStr :=
  wrapGo w ((chunks.map List.length).sum + 2 * chunks.length + 2) false chunks

/-- `_munge_whitespace` (without `expand_tabs`, see above). -/
def mungeWS (t : PyStr) : PyStr :=
  t.map (fun c =>
    if c = '\t' ∨ c = '\n' ∨ c.toNat = 0x0B ∨ c.toNat = 0x0C ∨ c = '\r' then ' ' else c)

/-- `textwrap.fill(t, width)` with default options. -/
def textwrapFill (t : PyStr) (w : Nat) : PyStr :=
  List.intercalate ['\n'] (wrapChunks w (splitChunks (mungeWS t)))

/-- The per-paragraph body of `_dehyphenate_and_reflow`: keep the
non-blank lines right-stripped, join them with the hyphenation-aware
rule, collapse whitespace, strip, and rewrap. -/
def processPara (width : Nat) (para : PyStr) : Option PyStr :=
  match (pySplitLines para).filter (fun ln => !(pyStrip ln).isEmpty) |>.map pyRstrip with
  | [] => none
  | l1 :: rest => some (textwrapFill (pyStrip (collapseWS (joinBuf l1 rest))) width)

/-- `_dehyphenate_and_reflow`: normalize problematic Unicode whitespace,
split into blank-line paragraphs, dehyphenate and reflow each, and join
with blank lines. -/
def dehyphenate_and_reflow (text : PyStr) (width : Nat) : PyStr :=
  let t := pyReplaceChar (pyReplaceChar (pyRemoveChar text '\u00AD') '\u00A0' ' ') '\u2009' ' '
  let paragraphs := splitBlank (pyStripNL t)
  let processed := paragraphs.filterMap (processPara width)
  List.intercalate ('\n' :: '\n' :: []) processed ++ ['\n']

/-! ## Claim C2: idempotence of dehyphenate-and-reflow -/

set_option maxRecDepth 20000 in
/-- C2 (counterexample): the stage is *not* idempotent.  At width 80 the
rewrap breaks the hyphenated word `bbbb-cccc` after its hyphen at the end
of the first line; a second run then glues the parts, deleting the hyphen
— the word content changes (`"bbbb-", "cccc"` becomes `"bbbbcccc"`),
which is more than whitespace normalization. -/
theorem C2_reflow_counterexample :
    (dehyphenate_and_reflow ((List.replicate 74 'a') ++ " bbbb-cccc".toList) 80 =
      (List.replicate 74 'a') ++ " bbbb-\ncccc\n".toList)
    ∧ (dehyphenate_and_reflow ((List.replicate 74 'a') ++ " bbbb-\ncccc\n".toList) 80 =
      (List.replicate 74 'a') ++ "\nbbbbcccc\n".toList)
    ∧ pyWords ((List.replicate 74 'a') ++ " bbbb-\ncccc\n".toList) ≠
      pyWords ((List.replicate 74 'a') ++ "\nbbbbcccc\n".toList) := by
  refine ⟨by decide, by decide, by decide⟩

/-! ### Word-level reasoning for the amended C2 claim -/

/-- `" ".join(ws)`. -/
def unwords (ws : List PyStr) : PyStr := List.intercalate [' '] ws

/-- A whitespace-free character. -/
def nonWS (c : Char) : Bool := !pyIsSpace c

theorem pyWordsGo_ws_skip (t : PyStr) (hall : ∀ c ∈ t, pyIsSpace c = true) :
    ∀ cur, pyWordsGo cur t = pyWordsGo cur [] := by
  induction t with
  | nil => intro cur; rfl
  | cons c rest ih =>
    intro cur
    have hc := hall c (List.mem_cons_self c rest)
    have ih2 := ih (fun d hd => hall d (List.mem_cons_of_mem c hd))
    by_cases hcur : cur.isEmpty
    · have hcur' : cur = [] := List.isEmpty_iff.mp hcur
      subst hcur'
      simp only [pyWordsGo, hc, if_true, List.isEmpty_nil]
      exact ih2 []
    · have hl : pyWordsGo cur (c :: rest) = cur.reverse :: pyWordsGo [] rest := by
        simp [pyWordsGo, hc, hcur]
      rw [hl, ih2 []]
      simp [pyWordsGo, hcur]

theorem pyWordsGo_nonempty (t : PyStr) :
    ∀ cur, cur ≠ [] → pyWordsGo cur t =
      (cur.reverse ++ t.takeWhile nonWS) :: pyWordsGo [] (t.dropWhile nonWS) := by
  induction t with
  | nil =>
    intro cur h
    have h' : cur.isEmpty = false := by simpa using h
    simp [pyWordsGo, h']
  | cons c rest ih =>
    intro cur h
    by_cases hc : pyIsSpace c
    · have hnw : nonWS c = false := by simp [nonWS, hc]
      have h' : cur.isEmpty = false := by simpa using h
      have hl : pyWordsGo cur (c :: rest) = cur.reverse :: pyWordsGo [] rest := by
        simp [pyWordsGo, hc, h']
      have hr : pyWordsGo ([] : PyStr) (c :: rest) = pyWordsGo [] rest := by
        simp [pyWordsGo, hc]
      simp [hl, hnw, hr]
    · have hnw : nonWS c = true := by simp [nonWS, hc]
      simp only [pyWordsGo, hc, Bool.false_eq_true, if_false, List.takeWhile_cons,
        List.dropWhile_cons, hnw, if_true]
      rw [ih (c :: cur) (by simp)]
      simp

theorem pyWords_cons_ws (c : Char) (t : PyStr) (hc : pyIsSpace c = true) :
    pyWords (c :: t) = pyWords t := by
  simp [pyWords, pyWordsGo, hc]

theorem pyWords_cons_word (c : Char) (t : PyStr) (hc : pyIsSpace c = false) :
    pyWords (c :: t) =
      (c :: t.takeWhile nonWS) :: pyWords (t.dropWhile nonWS) := by
  simp only [pyWords, pyWordsGo, hc, Bool.false_eq_true, if_false]
  rw [pyWordsGo_nonempty t [c] (by simp)]
  rfl

theorem pyWords_wsHead (p t : PyStr) (hall : ∀ c ∈ p, pyIsSpace c = true) :
    pyWords (p ++ t) = pyWords t := by
  induction p with
  | nil => rfl
  | cons c rest ih =>
    rw [List.cons_append, pyWords_cons_ws c _ (hall c (List.mem_cons_self c rest))]
    exact ih (fun d hd => hall d (List.mem_cons_of_mem c hd))

theorem pyWordsGo_snoc_ws (c : Char) (hc : pyIsSpace c = true) :
    ∀ (a cur : PyStr), pyWordsGo cur (a ++ [c]) = pyWordsGo cur a := by
  intro a
  induction a with
  | nil =>
    intro cur
    by_cases h : cur.isEmpty <;> simp [pyWordsGo, hc, h]
  | cons d a' ih =>
    intro cur
    by_cases hd : pyIsSpace d
    · by_cases h : cur.isEmpty <;>
        simp [pyWordsGo, hd, h, ih]
    · simp [pyWordsGo, hd, ih]

theorem pyWordsGo_append_ws (c : Char) (hc : pyIsSpace c = true) (b : PyStr) :
    ∀ (a cur : PyStr),
      pyWordsGo cur (a ++ c :: b) = pyWordsGo cur (a ++ [c]) ++ pyWordsGo [] b := by
  intro a
  induction a with
  | nil =>
    intro cur
    by_cases h : cur.isEmpty <;> simp [pyWordsGo, hc, h]
  | cons d a' ih =>
    intro cur
    by_cases hd : pyIsSpace d
    · by_cases h : cur.isEmpty <;> simp [pyWordsGo, hd, h, ih]
    · simp [pyWordsGo, hd, ih]

theorem pyWords_sep (c : Char) (hc : pyIsSpace c = true) (a b : PyStr) :
    pyWords (a ++ c :: b) = pyWords a ++ pyWords b := by
  unfold pyWords
  rw [pyWordsGo_append_ws c hc b a [], pyWordsGo_snoc_ws c hc a []]

theorem pyWords_wsTail (p : PyStr) (hall : ∀ c ∈ p, pyIsSpace c = true) :
    ∀ s : PyStr, pyWords (s ++ p) = pyWords s := by
  induction p with
  | nil => intro s; simp
  | cons c p' ih =>
    intro s
    have hc := hall c (List.mem_cons_self c p')
    have hstep : s ++ c :: p' = (s ++ [c]) ++ p' := by simp
    rw [hstep, ih (fun d hd => hall d (List.mem_cons_of_mem c hd))]
    exact pyWordsGo_snoc_ws c hc s []

theorem pyWords_allWS (u : PyStr) (hall : ∀ c ∈ u, pyIsSpace c = true) :
    pyWords u = [] := by
  have h := pyWordsGo_ws_skip u hall []
  simpa [pyWords, pyWordsGo] using h

theorem pyWords_single (w : PyStr) (hne : w ≠ [])
    (hall : ∀ c ∈ w, pyIsSpace c = false) : pyWords w = [w] := by
  cases w with
  | nil => exact absurd rfl hne
  | cons c r =>
    rw [pyWords_cons_word c r (hall c (List.mem_cons_self c r))]
    have h1 : r.takeWhile nonWS = r :=
      List.takeWhile_eq_self_iff.mpr
        (fun a ha => by simp [nonWS, hall a (List.mem_cons_of_mem c ha)])
    have h2 : r.dropWhile nonWS = [] :=
      List.dropWhile_eq_nil_iff.mpr
        (fun a ha => by simp [nonWS, hall a (List.mem_cons_of_mem c ha)])
    rw [h1, h2]
    rfl

theorem unwords_single (w : PyStr) : unwords [w] = w := by
  simp [unwords, List.intercalate]

theorem unwords_cons (w : PyStr) (l : List PyStr) (h : l ≠ []) :
    unwords (w :: l) = w ++ ' ' :: unwords l := by
  cases l with
  | nil => exact absurd rfl h
  | cons x xs =>
    simp only [unwords, List.intercalate, List.intersperse]
    simp

/-- A list of "clean" words: each nonempty and whitespace-free. -/
def CleanWords (ws : List PyStr) : Prop :=
  ∀ w ∈ ws, w ≠ [] ∧ ∀ c ∈ w, pyIsSpace c = false

theorem pyWords_unwords (ws : List PyStr) (h : CleanWords ws) :
    pyWords (unwords ws) = ws := by
  induction ws with
  | nil => rfl
  | cons w rest ih =>
    obtain ⟨hw1, hw2⟩ := h w (List.mem_cons_self _ _)
    cases rest with
    | nil => rw [unwords_single]; exact pyWords_single w hw1 hw2
    | cons w2 r2 =>
      rw [unwords_cons w _ (by simp), pyWords_sep ' ' (by decide) w _,
        pyWords_single w hw1 hw2, ih (fun x hx => h x (List.mem_cons_of_mem _ hx))]
      rfl

theorem pyWordsGo_mem : ∀ (u cur w : PyStr), w ∈ pyWordsGo cur u →
    w ≠ [] ∧ ∀ c ∈ w, c ∈ cur ∨ (c ∈ u ∧ pyIsSpace c = false) := by
  intro u
  induction u with
  | nil =>
    intro cur w hw
    by_cases h : cur.isEmpty
    · simp [pyWordsGo, h] at hw
    · simp only [pyWordsGo, h, Bool.false_eq_true, if_false, List.mem_singleton] at hw
      subst hw
      refine ⟨fun hnil => ?_, fun c hc => Or.inl (List.mem_reverse.mp hc)⟩
      rw [List.reverse_eq_nil_iff] at hnil
      simp [hnil] at h
  | cons d u' ih =>
    intro cur w hw
    by_cases hd : pyIsSpace d
    · by_cases h : cur.isEmpty
      · simp only [pyWordsGo, hd, if_true, h] at hw
        obtain ⟨h1, h2⟩ := ih [] w hw
        refine ⟨h1, fun c hc => ?_⟩
        rcases h2 c hc with hcur | ⟨hm, hws⟩
        · simp at hcur
        · exact Or.inr ⟨List.mem_cons_of_mem d hm, hws⟩
      · simp only [pyWordsGo, hd, if_true, h, Bool.false_eq_true, if_false,
          List.mem_cons] at hw
        rcases hw with hw | hw
        · subst hw
          refine ⟨fun hnil => ?_, fun c hc => Or.inl (List.mem_reverse.mp hc)⟩
          rw [List.reverse_eq_nil_iff] at hnil
          simp [hnil] at h
        · obtain ⟨h1, h2⟩ := ih [] w hw
          refine ⟨h1, fun c hc => ?_⟩
          rcases h2 c hc with hcur | ⟨hm, hws⟩
          · simp at hcur
          · exact Or.inr ⟨List.mem_cons_of_mem d hm, hws⟩
    · simp only [pyWordsGo, hd, Bool.false_eq_true, if_false] at hw
      obtain ⟨h1, h2⟩ := ih (d :: cur) w hw
      refine ⟨h1, fun c hc => ?_⟩
      rcases h2 c hc with hcur | ⟨hm, hws⟩
      · rcases List.mem_cons.mp hcur with hcd | hcc
        · exact Or.inr ⟨by simp [hcd], by simp [hcd, hd]⟩
        · exact Or.inl hcc
      · exact Or.inr ⟨List.mem_cons_of_mem d hm, hws⟩

/-- Every word of `str.split()` is nonempty, whitespace-free and drawn
from the input's characters. -/
theorem pyWords_props (u w : PyStr) (hw : w ∈ pyWords u) :
    w ≠ [] ∧ ∀ c ∈ w, c ∈ u ∧ pyIsSpace c = false := by
  obtain ⟨h1, h2⟩ := pyWordsGo_mem u [] w hw
  refine ⟨h1, fun c hc => ?_⟩
  rcases h2 c hc with h | h
  · simp at h
  · exact h

theorem cleanWords_pyWords (u : PyStr) : CleanWords (pyWords u) :=
  fun w hw => ⟨(pyWords_props u w hw).1, fun c hc => ((pyWords_props u w hw).2 c hc).2⟩

theorem pyWords_dropWhile_ws (u : PyStr) :
    pyWords (u.dropWhile pyIsSpace) = pyWords u := by
  conv_rhs => rw [← List.takeWhile_append_dropWhile (p := pyIsSpace) (l := u)]
  exact (pyWords_wsHead _ _ (fun c hc => List.mem_takeWhile_imp hc)).symm

theorem pyWords_pyLstrip (u : PyStr) : pyWords (pyLstrip u) = pyWords u :=
  pyWords_dropWhile_ws u

theorem rdrop_append_rtake (p : Char → Bool) (l : PyStr) :
    l.rdropWhile p ++ l.rtakeWhile p = l := by
  have h := congrArg List.reverse (List.takeWhile_append_dropWhile (p := p) (l := l.reverse))
  rw [List.reverse_append, List.reverse_reverse] at h
  simpa [List.rdropWhile, List.rtakeWhile] using h

theorem pyWords_pyRstrip (u : PyStr) : pyWords (pyRstrip u) = pyWords u := by
  conv_rhs => rw [← rdrop_append_rtake pyIsSpace u]
  exact (pyWords_wsTail _ (fun c hc => List.mem_rtakeWhile_imp hc) _).symm

theorem pyWords_pyStrip (u : PyStr) : pyWords (pyStrip u) = pyWords u := by
  rw [pyStrip, pyWords_pyRstrip, pyWords_pyLstrip]

theorem unwords_mem (ws : List PyStr) (c : Char) (hc : c ∈ unwords ws) :
    c = ' ' ∨ ∃ w ∈ ws, c ∈ w := by
  induction ws with
  | nil => simp [unwords, List.intercalate] at hc
  | cons w rest ih =>
    cases rest with
    | nil =>
      rw [unwords_single] at hc
      exact Or.inr ⟨w, List.mem_cons_self _ _, hc⟩
    | cons w2 r2 =>
      rw [unwords_cons w _ (by simp)] at hc
      rcases List.mem_append.mp hc with h | h
      · exact Or.inr ⟨w, List.mem_cons_self _ _, h⟩
      · rcases List.mem_cons.mp h with h | h
        · exact Or.inl h
        · rcases ih h with h | ⟨w', hw', hcw⟩
          · exact Or.inl h
          · exact Or.inr ⟨w', List.mem_cons_of_mem _ hw', hcw⟩

theorem unwords_head_nonWS (ws : List PyStr) (h : CleanWords ws) (hne : ws ≠ []) :
    ∃ d, (unwords ws).head? = some d ∧ pyIsSpace d = false := by
  cases ws with
  | nil => exact absurd rfl hne
  | cons w rest =>
    obtain ⟨hw1, hw2⟩ := h w (List.mem_cons_self _ _)
    obtain ⟨a, w', hw⟩ : ∃ a w', w = a :: w' := by
      cases hq : w with
      | nil => exact absurd hq hw1
      | cons a w' => exact ⟨a, w', rfl⟩
    subst hw
    refine ⟨a, ?_, hw2 a (List.mem_cons_self _ _)⟩
    cases rest with
    | nil => rw [unwords_single]; rfl
    | cons w2 r2 =>
      rw [unwords_cons (a :: w') (w2 :: r2) (List.cons_ne_nil _ _)]
      rfl

theorem unwords_getLast_nonWS (ws : List PyStr) (h : CleanWords ws) (hne : ws ≠ []) :
    ∃ d, (unwords ws).getLast? = some d ∧ pyIsSpace d = false := by
  induction ws with
  | nil => exact absurd rfl hne
  | cons w rest ih =>
    obtain ⟨hw1, hw2⟩ := h w (List.mem_cons_self _ _)
    cases rest with
    | nil =>
      refine ⟨w.getLast hw1, ?_, hw2 _ (List.getLast_mem hw1)⟩
      rw [unwords_single]
      exact List.getLast?_eq_getLast w hw1
    | cons w2 r2 =>
      obtain ⟨d, hd1, hd2⟩ := ih (fun x hx => h x (List.mem_cons_of_mem _ hx))
        (List.cons_ne_nil w2 r2)
      refine ⟨d, ?_, hd2⟩
      cases hX : unwords (w2 :: r2) with
      | nil => rw [hX] at hd1; cases hd1
      | cons y ys =>
        rw [unwords_cons w _ (by simp), hX]
        refine getLast?_append_right ?_
        rw [List.getLast?_cons_cons]
        rw [hX] at hd1
        exact hd1

theorem unwords_ne_nil (ws : List PyStr) (h : CleanWords ws) (hne : ws ≠ []) :
    unwords ws ≠ [] := by
  obtain ⟨d, hd, _⟩ := unwords_head_nonWS ws h hne
  intro h0
  rw [h0] at hd
  cases hd

theorem unwords_trimmed (ws : List PyStr) (h : CleanWords ws) :
    pyStrip (unwords ws) = unwords ws := by
  cases ws with
  | nil => rfl
  | cons w rest =>
    rw [trimmed_iff]
    obtain ⟨d1, hd1, hw1⟩ := unwords_head_nonWS (w :: rest) h (by simp)
    obtain ⟨d2, hd2, hw2⟩ := unwords_getLast_nonWS (w :: rest) h (by simp)
    constructor
    · intro c hc
      rw [hd1] at hc
      cases hc
      exact hw1
    · intro c hc
      rw [hd2] at hc
      cases hc
      exact hw2

theorem collapseGo_true_eq (s : PyStr) :
    collapseGo true s = collapseGo false (s.dropWhile pyIsSpace) := by
  induction s with
  | nil => rfl
  | cons c r ih =>
    by_cases hc : pyIsSpace c
    · simp [collapseGo, hc, ih, List.dropWhile_cons]
    · simp [collapseGo, hc, List.dropWhile_cons]

theorem collapse_copy (s : PyStr) :
    collapseGo false s = s.takeWhile nonWS ++ collapseGo false (s.dropWhile nonWS) := by
  induction s with
  | nil => rfl
  | cons c r ih =>
    by_cases hc : pyIsSpace c
    · have hnw : nonWS c = false := by simp [nonWS, hc]
      simp [List.takeWhile_cons, List.dropWhile_cons, hnw]
    · have hnw : nonWS c = true := by simp [nonWS, hc]
      simp [collapseGo, hc, List.takeWhile_cons, List.dropWhile_cons, hnw, ih]

theorem pyStrip_cons_ws (c : Char) (hc : pyIsSpace c = true) (t : PyStr) :
    pyStrip (c :: t) = pyStrip t := by
  simp [pyStrip, pyLstrip, List.dropWhile_cons, hc]

theorem rdropWhile_append_of_ne (p : Char → Bool) (x y : PyStr)
    (h : y.rdropWhile p ≠ []) : (x ++ y).rdropWhile p = x ++ y.rdropWhile p := by
  have h2 : y.reverse.dropWhile p ≠ [] := by
    intro h0
    apply h
    simp [List.rdropWhile, h0]
  simp only [List.rdropWhile, List.reverse_append]
  rw [List.dropWhile_append, if_neg (by simpa using h2)]
  simp [List.rdropWhile]

theorem takeWhile_nonWS_all (s : PyStr) :
    ∀ c ∈ s.takeWhile nonWS, pyIsSpace c = false := by
  intro c hc
  have := List.mem_takeWhile_imp hc
  simpa [nonWS] using this

/-- Key normalization identity: collapsing whitespace runs and stripping
equals rebuilding the text from its `split()` words with single spaces. -/
theorem strip_collapse : ∀ (n : Nat) (s : PyStr), s.length ≤ n →
    pyStrip (collapseWS s) = unwords (pyWords s) := by
  intro n
  induction n with
  | zero =>
    intro s hs
    have : s = [] := List.length_eq_zero.mp (Nat.le_zero.mp hs)
    subst this
    rfl
  | succ n ih =>
    intro s hs
    cases s with
    | nil => rfl
    | cons c r =>
      by_cases hc : pyIsSpace c
      · -- leading whitespace: collapse emits one space, strip removes it
        have h1 : collapseWS (c :: r) = ' ' :: collapseGo false (r.dropWhile pyIsSpace) := by
          simp [collapseWS, collapseGo, hc, collapseGo_true_eq]
        rw [h1, pyStrip_cons_ws ' ' (by decide), pyWords_cons_ws c r hc,
          ← pyWords_dropWhile_ws r]
        have hlen : (r.dropWhile pyIsSpace).length ≤ n := by
          have hsub := (List.dropWhile_sublist (l := r) pyIsSpace).length_le
          simp at hs
          omega
        exact ih (r.dropWhile pyIsSpace) hlen
      · -- a word head: collapse copies the word verbatim
        have hnw : nonWS c = true := by simp [nonWS, hc]
        have hcf : pyIsSpace c = false := by simpa using hc
        have hcopy := collapse_copy (c :: r)
        rw [List.takeWhile_cons_of_pos hnw, List.dropWhile_cons_of_pos hnw] at hcopy
        set w : PyStr := c :: r.takeWhile nonWS with hw
        set rest : PyStr := r.dropWhile nonWS with hrest
        have hwall : ∀ d ∈ w, pyIsSpace d = false := by
          intro d hd
          rcases List.mem_cons.mp hd with h | h
          · rw [h]; exact hcf
          · exact takeWhile_nonWS_all r d h
        have hwords : pyWords (c :: r) = w :: pyWords rest :=
          pyWords_cons_word c r hcf
        cases hrc : rest with
        | nil =>
          -- the whole string is one word (collapse output = w)
          have h2 : collapseWS (c :: r) = w := by
            rw [collapseWS, hcopy, hrc]
            simp [collapseGo]
          have htr := unwords_trimmed [w] (by
            intro x hx
            rw [List.mem_singleton] at hx
            subst hx
            exact ⟨by simp [hw], hwall⟩)
          rw [unwords_single] at htr
          rw [h2, hwords, hrc]
          rw [show pyWords ([] : PyStr) = [] from rfl, unwords_single]
          exact htr
        | cons d rest' =>
          have hd : pyIsSpace d = true := by
            have := dropWhile_head_not nonWS r d (by rw [← hrest, hrc]; rfl)
            simpa [nonWS] using this
          -- collapse of the remainder: one space then the collapse of the next block
          have h3 : collapseGo false rest = ' ' :: collapseGo false (rest'.dropWhile pyIsSpace) := by
            rw [hrc]
            simp [collapseGo, hd, collapseGo_true_eq]
          set u : PyStr := rest'.dropWhile pyIsSpace with hu
          have hulen : u.length ≤ n := by
            have h4 := (List.dropWhile_sublist (l := rest') pyIsSpace).length_le
            have h5 := (List.dropWhile_sublist (l := r) nonWS).length_le
            rw [← hu] at h4
            rw [← hrest] at h5
            rw [hrc] at h5
            simp at hs h5
            omega
          have hrec := ih u hulen
          have hwordsu : pyWords rest = pyWords u := by
            rw [hrc, pyWords_cons_ws d rest' hd, hu, pyWords_dropWhile_ws]
          -- assemble
          rw [collapseWS, hcopy, h3, hwords, hwordsu]
          cases hpu : pyWords u with
          | nil =>
            -- nothing after the separator: strip eats the trailing space
            have hunil : u = [] := by
              cases hu2 : u with
              | nil => rfl
              | cons e u' =>
                have he : pyIsSpace e = false := by
                  have := dropWhile_head_not pyIsSpace rest' e (by rw [← hu, hu2]; rfl)
                  simpa using this
                rw [hu2, pyWords_cons_word e u' he] at hpu
                cases hpu
            rw [hunil]
            have h6 : collapseGo false ([] : PyStr) = [] := rfl
            rw [h6, unwords_single]
            -- pyStrip (w ++ [' ']) = w
            have h7 : pyLstrip (w ++ [' ']) = w ++ [' '] := by
              rw [hw, pyLstrip, List.cons_append, List.dropWhile_cons_of_neg (by simp [hcf])]
            show pyStrip (w ++ ' ' :: []) = w
            rw [pyStrip, h7, pyRstrip,
              List.rdropWhile_concat_pos pyIsSpace w ' ' (by decide),
              List.rdropWhile_eq_self_iff]
            intro hne
            exact by simp [hwall _ (List.getLast_mem hne)]
          | cons v vs =>
            -- a further word follows: the separator survives the strip
            have hpune : pyWords u ≠ [] := by rw [hpu]; simp
            have hclean : CleanWords (pyWords u) := cleanWords_pyWords u
            have hCne : pyStrip (collapseWS u) ≠ [] := by
              rw [hrec]
              exact unwords_ne_nil _ hclean hpune
            -- head of collapseWS u is a non-space character
            have hune : u ≠ [] := by
              intro h0
              rw [h0] at hpu
              cases hpu
            obtain ⟨e, u', hu2⟩ : ∃ e u', u = e :: u' := by
              cases hu3 : u with
              | nil => exact absurd hu3 hune
              | cons e u' => exact ⟨e, u', rfl⟩
            have he : pyIsSpace e = false := by
              have := dropWhile_head_not pyIsSpace rest' e (by rw [← hu, hu2]; rfl)
              simpa using this
            have hCcopy : collapseWS u = (u.takeWhile nonWS) ++ collapseGo false (u.dropWhile nonWS) := by
              rw [collapseWS]
              exact collapse_copy u
            have hChead : pyLstrip (collapseWS u) = collapseWS u := by
              rw [hCcopy, hu2, List.takeWhile_cons_of_pos (by simp [nonWS, he]),
                pyLstrip, List.cons_append, List.dropWhile_cons_of_neg (by simp [he])]
            have hCrstrip : pyStrip (collapseWS u) = (collapseWS u).rdropWhile pyIsSpace := by
              rw [pyStrip, hChead, pyRstrip]
            have hRne : (collapseWS u).rdropWhile pyIsSpace ≠ [] := by
              rw [← hCrstrip]
              exact hCne
            -- strip of the assembled text
            have h8 : pyLstrip (w ++ ' ' :: collapseWS u) = w ++ ' ' :: collapseWS u := by
              rw [hw, pyLstrip, List.cons_append, List.dropWhile_cons_of_neg (by simp [hcf])]
            have h9 : w ++ ' ' :: collapseWS u = (w ++ [' ']) ++ collapseWS u := by simp
            rw [show collapseGo false u = collapseWS u from rfl, pyStrip, h8, pyRstrip, h9,
              rdropWhile_append_of_ne pyIsSpace (w ++ [' ']) (collapseWS u) hRne]
            have hPR : (collapseWS u).rdropWhile pyIsSpace = unwords (pyWords u) := by
              rw [← hCrstrip]
              exact hrec
            rw [hPR, ← hpu, unwords_cons _ _ hpune]
            simp

/-- `pyStrip (collapseWS s) = unwords (pyWords s)` without the length bound. -/
theorem strip_collapse_eq (s : PyStr) :
    pyStrip (collapseWS s) = unwords (pyWords s) :=
  strip_collapse s.length s (Nat.le_refl _)

/-! ### Line splitting, blank-line splitting and the paragraph buffer,
at the level of `split()` words -/

theorem isSplitLineChar_ws (c : Char) (h : isSplitLineChar c = true) :
    pyIsSpace c = true := by
  simp only [isSplitLineChar, decide_eq_true_eq] at h
  simp only [pyIsSpace, decide_eq_true_eq]
  rcases h with h | h | h | h | h | h | h | h | h | h
  · subst h; decide
  · subst h; decide
  all_goals omega

theorem pySplitLinesGo_words : ∀ (n : Nat) (s cur : PyStr), s.length ≤ n →
    ((pySplitLinesGo cur s).map pyWords).flatten = pyWords (cur.reverse ++ s) := by
  intro n
  induction n with
  | zero =>
    intro s cur hs
    have hs0 : s = [] := List.length_eq_zero.mp (Nat.le_zero.mp hs)
    subst hs0
    by_cases h : cur.isEmpty
    · have hc : cur = [] := List.isEmpty_iff.mp h
      subst hc
      simp [pySplitLinesGo, pyWords, pyWordsGo]
    · simp [pySplitLinesGo, h]
  | succ n ih =>
    intro s cur hs
    have hemit : ∀ (rest' : PyStr), rest'.length ≤ n →
        ((cur.reverse :: pySplitLinesGo [] rest').map pyWords).flatten =
          pyWords cur.reverse ++ pyWords rest' := by
      intro rest' hlen
      simp only [List.map_cons, List.flatten_cons]
      rw [ih rest' [] hlen]
      simp
    cases s with
    | nil => exact ih [] cur (Nat.zero_le n)
    | cons c rest =>
      simp only [List.length_cons] at hs
      by_cases hcr : c = '\r'
      · subst hcr
        cases rest with
        | nil =>
          have h1 : pySplitLinesGo cur ['\r'] = cur.reverse :: pySplitLinesGo [] [] := by
            simp [pySplitLinesGo, isSplitLineChar]
          rw [h1, hemit [] (Nat.zero_le n)]
          rw [pyWords_sep '\r' (by decide) cur.reverse []]
        | cons d rest2 =>
          by_cases hd : d = '\n'
          · subst hd
            have h1 : pySplitLinesGo cur ('\r' :: '\n' :: rest2) =
                cur.reverse :: pySplitLinesGo [] rest2 := by
              simp [pySplitLinesGo]
            rw [h1, hemit rest2 (by simp at hs; omega)]
            rw [pyWords_sep '\r' (by decide) cur.reverse ('\n' :: rest2),
              pyWords_cons_ws '\n' rest2 (by decide)]
          · have h1 : pySplitLinesGo cur ('\r' :: d :: rest2) =
                cur.reverse :: pySplitLinesGo [] (d :: rest2) := by
              simp [pySplitLinesGo, hd, isSplitLineChar]
            rw [h1, hemit (d :: rest2) (by simpa using hs)]
            rw [pyWords_sep '\r' (by decide) cur.reverse (d :: rest2)]
      · by_cases hsc : isSplitLineChar c
        · have h1 : pySplitLinesGo cur (c :: rest) =
              cur.reverse :: pySplitLinesGo [] rest := by
            cases rest with
            | nil => simp [pySplitLinesGo, hsc, hcr]
            | cons d r2 => simp [pySplitLinesGo, hsc, hcr]
          rw [h1, hemit rest (by omega)]
          rw [pyWords_sep c (isSplitLineChar_ws c hsc) cur.reverse rest]
        · have h1 : pySplitLinesGo cur (c :: rest) = pySplitLinesGo (c :: cur) rest := by
            have hsc' : isSplitLineChar c = false := by simpa using hsc
            cases rest with
            | nil => simp [pySplitLinesGo, hsc', hcr]
            | cons d r2 => simp [pySplitLinesGo, hsc', hcr]
          rw [h1, ih rest (c :: cur) (by omega)]
          simp

theorem pySplitLines_words (p : PyStr) :
    ((pySplitLines p).map pyWords).flatten = pyWords p := by
  have h := pySplitLinesGo_words p.length p [] (Nat.le_refl _)
  simpa [pySplitLines] using h

theorem pySplitLinesGo_chars : ∀ (n : Nat) (s cur l : PyStr), s.length ≤ n →
    l ∈ pySplitLinesGo cur s → ∀ c ∈ l, c ∈ cur ∨ c ∈ s := by
  intro n
  induction n with
  | zero =>
    intro s cur l hs hl c hc
    have hs0 : s = [] := List.length_eq_zero.mp (Nat.le_zero.mp hs)
    subst hs0
    by_cases h : cur.isEmpty
    · simp [pySplitLinesGo, h] at hl
    · simp only [pySplitLinesGo, h, Bool.false_eq_true, if_false,
        List.mem_singleton] at hl
      subst hl
      exact Or.inl (List.mem_reverse.mp hc)
  | succ n ih =>
    intro s cur l hs hl c hc
    have hemit : ∀ (rest' : PyStr), rest'.length ≤ n → rest' ⊆ s →
        l ∈ cur.reverse :: pySplitLinesGo [] rest' → c ∈ cur ∨ c ∈ s := by
      intro rest' hlen hsub hmem
      rcases List.mem_cons.mp hmem with h | h
      · subst h
        exact Or.inl (List.mem_reverse.mp hc)
      · rcases ih rest' [] l hlen h c hc with h2 | h2
        · simp at h2
        · exact Or.inr (hsub h2)
    cases s with
    | nil => exact ih [] cur l (Nat.zero_le n) hl c hc
    | cons d rest =>
      simp only [List.length_cons] at hs
      by_cases hcr : d = '\r'
      · subst hcr
        cases rest with
        | nil =>
          have h1 : pySplitLinesGo cur ['\r'] = cur.reverse :: pySplitLinesGo [] [] := by
            simp [pySplitLinesGo, isSplitLineChar]
          rw [h1] at hl
          exact hemit [] (Nat.zero_le n) (by simp) hl
        | cons e rest2 =>
          by_cases he : e = '\n'
          · subst he
            have h1 : pySplitLinesGo cur ('\r' :: '\n' :: rest2) =
                cur.reverse :: pySplitLinesGo [] rest2 := by
              simp [pySplitLinesGo]
            rw [h1] at hl
            refine hemit rest2 (by simp at hs; omega) ?_ hl
            intro x hx
            exact List.mem_cons_of_mem _ (List.mem_cons_of_mem _ hx)
          · have h1 : pySplitLinesGo cur ('\r' :: e :: rest2) =
                cur.reverse :: pySplitLinesGo [] (e :: rest2) := by
              simp [pySplitLinesGo, he, isSplitLineChar]
            rw [h1] at hl
            refine hemit (e :: rest2) (by simpa using hs) ?_ hl
            intro x hx
            exact List.mem_cons_of_mem _ hx
      · by_cases hsc : isSplitLineChar d
        · have h1 : pySplitLinesGo cur (d :: rest) =
              cur.reverse :: pySplitLinesGo [] rest := by
            cases rest with
            | nil => simp [pySplitLinesGo, hsc, hcr]
            | cons e r2 => simp [pySplitLinesGo, hsc, hcr]
          rw [h1] at hl
          exact hemit rest (by omega) (fun x hx => List.mem_cons_of_mem _ hx) hl
        · have h1 : pySplitLinesGo cur (d :: rest) = pySplitLinesGo (d :: cur) rest := by
            have hsc' : isSplitLineChar d = false := by simpa using hsc
            cases rest with
            | nil => simp [pySplitLinesGo, hsc', hcr]
            | cons e r2 => simp [pySplitLinesGo, hsc', hcr]
          rw [h1] at hl
          rcases ih rest (d :: cur) l (by omega) hl c hc with h2 | h2
          · rcases List.mem_cons.mp h2 with h3 | h3
            · exact Or.inr (by rw [h3]; exact List.mem_cons_self _ _)
            · exact Or.inl h3
          · exact Or.inr (List.mem_cons_of_mem _ h2)

theorem pySplitLines_chars (p l : PyStr) (hl : l ∈ pySplitLines p) : l ⊆ p := by
  intro c hc
  rcases pySplitLinesGo_chars p.length p [] l (Nat.le_refl _) hl c hc with h | h
  · simp at h
  · exact h

theorem lastNLIdx_lt (run : PyStr) (q : Nat) (h : lastNLIdx run = some q) :
    q < run.length := by
  simp only [lastNLIdx, Option.map_eq_some'] at h
  obtain ⟨i, hi, hq⟩ := h
  have hlt := (List.findIdx?_eq_some_iff_findIdx_eq.mp hi).1
  rw [List.length_reverse] at hlt
  omega

theorem take_all_ws (rest : PyStr) (q : Nat)
    (hq : q < (rest.takeWhile pyIsSpace).length) :
    ∀ x ∈ rest.take (q + 1), pyIsSpace x = true := by
  intro x hx
  obtain ⟨tail, htail⟩ := List.takeWhile_prefix (l := rest) (p := pyIsSpace)
  rw [← htail, List.take_append_of_le_length (by omega)] at hx
  exact List.mem_takeWhile_imp (List.mem_of_mem_take hx)

theorem splitBlankGo_words : ∀ (fuel : Nat) (cur s : PyStr), s.length < fuel →
    ((splitBlankGo fuel cur s).map pyWords).flatten = pyWords (cur.reverse ++ s) := by
  intro fuel
  induction fuel with
  | zero => intro cur s h; omega
  | succ fuel ih =>
    intro cur s h
    cases s with
    | nil => simp [splitBlankGo]
    | cons d rest =>
      simp only [List.length_cons] at h
      by_cases hd : d = '\n'
      · subst hd
        have hunf : splitBlankGo (fuel + 1) cur ('\n' :: rest) =
            match lastNLIdx (rest.takeWhile pyIsSpace) with
            | some q => cur.reverse :: splitBlankGo fuel [] (rest.drop (q + 1))
            | none => splitBlankGo fuel ('\n' :: cur) rest := by
          rw [splitBlankGo]
          exact if_pos rfl
        rw [hunf]
        cases hL : lastNLIdx (rest.takeWhile pyIsSpace) with
        | some q =>
          dsimp only
          simp only [List.map_cons, List.flatten_cons]
          have hq : q < (rest.takeWhile pyIsSpace).length := lastNLIdx_lt _ _ hL
          have hqr : q < rest.length := by
            have := (List.takeWhile_prefix (l := rest) (p := pyIsSpace)).length_le
            omega
          have hlen : (rest.drop (q + 1)).length < fuel := by
            rw [List.length_drop]
            omega
          rw [ih [] _ hlen]
          simp only [List.reverse_nil, List.nil_append]
          rw [pyWords_sep '\n' (by decide) cur.reverse rest]
          congr 1
          rw [show pyWords rest = pyWords (rest.take (q + 1) ++ rest.drop (q + 1)) by
            rw [List.take_append_drop]]
          exact (pyWords_wsHead _ _ (take_all_ws rest q hq)).symm
        | none =>
          dsimp only
          rw [ih ('\n' :: cur) rest (by omega)]
          simp
      · simp only [splitBlankGo, if_neg hd]
        rw [ih (d :: cur) rest (by omega)]
        simp

theorem splitBlank_words (s : PyStr) :
    ((splitBlank s).map pyWords).flatten = pyWords s := by
  have h := splitBlankGo_words (s.length + 1) [] s (by omega)
  simpa [splitBlank] using h

theorem splitBlankGo_chars : ∀ (fuel : Nat) (cur s p : PyStr),
    p ∈ splitBlankGo fuel cur s → ∀ c ∈ p, c ∈ cur ∨ c ∈ s := by
  intro fuel
  induction fuel with
  | zero =>
    intro cur s p hp c hc
    simp only [splitBlankGo, List.mem_singleton] at hp
    subst hp
    exact Or.inl (List.mem_reverse.mp hc)
  | succ fuel ih =>
    intro cur s p hp c hc
    cases s with
    | nil =>
      simp only [splitBlankGo, List.mem_singleton] at hp
      subst hp
      exact Or.inl (List.mem_reverse.mp hc)
    | cons d rest =>
      by_cases hd : d = '\n'
      · subst hd
        have hunf : splitBlankGo (fuel + 1) cur ('\n' :: rest) =
            match lastNLIdx (rest.takeWhile pyIsSpace) with
            | some q => cur.reverse :: splitBlankGo fuel [] (rest.drop (q + 1))
            | none => splitBlankGo fuel ('\n' :: cur) rest := by
          rw [splitBlankGo]
          exact if_pos rfl
        rw [hunf] at hp
        cases hL : lastNLIdx (rest.takeWhile pyIsSpace) with
        | some q =>
          rw [hL] at hp
          dsimp only at hp
          rcases List.mem_cons.mp hp with h1 | h1
          · subst h1
            exact Or.inl (List.mem_reverse.mp hc)
          · rcases ih [] _ p h1 c hc with h2 | h2
            · simp at h2
            · exact Or.inr (List.mem_cons_of_mem _ (List.mem_of_mem_drop h2))
        | none =>
          rw [hL] at hp
          dsimp only at hp
          rcases ih ('\n' :: cur) rest p hp c hc with h2 | h2
          · rcases List.mem_cons.mp h2 with h3 | h3
            · exact Or.inr (by rw [h3]; exact List.mem_cons_self _ _)
            · exact Or.inl h3
          · exact Or.inr (List.mem_cons_of_mem _ h2)
      · simp only [splitBlankGo, if_neg hd] at hp
        rcases ih (d :: cur) rest p hp c hc with h2 | h2
        · rcases List.mem_cons.mp h2 with h3 | h3
          · exact Or.inr (by rw [h3]; exact List.mem_cons_self _ _)
          · exact Or.inl h3
        · exact Or.inr (List.mem_cons_of_mem _ h2)

theorem splitBlank_chars (s p : PyStr) (hp : p ∈ splitBlank s) : p ⊆ s := by
  intro c hc
  rcases splitBlankGo_chars (s.length + 1) [] s p hp c hc with h | h
  · simp at h
  · exact h

theorem pyStripNL_subset (t : PyStr) : pyStripNL t ⊆ t := by
  intro c hc
  rw [pyStripNL] at hc
  have h1 := List.rdropWhile_prefix (fun c => decide (c = '\n'))
    (t.dropWhile (fun c => decide (c = '\n')))
  exact (List.dropWhile_sublist _).subset (h1.subset hc)

theorem pyWords_pyStripNL (t : PyStr) : pyWords (pyStripNL t) = pyWords t := by
  rw [pyStripNL]
  have h1 : pyWords (t.dropWhile (fun c => decide (c = '\n'))) = pyWords t := by
    conv_rhs =>
      rw [← List.takeWhile_append_dropWhile (p := fun c => decide (c = '\n')) (l := t)]
    refine (pyWords_wsHead _ _ ?_).symm
    intro c hc
    have h2 := List.mem_takeWhile_imp hc
    simp only [decide_eq_true_eq] at h2
    rw [h2]
    decide
  rw [← h1]
  conv_rhs =>
    rw [← rdrop_append_rtake (fun c => decide (c = '\n'))
      (t.dropWhile (fun c => decide (c = '\n')))]
  refine (pyWords_wsTail _ ?_ _).symm
  intro c hc
  have h2 := List.mem_rtakeWhile_imp hc
  simp only [decide_eq_true_eq] at h2
  rw [h2]
  decide

/-! ### The blank-line filter and the hyphenation-aware line join -/

theorem strip_nil_allWS (l : PyStr) (h0 : pyStrip l = []) :
    ∀ c ∈ l, pyIsSpace c = true := by
  intro c hc
  simp only [pyStrip, pyRstrip, pyLstrip] at h0
  have hws := List.rdropWhile_eq_nil_iff.mp h0
  by_contra hns
  rw [← List.takeWhile_append_dropWhile (p := pyIsSpace) (l := l)] at hc
  rcases List.mem_append.mp hc with h | h
  · exact hns (List.mem_takeWhile_imp h)
  · exact hns (hws _ h)

theorem blank_words (l : PyStr) (h : (pyStrip l).isEmpty = true) : pyWords l = [] :=
  pyWords_allWS l (strip_nil_allWS l (List.isEmpty_iff.mp h))

theorem words_ne_nil_of_nonblank (l : PyStr) (h : (pyStrip l).isEmpty = false) :
    pyWords l ≠ [] := by
  intro h0
  have h1 := pyWords_pyStrip l
  cases hq : pyStrip l with
  | nil => rw [hq] at h; cases h
  | cons d q =>
    have hd : pyIsSpace d = false := (trimmed_strip l).1 d (by rw [hq]; rfl)
    rw [hq, pyWords_cons_word d q hd, h0] at h1
    cases h1

theorem flatten_map_filter (f : PyStr → List PyStr) (p : PyStr → Bool) (l : List PyStr)
    (h : ∀ x ∈ l, p x = false → f x = []) :
    ((l.filter p).map f).flatten = (l.map f).flatten := by
  induction l with
  | nil => rfl
  | cons x xs ih =>
    by_cases hp : p x
    · simp only [List.filter_cons, hp, if_true, List.map_cons, List.flatten_cons]
      rw [ih (fun y hy => h y (List.mem_cons_of_mem _ hy))]
    · have hfx := h x (List.mem_cons_self _ _) (by simpa using hp)
      simp only [List.filter_cons, hp, Bool.false_eq_true, if_false, List.map_cons,
        List.flatten_cons, hfx, List.nil_append]
      exact ih (fun y hy => h y (List.mem_cons_of_mem _ hy))

theorem endsLetterHyphen_false (b : PyStr) (h : '-' ∉ b) :
    endsLetterHyphen b = false := by
  cases hrev : b.reverse with
  | nil => simp [endsLetterHyphen, hrev]
  | cons x xs =>
    have hx : x ≠ '-' := by
      intro h0
      apply h
      rw [← List.mem_reverse, hrev, h0]
      exact List.mem_cons_self _ _
    cases xs with
    | nil => simp [endsLetterHyphen, hrev, hx]
    | cons y ys => simp [endsLetterHyphen, hrev, hx]

theorem joinBuf_words : ∀ (lines : List PyStr) (buf : PyStr),
    '-' ∉ buf → (∀ l ∈ lines, '-' ∉ l) →
    pyWords (joinBuf buf lines) = pyWords buf ++ (lines.map pyWords).flatten := by
  intro lines
  induction lines with
  | nil => intro buf _ _; simp [joinBuf]
  | cons next rest ih =>
    intro buf hb hl
    have hglue : endsLetterHyphen buf = false := endsLetterHyphen_false buf hb
    simp only [joinBuf]
    rw [if_neg (by simp [hglue])]
    have hnew : '-' ∉ buf ++ ' ' :: pyLstrip next := by
      intro hmem
      rcases List.mem_append.mp hmem with h | h
      · exact hb h
      · rcases List.mem_cons.mp h with h | h
        · exact absurd h (by decide)
        · exact hl next (List.mem_cons_self _ _) ((List.dropWhile_sublist _).subset h)
    rw [ih _ hnew (fun l hml => hl l (List.mem_cons_of_mem _ hml)),
      pyWords_sep ' ' (by decide) buf (pyLstrip next), pyWords_pyLstrip]
    simp

/-! ### The per-paragraph pipeline on hyphen-free paragraphs -/

theorem processPara_none (width : Nat) (para : PyStr) (h : pyWords para = []) :
    processPara width para = none := by
  have hfilter : (pySplitLines para).filter (fun ln => !(pyStrip ln).isEmpty) = [] := by
    rw [List.filter_eq_nil_iff]
    intro ln hln hpred
    have hwords : pyWords ln = [] := by
      have hflat := pySplitLines_words para
      rw [h] at hflat
      have hmem : pyWords ln ∈ (pySplitLines para).map pyWords :=
        List.mem_map_of_mem _ hln
      have hnil := List.flatten_eq_nil_iff.mp hflat
      exact hnil _ hmem
    have hblank : (pyStrip ln).isEmpty = false := by
      simpa using hpred
    exact words_ne_nil_of_nonblank ln hblank hwords
  simp only [processPara, hfilter, List.map_nil]

theorem processPara_some (width : Nat) (para : PyStr)
    (hdash : ∀ c ∈ para, c ≠ '-') (h : pyWords para ≠ []) :
    processPara width para = some (textwrapFill (unwords (pyWords para)) width) := by
  have hflatL : ((((pySplitLines para).filter
      (fun ln => !(pyStrip ln).isEmpty)).map pyRstrip).map pyWords).flatten
      = pyWords para := by
    rw [List.map_map]
    rw [show ((pySplitLines para).filter (fun ln => !(pyStrip ln).isEmpty)).map
          (pyWords ∘ pyRstrip)
        = ((pySplitLines para).filter (fun ln => !(pyStrip ln).isEmpty)).map pyWords from
      List.map_congr_left (fun x _ => pyWords_pyRstrip x)]
    rw [flatten_map_filter pyWords (fun ln => !(pyStrip ln).isEmpty) (pySplitLines para)
      (fun x _ hfalse => blank_words x (by simpa using hfalse))]
    exact pySplitLines_words para
  cases hM : ((pySplitLines para).filter (fun ln => !(pyStrip ln).isEmpty)).map pyRstrip with
  | nil =>
    rw [hM] at hflatL
    simp only [List.map_nil, List.flatten_nil] at hflatL
    exact absurd hflatL.symm h
  | cons l1 rest =>
    have hnod : ∀ l ∈ ((pySplitLines para).filter
        (fun ln => !(pyStrip ln).isEmpty)).map pyRstrip, '-' ∉ l := by
      intro l hl hmem
      rcases List.mem_map.mp hl with ⟨l0, hl0, rfl⟩
      have hl0' : l0 ∈ pySplitLines para := List.mem_of_mem_filter hl0
      have hpre := List.rdropWhile_prefix pyIsSpace l0
      exact hdash '-' (pySplitLines_chars para l0 hl0' (hpre.subset hmem)) rfl
    have hwordsJB : pyWords (joinBuf l1 rest) = pyWords para := by
      rw [joinBuf_words rest l1 (hnod l1 (by rw [hM]; exact List.mem_cons_self _ _))
        (fun l hml => hnod l (by rw [hM]; exact List.mem_cons_of_mem _ hml))]
      rw [show pyWords l1 ++ (rest.map pyWords).flatten
          = ((l1 :: rest).map pyWords).flatten by simp]
      rw [← hM]
      exact hflatL
    simp only [processPara, hM]
    rw [strip_collapse_eq, hwordsJB]

theorem filterMap_processPara (width : Nat) :
    ∀ (ps : List PyStr), (∀ p ∈ ps, ∀ c ∈ p, c ≠ '-') →
    ps.filterMap (processPara width) =
      ((ps.map pyWords).filter (fun ws => !ws.isEmpty)).map
        (fun ws => textwrapFill (unwords ws) width) := by
  intro ps
  induction ps with
  | nil => intro _; rfl
  | cons p ps' ih =>
    intro hd
    rw [List.filterMap_cons]
    by_cases hw : pyWords p = []
    · rw [processPara_none width p hw]
      simp only [List.map_cons, List.filter_cons, hw, List.isEmpty_nil, Bool.not_true,
        Bool.false_eq_true, if_false]
      exact ih (fun q hq => hd q (List.mem_cons_of_mem _ hq))
    · rw [processPara_some width p (fun c hc => hd p (List.mem_cons_self _ _) c hc) hw]
      simp only [List.map_cons, List.filter_cons]
      rw [if_pos (by simpa using hw)]
      simp only [List.map_cons]
      rw [ih (fun q hq => hd q (List.mem_cons_of_mem _ hq))]

theorem normalize_id (t : PyStr)
    (hws : ∀ c ∈ t, pyIsSpace c = true → c = ' ' ∨ c = '\n')
    (hh : ∀ c ∈ t, c ≠ '-' ∧ c ≠ '­') :
    pyReplaceChar (pyReplaceChar (pyRemoveChar t '­') ' ' ' ') ' ' ' '
      = t := by
  have h1 : pyRemoveChar t '­' = t := by
    rw [pyRemoveChar]
    apply List.filter_eq_self.mpr
    intro c hc
    simp [(hh c hc).2]
  rw [h1]
  have h2 : pyReplaceChar t ' ' ' ' = t := by
    rw [pyReplaceChar]
    have hcong : t.map (fun c => if c = ' ' then ' ' else c) = t.map id := by
      apply List.map_congr_left
      intro c hc
      have hne : c ≠ ' ' := by
        intro h0
        rcases hws c hc (by rw [h0]; decide) with h | h <;>
          (rw [h0] at h; exact absurd h (by decide))
      simp [hne]
    rw [hcong, List.map_id]
  rw [h2]
  rw [pyReplaceChar]
  have hcong : t.map (fun c => if c = ' ' then ' ' else c) = t.map id := by
    apply List.map_congr_left
    intro c hc
    have hne : c ≠ ' ' := by
      intro h0
      rcases hws c hc (by rw [h0]; decide) with h | h <;>
        (rw [h0] at h; exact absurd h (by decide))
    simp [hne]
  rw [hcong, List.map_id]

/-- First-run characterization: on input free of hyphens and soft hyphens
whose whitespace is plain, the stage rebuilds each blank-line paragraph
from its `split()` words and rewraps it. -/
theorem dehyphenate_first_run (t : PyStr) (width : Nat)
    (hws : ∀ c ∈ t, pyIsSpace c = true → c = ' ' ∨ c = '\n')
    (hh : ∀ c ∈ t, c ≠ '-' ∧ c ≠ '­') :
    dehyphenate_and_reflow t width =
      List.intercalate ('\n' :: '\n' :: [])
        ((((splitBlank (pyStripNL t)).map pyWords).filter (fun ws => !ws.isEmpty)).map
          (fun ws => textwrapFill (unwords ws) width)) ++ ['\n'] := by
  simp only [dehyphenate_and_reflow]
  rw [normalize_id t hws hh]
  rw [filterMap_processPara width (splitBlank (pyStripNL t)) ?hps]
  case hps =>
    intro p hp c hc
    exact (hh c (pyStripNL_subset t (splitBlank_chars _ p hp hc))).1

/-! ### `textwrap` chunking of clean word sequences -/

/-- The chunk sequence of a word list: the words separated by
single-space whitespace chunks. -/
def interleave : List PyStr → List PyStr
  | [] => []
  | [w] => [w]
  | w :: rest => w :: [' '] :: interleave rest

theorem interleave_cons₂ (w x : PyStr) (r : List PyStr) :
    interleave (w :: x :: r) = w :: [' '] :: interleave (x :: r) := rfl

theorem flatten_interleave (vs : List PyStr) : (interleave vs).flatten = unwords vs := by
  induction vs with
  | nil => rfl
  | cons w rest ih =>
    cases rest with
    | nil => simp [interleave, unwords_single]
    | cons x r =>
      rw [interleave_cons₂, unwords_cons w _ (List.cons_ne_nil _ _)]
      simp only [List.flatten_cons, ih]
      simp

theorem hyphenBehind_false (c : Char) (acc : PyStr) (hc : c ≠ '-') :
    hyphenBehind (c :: acc) = false := by
  cases acc with
  | nil => simp [hyphenBehind]
  | cons l1 tl =>
    cases tl with
    | nil => simp [hyphenBehind, hc]
    | cons c2 tail => simp [hyphenBehind, hc]

theorem emDashAhead_false (rest : PyStr)
    (h : ∀ d, rest.head? = some d → d ≠ '-') : emDashAhead rest = false := by
  cases rest with
  | nil => rfl
  | cons d r =>
    have hd : d ≠ '-' := h d rfl
    simp only [emDashAhead]
    rw [List.takeWhile_cons_of_neg (by simpa using hd)]
    simp

theorem wordScan_end : ∀ (w : PyStr), w ≠ [] →
    (∀ c ∈ w, pyIsSpace c = false ∧ c ≠ '-') →
    ∀ (acc rest : PyStr),
      (rest = [] ∨ ∃ d r', rest = d :: r' ∧ pyIsSpace d = true) →
      wordScan acc (w ++ rest) = (acc.reverse ++ w, rest) := by
  intro w
  induction w with
  | nil => intro h; exact absurd rfl h
  | cons c w' ih =>
    intro _ hcl acc rest hrest
    obtain ⟨hc_ws, hc_dash⟩ := hcl c (List.mem_cons_self _ _)
    rw [List.cons_append]
    simp only [wordScan]
    rw [hyphenBehind_false c acc hc_dash]
    simp only [Bool.false_and, Bool.false_eq_true, if_false]
    cases w' with
    | nil =>
      simp only [List.nil_append]
      rcases hrest with hrest | ⟨d, r', hrd, hd⟩
      · subst hrest
        simp
      · subst hrd
        simp [hd]
    | cons e w'' =>
      have he := hcl e (List.mem_cons_of_mem _ (List.mem_cons_self _ _))
      simp only [List.cons_append]
      rw [he.1]
      simp only [Bool.false_eq_true, if_false]
      rw [emDashAhead_false (e :: (w'' ++ rest)) (fun d hd0 => by
        cases hd0
        exact he.2)]
      simp only [Bool.and_false, Bool.false_eq_true, if_false]
      rw [show e :: (w'' ++ rest) = (e :: w'') ++ rest from rfl]
      rw [ih (List.cons_ne_nil _ _) (fun x hx => hcl x (List.mem_cons_of_mem _ hx))
        (c :: acc) rest hrest]
      simp

theorem splitChunksGo_nil (fuel : Nat) (prev : Option Char) :
    splitChunksGo fuel prev [] = [] := by
  cases fuel <;> rfl

theorem splitChunksGo_unwords : ∀ (vs : List PyStr), CleanWords vs →
    (∀ w ∈ vs, '-' ∉ w) →
    ∀ (fuel : Nat) (prev : Option Char), 2 * vs.length ≤ fuel →
      splitChunksGo fuel prev (unwords vs) = interleave vs := by
  intro vs
  induction vs with
  | nil =>
    intro _ _ fuel prev _
    exact splitChunksGo_nil fuel prev
  | cons w rest ih =>
    intro hcl hnd fuel prev hfuel
    obtain ⟨hw1, hw2⟩ := hcl w (List.mem_cons_self _ _)
    have hwd : '-' ∉ w := hnd w (List.mem_cons_self _ _)
    have hwcl : ∀ c ∈ w, pyIsSpace c = false ∧ c ≠ '-' := by
      intro c hc
      exact ⟨hw2 c hc, fun h0 => hwd (h0 ▸ hc)⟩
    obtain ⟨a, w', ha⟩ : ∃ a w', w = a :: w' := by
      cases hq : w with
      | nil => exact absurd hq hw1
      | cons a w' => exact ⟨a, w', rfl⟩
    have haws : pyIsSpace a = false := hw2 a (by rw [ha]; exact List.mem_cons_self _ _)
    have hadash : a ≠ '-' := fun h0 => hwd (by rw [ha, h0]; exact List.mem_cons_self _ _)
    cases fuel with
    | zero => simp at hfuel
    | succ f =>
      cases rest with
      | nil =>
        rw [unwords_single, ha]
        simp only [splitChunksGo, haws, Bool.false_eq_true, if_false]
        rw [emDashAhead_false (a :: w') (fun d hd0 => by cases hd0; exact hadash)]
        simp only [Bool.and_false, Bool.false_eq_true, if_false]
        have hws2 : wordScan [] (a :: w') = (a :: w', []) := by
          have h0 := wordScan_end (a :: w') (List.cons_ne_nil _ _) (ha ▸ hwcl) [] [] (Or.inl rfl)
          simpa using h0
        rw [hws2]
        simp only
        rw [splitChunksGo_nil]
        rfl
      | cons v2 r2 =>
        have hucl : CleanWords (v2 :: r2) := fun x hx => hcl x (List.mem_cons_of_mem _ hx)
        have hund : ∀ x ∈ v2 :: r2, '-' ∉ x := fun x hx => hnd x (List.mem_cons_of_mem _ hx)
        rw [unwords_cons w _ (List.cons_ne_nil _ _), ha]
        rw [List.cons_append]
        simp only [splitChunksGo, haws, Bool.false_eq_true, if_false]
        rw [emDashAhead_false (a :: (w' ++ ' ' :: unwords (v2 :: r2)))
          (fun d hd0 => by cases hd0; exact hadash)]
        simp only [Bool.and_false, Bool.false_eq_true, if_false]
        rw [show a :: (w' ++ ' ' :: unwords (v2 :: r2))
            = (a :: w') ++ (' ' :: unwords (v2 :: r2)) from rfl]
        rw [wordScan_end (a :: w') (List.cons_ne_nil _ _) (ha ▸ hwcl)
          [] (' ' :: unwords (v2 :: r2)) (Or.inr ⟨' ', unwords (v2 :: r2), rfl, by decide⟩)]
        simp only [List.reverse_nil, List.nil_append]
        -- one more step of fuel for the whitespace chunk
        cases f with
        | zero => simp at hfuel; omega
        | succ f2 =>
          obtain ⟨d, hdhead, hdws⟩ := unwords_head_nonWS (v2 :: r2) hucl (List.cons_ne_nil _ _)
          obtain ⟨y, u', hy⟩ : ∃ y u', unwords (v2 :: r2) = y :: u' := by
            cases hq : unwords (v2 :: r2) with
            | nil => rw [hq] at hdhead; cases hdhead
            | cons y u' => exact ⟨y, u', rfl⟩
          have hyws : pyIsSpace y = false := by
            rw [hy] at hdhead
            cases hdhead
            exact hdws
          have hstep : splitChunksGo (f2 + 1) ((a :: w').getLast?) (' ' :: unwords (v2 :: r2))
              = [' '] :: splitChunksGo f2 (some ' ') (unwords (v2 :: r2)) := by
            simp only [splitChunksGo]
            rw [if_pos (by decide)]
            rw [hy, List.takeWhile_cons_of_pos (by decide),
              List.takeWhile_cons_of_neg (by simp [hyws]),
              List.dropWhile_cons_of_pos (by decide),
              List.dropWhile_cons_of_neg (by simp [hyws])]
            rfl
          rw [hstep]
          rw [ih hucl hund f2 (some ' ') (by simp at hfuel ⊢; omega)]
          rw [← ha]
          exact (interleave_cons₂ w v2 r2).symm

theorem splitChunks_unwords (vs : List PyStr) (hcl : CleanWords vs)
    (hnd : ∀ w ∈ vs, '-' ∉ w) :
    splitChunks (unwords vs) = interleave vs := by
  rw [splitChunks]
  apply splitChunksGo_unwords vs hcl hnd
  -- fuel adequacy: |unwords vs| + 1 ≥ 2 |vs|
  induction vs with
  | nil => simp
  | cons w rest ih =>
    obtain ⟨hw1, _⟩ := hcl w (List.mem_cons_self _ _)
    have hwlen : 1 ≤ w.length := by
      cases w with
      | nil => exact absurd rfl hw1
      | cons a w' => simp
    cases rest with
    | nil =>
      rw [unwords_single]
      simp
      omega
    | cons v2 r2 =>
      rw [unwords_cons w _ (List.cons_ne_nil _ _)]
      have ih2 := ih (fun x hx => hcl x (List.mem_cons_of_mem _ hx))
        (fun x hx => hnd x (List.mem_cons_of_mem _ hx))
      simp only [List.length_append, List.length_cons, List.length_cons] at ih2 ⊢
      omega

theorem mungeWS_id (t : PyStr) (h : ∀ c ∈ t, c = ' ' ∨ pyIsSpace c = false) :
    mungeWS t = t := by
  rw [mungeWS]
  have hcong : t.map (fun c =>
      if c = '\t' ∨ c = '\n' ∨ c.toNat = 0x0B ∨ c.toNat = 0x0C ∨ c = '\r' then ' ' else c)
      = t.map id := by
    apply List.map_congr_left
    intro c hc
    rcases h c hc with h1 | h1
    · subst h1; rfl
    · rw [if_neg]
      · rfl
      · intro hcond
        apply absurd h1
        simp only [ne_eq, Bool.not_eq_false]
        rcases hcond with h2 | h2 | h2 | h2 | h2
        · subst h2; decide
        · subst h2; decide
        · simp only [pyIsSpace, decide_eq_true_eq]; omega
        · simp only [pyIsSpace, decide_eq_true_eq]; omega
        · subst h2; decide
  rw [hcong, List.map_id]

/-! ### The greedy wrap on clean word chunks -/

/-- Words that are nonempty, whitespace-free and at most `w` long. -/
def FitWords (w : Nat) (vs : List PyStr) : Prop :=
  ∀ v ∈ vs, v ≠ [] ∧ v.length ≤ w ∧ ∀ c ∈ v, pyIsSpace c = false

theorem isWSChunk_word (v : PyStr) (h1 : v ≠ []) (h2 : ∀ c ∈ v, pyIsSpace c = false) :
    isWSChunk v = false := by
  cases v with
  | nil => exact absurd rfl h1
  | cons a r =>
    simp only [isWSChunk, List.all_cons]
    rw [h2 a (List.mem_cons_self _ _)]
    rfl

theorem interleave_cons_ne (v : PyStr) (a : List PyStr) (h : a ≠ []) :
    interleave (v :: a) = v :: [' '] :: interleave a := by
  cases a with
  | nil => exact absurd rfl h
  | cons x r => exact interleave_cons₂ v x r

theorem interleave_head (v : PyStr) (r : List PyStr) :
    ∃ tl, interleave (v :: r) = v :: tl := by
  cases r with
  | nil => exact ⟨[], rfl⟩
  | cons x rr => exact ⟨[' '] :: interleave (x :: rr), rfl⟩

theorem interleave_getLast (a : List PyStr) (h : a ≠ []) :
    ∃ z, z ∈ a ∧ (interleave a).getLast? = some z := by
  induction a with
  | nil => exact absurd rfl h
  | cons v rest ih =>
    cases rest with
    | nil => exact ⟨v, List.mem_cons_self _ _, rfl⟩
    | cons x r =>
      obtain ⟨z, hz1, hz2⟩ := ih (List.cons_ne_nil _ _)
      refine ⟨z, List.mem_cons_of_mem _ hz1, ?_⟩
      rw [interleave_cons₂, List.getLast?_cons_cons]
      obtain ⟨tl2, htl⟩ := interleave_head x r
      rw [htl, List.getLast?_cons_cons, ← htl]
      exact hz2

theorem takeLine_interleave : ∀ (vs' : List PyStr) (v : PyStr) (w len : Nat),
    FitWords w (v :: vs') → len + v.length ≤ w →
    ∃ a b, v :: vs' = a ++ b ∧ a ≠ [] ∧
      ((b = [] ∧ takeLine w len (interleave (v :: vs')) = (interleave a, []))
       ∨ (b ≠ [] ∧
          (takeLine w len (interleave (v :: vs')) = (interleave a, [' '] :: interleave b)
           ∨ takeLine w len (interleave (v :: vs')) =
               (interleave a ++ [[' ']], interleave b)))) := by
  intro vs'
  induction vs' with
  | nil =>
    intro v w len hfit hlen
    refine ⟨[v], [], by simp, by simp, Or.inl ⟨rfl, ?_⟩⟩
    show takeLine w len [v] = ([v], [])
    simp only [takeLine]
    rw [if_pos (by omega)]
  | cons v2 r2 ih =>
    intro v w len hfit hlen
    rw [interleave_cons₂]
    obtain ⟨hv2ne, hv2len, hv2ws⟩ := hfit v2 (List.mem_cons_of_mem _ (List.mem_cons_self _ _))
    have hstep1 : takeLine w len (v :: [' '] :: interleave (v2 :: r2)) =
        (v :: (takeLine w (len + v.length) ([' '] :: interleave (v2 :: r2))).1,
         (takeLine w (len + v.length) ([' '] :: interleave (v2 :: r2))).2) := by
      simp only [takeLine]
      rw [if_pos hlen]
    by_cases hsp : len + v.length + 1 ≤ w
    · have hstep2 : takeLine w (len + v.length) ([' '] :: interleave (v2 :: r2)) =
          ([' '] :: (takeLine w (len + v.length + 1) (interleave (v2 :: r2))).1,
           (takeLine w (len + v.length + 1) (interleave (v2 :: r2))).2) := by
        simp only [takeLine, List.length_singleton]
        rw [if_pos (by omega)]
      by_cases hv2 : len + v.length + 1 + v2.length ≤ w
      · obtain ⟨a', b', heq, hane, hres⟩ := ih v2 w (len + v.length + 1)
          (fun x hx => hfit x (List.mem_cons_of_mem _ hx)) (by omega)
        refine ⟨v :: a', b', by rw [List.cons_append, ← heq], List.cons_ne_nil _ _, ?_⟩
        rcases hres with ⟨hb, htl⟩ | ⟨hb, htl | htl⟩
        · refine Or.inl ⟨hb, ?_⟩
          rw [hstep1, hstep2, htl]
          rw [interleave_cons_ne v a' (by intro h0; rw [h0] at hane; exact hane rfl)]
        · refine Or.inr ⟨hb, Or.inl ?_⟩
          rw [hstep1, hstep2, htl]
          rw [interleave_cons_ne v a' (by intro h0; rw [h0] at hane; exact hane rfl)]
        · refine Or.inr ⟨hb, Or.inr ?_⟩
          rw [hstep1, hstep2, htl]
          rw [interleave_cons_ne v a' (by intro h0; rw [h0] at hane; exact hane rfl)]
          rfl
      · -- the next word does not fit: the line ends after the space
        refine ⟨[v], v2 :: r2, rfl, by simp, Or.inr ⟨by simp, Or.inr ?_⟩⟩
        obtain ⟨tl2, htl2⟩ := interleave_head v2 r2
        have hstep3 : takeLine w (len + v.length + 1) (interleave (v2 :: r2)) =
            ([], interleave (v2 :: r2)) := by
          rw [htl2]
          simp only [takeLine]
          rw [if_neg (by omega)]
        rw [hstep1, hstep2, hstep3]
        rfl
    · -- the separating space does not fit: the line ends after the word
      refine ⟨[v], v2 :: r2, rfl, by simp, Or.inr ⟨by simp, Or.inl ?_⟩⟩
      have hstep2 : takeLine w (len + v.length) ([' '] :: interleave (v2 :: r2)) =
          ([], [' '] :: interleave (v2 :: r2)) := by
        simp only [takeLine, List.length_singleton]
        rw [if_neg (by omega)]
      rw [hstep1, hstep2]
      rfl

theorem buildLine_interleave (w : Nat) (hw : 1 ≤ w) (st : Bool) (v : PyStr)
    (vs' : List PyStr) (hfit : FitWords w (v :: vs')) :
    ∃ a b, v :: vs' = a ++ b ∧ a ≠ [] ∧
      ((b = [] ∧ buildLine w st (interleave (v :: vs')) = (some (unwords a), []))
       ∨ (b ≠ [] ∧
          (buildLine w st (interleave (v :: vs')) = (some (unwords a), [' '] :: interleave b)
           ∨ buildLine w st (interleave (v :: vs')) = (some (unwords a), interleave b)))) := by
  obtain ⟨hvne, hvlen, hvws⟩ := hfit v (List.mem_cons_self _ _)
  obtain ⟨a, b, heq, hane, hres⟩ := takeLine_interleave vs' v w 0 hfit (by omega)
  have hmem_a : ∀ x ∈ a, x ∈ v :: vs' := by
    intro x hx
    rw [heq]
    exact List.mem_append.mpr (Or.inl hx)
  have hmem_b : ∀ x ∈ b, x ∈ v :: vs' := by
    intro x hx
    rw [heq]
    exact List.mem_append.mpr (Or.inr hx)
  obtain ⟨tl0, htl0⟩ := interleave_head v vs'
  have hcond : ¬(st = true ∧ isWSChunk v = true) := by
    rintro ⟨-, hws⟩
    rw [isWSChunk_word v hvne hvws] at hws
    cases hws
  obtain ⟨z, hz1, hz2⟩ := interleave_getLast a hane
  obtain ⟨hzne, _, hzws⟩ := hfit z (hmem_a z hz1)
  have hzws2 : ¬ isWSChunk z = true := by
    rw [isWSChunk_word z hzne hzws]
    exact fun h => by cases h
  have hine : (interleave a).isEmpty = false := by
    obtain ⟨az, a', haz⟩ : ∃ az a', a = az :: a' := by
      cases hq : a with
      | nil => exact absurd hq hane
      | cons az a' => exact ⟨az, a', rfl⟩
    obtain ⟨tla, htla⟩ := interleave_head az a'
    rw [haz, htla]
    rfl
  have hjoin : (interleave a).join = unwords a := flatten_interleave a
  rcases hres with ⟨hb, htl⟩ | ⟨hb, htl | htl⟩
  · -- everything fits on one line
    refine ⟨a, b, heq, hane, Or.inl ⟨hb, ?_⟩⟩
    rw [htl0]
    simp only [buildLine]
    rw [if_neg hcond, ← htl0, htl]
    dsimp only
    rw [hz2]
    dsimp only
    rw [if_neg hzws2, hine]
    simp only [Bool.false_eq_true, if_false, hjoin]
  · -- stopped before the separating space
    refine ⟨a, b, heq, hane, Or.inr ⟨hb, Or.inl ?_⟩⟩
    rw [htl0]
    simp only [buildLine]
    rw [if_neg hcond, ← htl0, htl]
    dsimp only
    rw [if_neg (show ¬ w < [' '].length from by
      simp only [List.length_singleton]
      omega)]
    dsimp only
    rw [hz2]
    dsimp only
    rw [if_neg hzws2, hine]
    simp only [Bool.false_eq_true, if_false, hjoin]
  · -- stopped before the next word, right after the space
    obtain ⟨vb, b', hbe⟩ : ∃ vb b', b = vb :: b' := by
      cases hq : b with
      | nil => exact absurd hq hb
      | cons vb b' => exact ⟨vb, b', rfl⟩
    obtain ⟨hvbne, hvblen, hvbws⟩ :=
      hfit vb (hmem_b vb (by rw [hbe]; exact List.mem_cons_self _ _))
    refine ⟨a, b, heq, hane, Or.inr ⟨hb, Or.inr ?_⟩⟩
    obtain ⟨tlb, htlb⟩ := interleave_head vb b'
    rw [htl0]
    simp only [buildLine]
    rw [if_neg hcond, ← htl0, htl]
    dsimp only
    rw [hbe, htlb]
    dsimp only
    rw [if_neg (show ¬ w < List.length vb from by omega)]
    rw [List.getLast?_concat]
    dsimp only
    rw [if_pos (show isWSChunk [' '] = true from by decide)]
    rw [List.dropLast_concat]
    rw [hine]
    simp only [Bool.false_eq_true, if_false, hjoin]

theorem wrapGo_nil (w fuel : Nat) (st : Bool) : wrapGo w fuel st [] = [] := by
  cases fuel <;> rfl

theorem wrapGo_cons (w fuel : Nat) (st : Bool) (ch : PyStr) (tl : List PyStr) :
    wrapGo w (fuel + 1) st (ch :: tl) =
      match (buildLine w st (ch :: tl)).1 with
      | some line => line :: wrapGo w fuel true (buildLine w st (ch :: tl)).2
      | none => wrapGo w fuel st (buildLine w st (ch :: tl)).2 := rfl

theorem buildLine_space (w : Nat) (X : List PyStr) :
    buildLine w true ([' '] :: X) = buildLine w false X := by
  cases X with
  | nil => rfl
  | cons c rest => rfl

theorem wrapGo_interleave : ∀ (n : Nat) (vs : List PyStr) (fuel : Nat) (st : Bool) (w : Nat),
    1 ≤ w → FitWords w vs → vs.length ≤ n → vs.length + 1 ≤ fuel →
    ∃ G : List (List PyStr), wrapGo w fuel st (interleave vs) = G.map unwords ∧
      G.flatten = vs ∧ ∀ g ∈ G, g ≠ [] := by
  intro n
  induction n with
  | zero =>
    intro vs fuel st w _ _ hn _
    have hvs : vs = [] := List.length_eq_zero.mp (Nat.le_zero.mp hn)
    subst hvs
    exact ⟨[], wrapGo_nil w fuel st, rfl, fun g hg => absurd hg (List.not_mem_nil g)⟩
  | succ n ih =>
    intro vs fuel st w hw hfit hn hfuel
    cases vs with
    | nil => exact ⟨[], wrapGo_nil w fuel st, rfl, fun g hg => absurd hg (List.not_mem_nil g)⟩
    | cons v vs' =>
      cases fuel with
      | zero => simp at hfuel
      | succ f =>
        obtain ⟨a, b, heq, hane, hres⟩ := buildLine_interleave w hw st v vs' hfit
        have hlen_ab : a.length + b.length = vs'.length + 1 := by
          have := congrArg List.length heq
          simp only [List.length_cons, List.length_append] at this
          omega
        have halen : 1 ≤ a.length := by
          cases hq : a with
          | nil => exact absurd hq hane
          | cons x y => simp
        have hn2 : vs'.length + 1 ≤ n + 1 := by
          simp only [List.length_cons] at hn
          omega
        have hfuel2 : vs'.length + 2 ≤ f + 1 := by
          simp only [List.length_cons] at hfuel
          omega
        have hfit_b : FitWords w b := by
          intro x hx
          exact hfit x (by rw [heq]; exact List.mem_append.mpr (Or.inr hx))
        obtain ⟨tl0, htl0⟩ := interleave_head v vs'
        rcases hres with ⟨hb, hbl⟩ | ⟨hb, hbl | hbl⟩
        · subst hb
          refine ⟨[a], ?_, by simpa using heq.symm, by simp [hane]⟩
          rw [htl0] at hbl ⊢
          rw [wrapGo_cons, hbl]
          simp only
          rw [wrapGo_nil]
          rfl
        · -- rest begins with the separating space
          have hblen : 1 ≤ b.length := by
            cases hq : b with
            | nil => exact absurd hq hb
            | cons x y => simp
          obtain ⟨G', hG1, hG2, hG3⟩ := ih b f false w hw hfit_b (by omega) (by omega)
          have htail : wrapGo w f true ([' '] :: interleave b)
              = wrapGo w f false (interleave b) := by
            obtain ⟨vb, b', hbe⟩ : ∃ vb b', b = vb :: b' := by
              cases hq : b with
              | nil => exact absurd hq hb
              | cons vb b' => exact ⟨vb, b', rfl⟩
            subst hbe
            obtain ⟨tlb, htlb⟩ := interleave_head vb b'
            cases f with
            | zero => omega
            | succ f2 =>
              obtain ⟨a2, b2, -, -, hres2⟩ := buildLine_interleave w hw false vb b' hfit_b
              rw [htlb]
              rcases hres2 with ⟨-, hbl2⟩ | ⟨-, hbl2 | hbl2⟩ <;>
                · rw [htlb] at hbl2
                  rw [wrapGo_cons, wrapGo_cons, buildLine_space w (vb :: tlb), hbl2]
          refine ⟨a :: G', ?_, by rw [List.flatten_cons, hG2, heq], ?_⟩
          · rw [htl0] at hbl ⊢
            rw [wrapGo_cons, hbl]
            simp only
            rw [htail, hG1]
            rfl
          · intro g hg
            rcases List.mem_cons.mp hg with hg | hg
            · rw [hg]; exact hane
            · exact hG3 g hg
        · -- rest begins with the next word
          obtain ⟨G', hG1, hG2, hG3⟩ := ih b f true w hw hfit_b (by omega) (by
            have hblen : 1 ≤ b.length := by
              cases hq : b with
              | nil => exact absurd hq hb
              | cons x y => simp
            omega)
          refine ⟨a :: G', ?_, by rw [List.flatten_cons, hG2, heq], ?_⟩
          · rw [htl0] at hbl ⊢
            rw [wrapGo_cons, hbl]
            simp only
            rw [hG1]
            rfl
          · intro g hg
            rcases List.mem_cons.mp hg with hg | hg
            · rw [hg]; exact hane
            · exact hG3 g hg

theorem interleave_length (vs : List PyStr) : vs.length ≤ (interleave vs).length := by
  induction vs with
  | nil => simp [interleave]
  | cons v rest ih =>
    cases rest with
    | nil => simp [interleave]
    | cons x r =>
      rw [interleave_cons₂]
      simp only [List.length_cons] at *
      omega

/-- `textwrap.fill` on a clean word sequence: the output is some grouping
of the words into lines, each line the single-space join of its group. -/
theorem fill_unwords (w : Nat) (hw : 1 ≤ w) (vs : List PyStr)
    (hfit : FitWords w vs) (hnd : ∀ v ∈ vs, '-' ∉ v) :
    ∃ G : List (List PyStr),
      textwrapFill (unwords vs) w = List.intercalate ['\n'] (G.map unwords) ∧
      G.flatten = vs ∧ ∀ g ∈ G, g ≠ [] := by
  have hcl : CleanWords vs := fun x hx => ⟨(hfit x hx).1, (hfit x hx).2.2⟩
  rw [textwrapFill]
  rw [mungeWS_id _ (by
    intro c hc
    rcases unwords_mem vs c hc with h | ⟨x, hx, hcx⟩
    · exact Or.inl h
    · exact Or.inr ((hfit x hx).2.2 c hcx))]
  rw [splitChunks_unwords vs hcl hnd]
  obtain ⟨G, hG1, hG2, hG3⟩ := wrapGo_interleave vs.length vs
    (((interleave vs).map List.length).sum + 2 * (interleave vs).length + 2) false w hw hfit
    (Nat.le_refl _) (by have := interleave_length vs; omega)
  exact ⟨G, by rw [wrapChunks, hG1], hG2, hG3⟩

/-! ### Decomposing the stage's own output -/

theorem intercalate_single (sep a : PyStr) : List.intercalate sep [a] = a := by
  simp [List.intercalate, List.intersperse]

theorem intercalate_cons_cons (sep a b : PyStr) (l : List PyStr) :
    List.intercalate sep (a :: b :: l) = a ++ sep ++ List.intercalate sep (b :: l) := by
  simp [List.intercalate, List.intersperse]

theorem intercalate_mem (sep : PyStr) : ∀ (ls : List PyStr) (c : Char),
    c ∈ List.intercalate sep ls → c ∈ sep ∨ ∃ l ∈ ls, c ∈ l := by
  intro ls
  induction ls with
  | nil => intro c hc; simp [List.intercalate] at hc
  | cons a rest ih =>
    intro c hc
    cases rest with
    | nil =>
      rw [intercalate_single] at hc
      exact Or.inr ⟨a, List.mem_cons_self _ _, hc⟩
    | cons b l =>
      rw [intercalate_cons_cons] at hc
      rcases List.mem_append.mp hc with h | h
      · rcases List.mem_append.mp h with h | h
        · exact Or.inr ⟨a, List.mem_cons_self _ _, h⟩
        · exact Or.inl h
      · rcases ih c h with h | ⟨l', hl', hcl⟩
        · exact Or.inl h
        · exact Or.inr ⟨l', List.mem_cons_of_mem _ hl', hcl⟩

theorem intercalate_head_eq (sep : PyStr) (l : PyStr) (ls : List PyStr) (hl : l ≠ []) :
    (List.intercalate sep (l :: ls)).head? = l.head? := by
  cases ls with
  | nil => rw [intercalate_single]
  | cons b r =>
    rw [intercalate_cons_cons]
    obtain ⟨a, l', hal⟩ : ∃ a l', l = a :: l' := by
      cases hq : l with
      | nil => exact absurd hq hl
      | cons a l' => exact ⟨a, l', rfl⟩
    subst hal
    rfl

theorem intercalate_getLast_prop (sep : PyStr) (P : Char → Prop) :
    ∀ (ls : List PyStr) (l : PyStr),
    (∀ x ∈ l :: ls, ∃ z, x.getLast? = some z ∧ P z) →
    ∃ z, (List.intercalate sep (l :: ls)).getLast? = some z ∧ P z := by
  intro ls
  induction ls with
  | nil =>
    intro l h
    rw [intercalate_single]
    exact h l (List.mem_cons_self _ _)
  | cons g ls' ih =>
    intro l h
    obtain ⟨z, hz1, hz2⟩ := ih g (fun x hx => h x (List.mem_cons_of_mem _ hx))
    refine ⟨z, ?_, hz2⟩
    rw [intercalate_cons_cons, List.append_assoc]
    exact getLast?_append_right (getLast?_append_right hz1)

/-- Every newline in the string is immediately followed by a
non-whitespace character (so `\n\s*\n` cannot match inside it), and the
string does not end in a newline. -/
def tailSolid : PyStr → Bool
  | [] => true
  | '\n' :: r =>
    (match r with
     | d :: _ => !pyIsSpace d
     | [] => false) && tailSolid r
  | _ :: r => tailSolid r

theorem tailSolid_cons (c : Char) (r : PyStr) (hc : c ≠ '\n') :
    tailSolid (c :: r) = tailSolid r := by
  cases r <;> simp [tailSolid, hc]

theorem tailSolid_append_left (l : PyStr) (r : PyStr) (hl : ∀ c ∈ l, c ≠ '\n') :
    tailSolid (l ++ r) = tailSolid r := by
  induction l with
  | nil => rfl
  | cons c l' ih =>
    rw [List.cons_append, tailSolid_cons c _ (hl c (List.mem_cons_self _ _))]
    exact ih (fun d hd => hl d (List.mem_cons_of_mem _ hd))

/-- A paragraph string as produced by the rewrap: nonempty with a
non-whitespace first character, and solid. -/
def SolidPara (f : PyStr) : Prop :=
  (∃ d tl, f = d :: tl ∧ pyIsSpace d = false) ∧ tailSolid f = true

def glueAll : List PyStr → PyStr
  | [] => []
  | f :: fs => '\n' :: '\n' :: (f ++ glueAll fs)

theorem intercalate_glue (f : PyStr) (fs : List PyStr) :
    List.intercalate ('\n' :: '\n' :: []) (f :: fs) = f ++ glueAll fs := by
  induction fs generalizing f with
  | nil => rw [intercalate_single]; simp [glueAll]
  | cons g fs' ih =>
    rw [intercalate_cons_cons, ih g]
    simp [glueAll]

theorem splitBlankGo_solid : ∀ (fills : List PyStr), (∀ x ∈ fills, SolidPara x) →
    ∀ (s cur : PyStr) (fuel : Nat), tailSolid s = true →
      s.length + (glueAll fills).length + 1 ≤ fuel →
      splitBlankGo fuel cur (s ++ glueAll fills) = (cur.reverse ++ s) :: fills := by
  intro fills hfills
  induction fills with
  | nil =>
    intro s
    induction s with
    | nil =>
      intro cur fuel _ hfuel
      cases fuel with
      | zero => omega
      | succ k => simp [glueAll, splitBlankGo]
    | cons c r ih =>
      intro cur fuel hsolid hfuel
      cases fuel with
      | zero => simp [glueAll] at hfuel
      | succ k =>
        simp only [glueAll, List.append_nil] at hfuel ⊢
        by_cases hc : c = '\n'
        · subst hc
          obtain ⟨d, r', hr, hd⟩ : ∃ d r', r = d :: r' ∧ pyIsSpace d = false := by
            cases hq : r with
            | nil => rw [hq] at hsolid; simp [tailSolid] at hsolid
            | cons d r' =>
              rw [hq] at hsolid
              simp only [tailSolid, Bool.and_eq_true] at hsolid
              exact ⟨d, r', rfl, by simpa using hsolid.1⟩
          have hunf : splitBlankGo (k + 1) cur ('\n' :: r) =
              match lastNLIdx (r.takeWhile pyIsSpace) with
              | some q => cur.reverse :: splitBlankGo k [] (r.drop (q + 1))
              | none => splitBlankGo k ('\n' :: cur) r := by
            rw [splitBlankGo]
            exact if_pos rfl
          have htw : r.takeWhile pyIsSpace = [] := by
            rw [hr]
            exact List.takeWhile_cons_of_neg (by simp [hd])
          rw [hunf, htw]
          have hsolid2 : tailSolid r = true := by
            rw [hr] at hsolid ⊢
            simp only [tailSolid, Bool.and_eq_true] at hsolid
            exact hsolid.2
          have := ih ('\n' :: cur) k hsolid2 (by simp [glueAll] at hfuel ⊢; omega)
          simp only [glueAll, List.append_nil] at this
          rw [show lastNLIdx [] = none from rfl]
          rw [this]
          simp
        · rw [show splitBlankGo (k + 1) cur (c :: r) = splitBlankGo k (c :: cur) r from by
            rw [splitBlankGo]
            exact if_neg hc]
          have := ih (c :: cur) k (by rwa [tailSolid_cons c r hc] at hsolid)
            (by simp [glueAll] at hfuel ⊢; omega)
          simp only [glueAll, List.append_nil] at this
          rw [this]
          simp
  | cons f fs ihf =>
    intro s
    induction s with
    | nil =>
      intro cur fuel _ hfuel
      cases fuel with
      | zero => simp [glueAll] at hfuel
      | succ k =>
        obtain ⟨⟨d, tl, hf, hd⟩, hfsolid⟩ := hfills f (List.mem_cons_self _ _)
        simp only [List.nil_append, glueAll]
        have hunf : splitBlankGo (k + 1) cur ('\n' :: ('\n' :: (f ++ glueAll fs))) =
            match lastNLIdx (('\n' :: (f ++ glueAll fs)).takeWhile pyIsSpace) with
            | some q => cur.reverse :: splitBlankGo k [] (('\n' :: (f ++ glueAll fs)).drop (q + 1))
            | none => splitBlankGo k ('\n' :: cur) ('\n' :: (f ++ glueAll fs)) := by
          rw [splitBlankGo]
          exact if_pos rfl
        rw [hunf]
        have htw : ('\n' :: (f ++ glueAll fs)).takeWhile pyIsSpace = ['\n'] := by
          rw [List.takeWhile_cons_of_pos (by decide), hf, List.cons_append,
            List.takeWhile_cons_of_neg (by simp [hd])]
        rw [htw]
        rw [show lastNLIdx ['\n'] = some 0 from by decide]
        have hrec := ihf (fun x hx => hfills x (List.mem_cons_of_mem _ hx)) f [] k hfsolid
          (by simp [glueAll] at hfuel ⊢; omega)
        simp only [List.drop_succ_cons, List.drop_zero, hrec]
        simp
    | cons c r ih =>
      intro cur fuel hsolid hfuel
      cases fuel with
      | zero => simp [glueAll] at hfuel
      | succ k =>
        by_cases hc : c = '\n'
        · subst hc
          obtain ⟨d, r', hr, hd⟩ : ∃ d r', r = d :: r' ∧ pyIsSpace d = false := by
            cases hq : r with
            | nil => rw [hq] at hsolid; simp [tailSolid] at hsolid
            | cons d r' =>
              rw [hq] at hsolid
              simp only [tailSolid, Bool.and_eq_true] at hsolid
              exact ⟨d, r', rfl, by simpa using hsolid.1⟩
          rw [List.cons_append]
          have hunf : splitBlankGo (k + 1) cur ('\n' :: (r ++ glueAll (f :: fs))) =
              match lastNLIdx ((r ++ glueAll (f :: fs)).takeWhile pyIsSpace) with
              | some q =>
                cur.reverse :: splitBlankGo k [] ((r ++ glueAll (f :: fs)).drop (q + 1))
              | none => splitBlankGo k ('\n' :: cur) (r ++ glueAll (f :: fs)) := by
            rw [splitBlankGo]
            exact if_pos rfl
          have htw : (r ++ glueAll (f :: fs)).takeWhile pyIsSpace = [] := by
            rw [hr, List.cons_append]
            exact List.takeWhile_cons_of_neg (by simp [hd])
          rw [hunf, htw]
          rw [show lastNLIdx [] = none from rfl]
          have hsolid2 : tailSolid r = true := by
            rw [hr] at hsolid ⊢
            simp only [tailSolid, Bool.and_eq_true] at hsolid
            exact hsolid.2
          have := ih ('\n' :: cur) k hsolid2 (by simp at hfuel ⊢; omega)
          rw [this]
          simp
        · rw [List.cons_append]
          rw [show splitBlankGo (k + 1) cur (c :: (r ++ glueAll (f :: fs)))
              = splitBlankGo k (c :: cur) (r ++ glueAll (f :: fs)) from by
            rw [splitBlankGo]
            exact if_neg hc]
          have := ih (c :: cur) k (by rwa [tailSolid_cons c r hc] at hsolid)
            (by simp at hfuel ⊢; omega)
          rw [this]
          simp

theorem splitBlank_solid (f : PyStr) (fs : List PyStr)
    (h : ∀ x ∈ f :: fs, SolidPara x) :
    splitBlank (List.intercalate ('\n' :: '\n' :: []) (f :: fs)) = f :: fs := by
  rw [intercalate_glue, splitBlank]
  have hrec := splitBlankGo_solid fs (fun x hx => h x (List.mem_cons_of_mem _ hx)) f []
    ((f ++ glueAll fs).length + 1) (h f (List.mem_cons_self _ _)).2
    (by simp [List.length_append])
  simpa using hrec

theorem pyWords_intercalate_nl : ∀ (ls : List PyStr),
    pyWords (List.intercalate ['\n'] ls) = (ls.map pyWords).flatten := by
  intro ls
  induction ls with
  | nil => rfl
  | cons l rest ih =>
    cases rest with
    | nil => rw [intercalate_single]; simp
    | cons g r =>
      rw [intercalate_cons_cons]
      rw [show l ++ ['\n'] ++ List.intercalate ['\n'] (g :: r)
          = l ++ '\n' :: List.intercalate ['\n'] (g :: r) by simp]
      rw [pyWords_sep '\n' (by decide), ih]
      simp

/-- A rewrapped paragraph is a fixed point of the per-paragraph pipeline. -/
theorem processPara_fill (width : Nat) (G : List (List PyStr)) (ws : List PyStr)
    (hG : G.flatten = ws) (hGne : ∀ g ∈ G, g ≠ [])
    (hcl : CleanWords ws) (hnd : ∀ w ∈ ws, '-' ∉ w) (hne : ws ≠ []) :
    processPara width (List.intercalate ['\n'] (G.map unwords)) =
      some (textwrapFill (unwords ws) width) := by
  have hwords : pyWords (List.intercalate ['\n'] (G.map unwords)) = ws := by
    rw [pyWords_intercalate_nl, List.map_map]
    rw [show G.map (pyWords ∘ unwords) = G.map id from List.map_congr_left (fun g hg => by
      show pyWords (unwords g) = g
      exact pyWords_unwords g (fun x hx =>
        hcl x (by rw [← hG]; exact List.mem_flatten.mpr ⟨g, hg, hx⟩)))]
    rw [List.map_id]
    exact hG
  have hdash : ∀ c ∈ List.intercalate ['\n'] (G.map unwords), c ≠ '-' := by
    intro c hc
    rcases intercalate_mem ['\n'] _ c hc with h | ⟨l, hl, hcl2⟩
    · rw [List.mem_singleton] at h
      rw [h]
      decide
    · rcases List.mem_map.mp hl with ⟨g, hg, rfl⟩
      rcases unwords_mem g c hcl2 with h | ⟨w, hw, hcw⟩
      · rw [h]; decide
      · intro h0
        apply hnd w (by rw [← hG]; exact List.mem_flatten.mpr ⟨g, hg, hw⟩)
        rw [← h0]
        exact hcw
  rw [processPara_some width _ hdash (by rw [hwords]; exact hne), hwords]

theorem tailSolid_intercalate : ∀ (ls : List PyStr) (l : PyStr),
    (∀ x ∈ l :: ls, (∃ d tl, x = d :: tl ∧ pyIsSpace d = false) ∧ ∀ c ∈ x, c ≠ '\n') →
    tailSolid (List.intercalate ['\n'] (l :: ls)) = true := by
  intro ls
  induction ls with
  | nil =>
    intro l h
    rw [intercalate_single]
    have h0 := tailSolid_append_left l [] (h l (List.mem_cons_self _ _)).2
    simpa using h0
  | cons g ls' ih =>
    intro l h
    rw [intercalate_cons_cons, List.append_assoc]
    rw [tailSolid_append_left l _ (h l (List.mem_cons_self _ _)).2]
    obtain ⟨⟨d, tl, hgd, hdws⟩, hgnl⟩ := h g (List.mem_cons_of_mem _ (List.mem_cons_self _ _))
    have hih := ih g (fun x hx => h x (List.mem_cons_of_mem _ hx))
    have hhead : (List.intercalate ['\n'] (g :: ls')).head? = some d := by
      rw [intercalate_head_eq ['\n'] g ls' (by rw [hgd]; exact List.cons_ne_nil _ _), hgd]
      rfl
    obtain ⟨rest, hrest⟩ : ∃ rest, List.intercalate ['\n'] (g :: ls') = d :: rest := by
      cases hq : List.intercalate ['\n'] (g :: ls') with
      | nil => rw [hq] at hhead; cases hhead
      | cons x xs =>
        rw [hq] at hhead
        cases hhead
        exact ⟨xs, rfl⟩
    rw [show (['\n'] : PyStr) ++ List.intercalate ['\n'] (g :: ls')
        = '\n' :: List.intercalate ['\n'] (g :: ls') from rfl]
    rw [hrest]
    have hts : tailSolid ('\n' :: d :: rest) = (!pyIsSpace d && tailSolid (d :: rest)) := by
      simp [tailSolid]
    rw [hts, ← hrest, hih, hdws]
    rfl

/-- The facts about one rewrapped paragraph needed for the second run. -/
theorem fill_para_solid (width : Nat) (hw : 1 ≤ width) (ws : List PyStr)
    (hne : ws ≠ []) (hfit : FitWords width ws) (hnd : ∀ w ∈ ws, '-' ∉ w) :
    SolidPara (textwrapFill (unwords ws) width)
      ∧ processPara width (textwrapFill (unwords ws) width)
          = some (textwrapFill (unwords ws) width)
      ∧ (∀ c ∈ textwrapFill (unwords ws) width, c = '\n' ∨ c = ' ' ∨ ∃ w ∈ ws, c ∈ w)
      ∧ (∃ z, (textwrapFill (unwords ws) width).getLast? = some z ∧ pyIsSpace z = false) := by
  have hcl : CleanWords ws := fun x hx => ⟨(hfit x hx).1, (hfit x hx).2.2⟩
  obtain ⟨G, hG1, hG2, hG3⟩ := fill_unwords width hw ws hfit hnd
  have hGne : G ≠ [] := by
    intro h0
    rw [h0] at hG2
    exact hne hG2.symm
  obtain ⟨g1, G', hGe⟩ : ∃ g1 G', G = g1 :: G' := by
    cases hq : G with
    | nil => exact absurd hq hGne
    | cons g1 G' => exact ⟨g1, G', rfl⟩
  have hgclean : ∀ g ∈ G, CleanWords g := by
    intro g hg x hx
    exact hcl x (by rw [← hG2]; exact List.mem_flatten.mpr ⟨g, hg, hx⟩)
  have hlineprops : ∀ x ∈ (g1 :: G').map unwords,
      (∃ d tl, x = d :: tl ∧ pyIsSpace d = false) ∧ ∀ c ∈ x, c ≠ '\n' := by
    intro x hx
    rcases List.mem_map.mp hx with ⟨g, hg, rfl⟩
    rw [← hGe] at hg
    obtain ⟨d, hd1, hd2⟩ := unwords_head_nonWS g (hgclean g hg) (hG3 g hg)
    constructor
    · obtain ⟨rest, hrest⟩ : ∃ rest, unwords g = d :: rest := by
        cases hq : unwords g with
        | nil => rw [hq] at hd1; cases hd1
        | cons y ys =>
          rw [hq] at hd1
          cases hd1
          exact ⟨ys, rfl⟩
      exact ⟨d, rest, hrest, hd2⟩
    · intro c hc
      rcases unwords_mem g c hc with h | ⟨w, hw', hcw⟩
      · rw [h]; decide
      · have := (hgclean g hg w hw').2 c hcw
        intro h0
        rw [h0] at this
        simp [pyIsSpace] at this
  have hsolid : SolidPara (textwrapFill (unwords ws) width) := by
    rw [hG1, hGe]
    constructor
    · obtain ⟨⟨d, tl, hx, hd⟩, -⟩ :=
        hlineprops (unwords g1) (List.mem_map_of_mem unwords (List.mem_cons_self _ _))
      have hh1 : (List.intercalate ['\n'] ((g1 :: G').map unwords)).head?
          = (unwords g1).head? := by
        apply intercalate_head_eq
        rw [hx]
        exact List.cons_ne_nil _ _
      rw [hx] at hh1
      obtain ⟨rest, hrest⟩ : ∃ rest,
          List.intercalate ['\n'] ((g1 :: G').map unwords) = d :: rest := by
        cases hq : List.intercalate ['\n'] ((g1 :: G').map unwords) with
        | nil => rw [hq] at hh1; cases hh1
        | cons y ys =>
          rw [hq] at hh1
          cases hh1
          exact ⟨ys, rfl⟩
      exact ⟨d, rest, hrest, hd⟩
    · rw [List.map_cons] at hlineprops ⊢
      exact tailSolid_intercalate (G'.map unwords) (unwords g1) hlineprops
  refine ⟨hsolid, ?_, ?_, ?_⟩
  · have hp := processPara_fill width G ws hG2 hG3 hcl hnd hne
    rw [← hG1] at hp
    exact hp
  · intro c hc
    rw [hG1] at hc
    rcases intercalate_mem ['\n'] _ c hc with h | ⟨l, hl, hcl2⟩
    · rw [List.mem_singleton] at h
      exact Or.inl h
    · rcases List.mem_map.mp hl with ⟨g, hg, rfl⟩
      rcases unwords_mem g c hcl2 with h | ⟨w, hw', hcw⟩
      · exact Or.inr (Or.inl h)
      · exact Or.inr (Or.inr ⟨w, by rw [← hG2]; exact List.mem_flatten.mpr ⟨g, hg, hw'⟩, hcw⟩)
  · rw [hG1, hGe, List.map_cons]
    apply intercalate_getLast_prop ['\n'] (fun z => pyIsSpace z = false)
    intro x hx
    have hx2 : ∃ g ∈ g1 :: G', x = unwords g := by
      rcases List.mem_cons.mp hx with h | h
      · exact ⟨g1, List.mem_cons_self _ _, h⟩
      · rcases List.mem_map.mp h with ⟨g, hg, hgx⟩
        exact ⟨g, List.mem_cons_of_mem _ hg, hgx.symm⟩
    obtain ⟨g, hg, rfl⟩ := hx2
    rw [← hGe] at hg
    exact unwords_getLast_nonWS g (hgclean g hg) (hG3 g hg)

theorem filterMap_id_of_some (width : Nat) : ∀ (Q : List PyStr),
    (∀ q ∈ Q, processPara width q = some q) → Q.filterMap (processPara width) = Q := by
  intro Q
  induction Q with
  | nil => intro _; rfl
  | cons q Qr ih =>
    intro h
    rw [List.filterMap_cons, h q (List.mem_cons_self _ _),
      ih (fun x hx => h x (List.mem_cons_of_mem _ hx))]

theorem dehyphenate_nl (width : Nat) : dehyphenate_and_reflow ['\n'] width = ['\n'] := rfl

/-- The stage is the identity on its own (first-run) output shape. -/
theorem dehyphenate_second_run (width : Nat) (hw : 1 ≤ width) (Ws : List (List PyStr))
    (hprops : ∀ ws ∈ Ws, ws ≠ [] ∧ FitWords width ws ∧
      ∀ w ∈ ws, '-' ∉ w ∧ '­' ∉ w) :
    dehyphenate_and_reflow
      (List.intercalate ('\n' :: '\n' :: [])
        (Ws.map (fun ws => textwrapFill (unwords ws) width)) ++ ['\n']) width
      = List.intercalate ('\n' :: '\n' :: [])
          (Ws.map (fun ws => textwrapFill (unwords ws) width)) ++ ['\n'] := by
  cases Ws with
  | nil => exact dehyphenate_nl width
  | cons ws1 Wr =>
    set Q : List PyStr :=
      (ws1 :: Wr).map (fun ws => textwrapFill (unwords ws) width) with hQ
    have hqfacts : ∀ q ∈ Q, SolidPara q ∧ processPara width q = some q ∧
        (∀ c ∈ q, c = '\n' ∨ c = ' ' ∨ ∃ ws ∈ ws1 :: Wr, ∃ w ∈ ws, c ∈ w) ∧
        (∃ z, q.getLast? = some z ∧ pyIsSpace z = false) := by
      intro q hq
      rw [hQ] at hq
      rcases List.mem_map.mp hq with ⟨ws, hws0, rfl⟩
      obtain ⟨hne, hfit, hwd⟩ := hprops ws hws0
      obtain ⟨h1, h2, h3, h4⟩ :=
        fill_para_solid width hw ws hne hfit (fun w hw0 => (hwd w hw0).1)
      refine ⟨h1, h2, fun c hc => ?_, h4⟩
      rcases h3 c hc with h | h | ⟨w, hw2, hcw⟩
      · exact Or.inl h
      · exact Or.inr (Or.inl h)
      · exact Or.inr (Or.inr ⟨ws, hws0, w, hw2, hcw⟩)
    have hwordfacts : ∀ c : Char, (∃ ws ∈ ws1 :: Wr, ∃ w ∈ ws, c ∈ w) →
        pyIsSpace c = false ∧ c ≠ '-' ∧ c ≠ '­' := by
      rintro c ⟨ws, hws0, w, hw0, hcw⟩
      obtain ⟨-, hfit, hwd⟩ := hprops ws hws0
      refine ⟨(hfit w hw0).2.2 c hcw, fun h0 => ?_, fun h0 => ?_⟩
      · exact (hwd w hw0).1 (h0 ▸ hcw)
      · exact (hwd w hw0).2 (h0 ▸ hcw)
    have hcharX : ∀ c ∈ List.intercalate ('\n' :: '\n' :: []) Q ++ ['\n'],
        c = '\n' ∨ c = ' ' ∨ ∃ ws ∈ ws1 :: Wr, ∃ w ∈ ws, c ∈ w := by
      intro c hc
      rcases List.mem_append.mp hc with h | h
      · rcases intercalate_mem _ Q c h with h | ⟨q, hq, hcq⟩
        · have hcn : c = '\n' := by
            rcases List.mem_cons.mp h with h2 | h2
            · exact h2
            · simpa using h2
          exact Or.inl hcn
        · exact (hqfacts q hq).2.2.1 c hcq
      · rw [List.mem_singleton] at h
        exact Or.inl h
    have hnorm := normalize_id (List.intercalate ('\n' :: '\n' :: []) Q ++ ['\n'])
      (by
        intro c hc hcs
        rcases hcharX c hc with h | h | h
        · exact Or.inr h
        · exact Or.inl h
        · rw [(hwordfacts c h).1] at hcs
          cases hcs)
      (by
        intro c hc
        rcases hcharX c hc with h | h | h
        · rw [h]; exact ⟨by decide, by decide⟩
        · rw [h]; exact ⟨by decide, by decide⟩
        · exact ⟨(hwordfacts c h).2.1, (hwordfacts c h).2.2⟩)
    -- the fill of the first paragraph starts with a word character
    have hq1 : textwrapFill (unwords ws1) width ∈ Q := by
      rw [hQ]
      exact List.mem_map_of_mem _ (List.mem_cons_self _ _)
    obtain ⟨⟨⟨d1, tl1, hq1e, hd1⟩, -⟩, -, -, -⟩ := hqfacts _ hq1
    have hd1nl : d1 ≠ '\n' := by
      intro h0
      rw [h0] at hd1
      exact absurd hd1 (by decide)
    have hlastQ : ∃ z, (List.intercalate ('\n' :: '\n' :: []) Q).getLast? = some z ∧
        pyIsSpace z = false := by
      rw [hQ, List.map_cons]
      apply intercalate_getLast_prop ('\n' :: '\n' :: []) (fun z => pyIsSpace z = false)
      intro x hx
      have hx2 : x ∈ Q := by
        rw [hQ, List.map_cons]
        exact hx
      exact (hqfacts x hx2).2.2.2
    have hstrip : pyStripNL (List.intercalate ('\n' :: '\n' :: []) Q ++ ['\n'])
        = List.intercalate ('\n' :: '\n' :: []) Q := by
      rw [pyStripNL]
      have hhead : (List.intercalate ('\n' :: '\n' :: []) Q ++ ['\n']).head? = some d1 := by
        apply head?_append_left
        rw [hQ, List.map_cons]
        rw [intercalate_head_eq _ _ _ (by rw [hq1e]; exact List.cons_ne_nil _ _)]
        rw [hq1e]
        rfl
      obtain ⟨xr, hXe⟩ : ∃ xr,
          List.intercalate ('\n' :: '\n' :: []) Q ++ ['\n'] = d1 :: xr := by
        cases hq : List.intercalate ('\n' :: '\n' :: []) Q ++ ['\n'] with
        | nil => rw [hq] at hhead; cases hhead
        | cons y ys =>
          rw [hq] at hhead
          cases hhead
          exact ⟨ys, rfl⟩
      have hdw : (List.intercalate ('\n' :: '\n' :: []) Q ++ ['\n']).dropWhile
          (fun c => decide (c = '\n')) = List.intercalate ('\n' :: '\n' :: []) Q ++ ['\n'] := by
        rw [hXe]
        exact List.dropWhile_cons_of_neg (by simpa using hd1nl)
      rw [hdw]
      rw [List.rdropWhile_concat_pos (fun c => decide (c = '\n'))
        (List.intercalate ('\n' :: '\n' :: []) Q) '\n' (by decide)]
      rw [List.rdropWhile_eq_self_iff]
      intro hne2
      obtain ⟨z, hz1, hz2⟩ := hlastQ
      have hzl := List.getLast?_eq_getLast _ hne2
      rw [hz1] at hzl
      injection hzl with hzl
      simp only [decide_eq_true_eq]
      intro h0
      rw [hzl, h0] at hz2
      exact absurd hz2 (by decide)
    have hsplit : splitBlank (List.intercalate ('\n' :: '\n' :: []) Q) = Q := by
      rw [hQ, List.map_cons]
      apply splitBlank_solid
      intro x hx
      have hx2 : x ∈ Q := by
        rw [hQ, List.map_cons]
        exact hx
      exact (hqfacts x hx2).1
    have hfm : Q.filterMap (processPara width) = Q :=
      filterMap_id_of_some width Q (fun q hq => (hqfacts q hq).2.1)
    show dehyphenate_and_reflow (List.intercalate ('\n' :: '\n' :: []) Q ++ ['\n']) width
        = List.intercalate ('\n' :: '\n' :: []) Q ++ ['\n']
    simp only [dehyphenate_and_reflow]
    rw [hnorm, hstrip, hsplit, hfm]

set_option maxRecDepth 4000 in
/-- C2 (amended): the dehyphenate-and-reflow stage is *not* idempotent in
general — the rewrap may break a hyphenated word at its hyphen at a line
end, and a second run then deletes that hyphen and joins the fragments
(see the counterexample) — but it *is* idempotent on every text that
contains no hyphen-minus and no soft hyphen, whose whitespace characters
are only plain spaces and newlines, and whose whitespace-separated words
each fit within the positive wrap width. -/
theorem C2_reflow_amended (width : Nat) (t : PyStr)
    (hw : 1 ≤ width)
    (hws : ∀ c ∈ t, pyIsSpace c = true → c = ' ' ∨ c = '\n')
    (hh : ∀ c ∈ t, c ≠ '-' ∧ c ≠ '­')
    (hlen : ∀ word ∈ pyWords t, word.length ≤ width) :
    dehyphenate_and_reflow (dehyphenate_and_reflow t width) width
      = dehyphenate_and_reflow t width := by
  rw [dehyphenate_first_run t width hws hh]
  apply dehyphenate_second_run width hw
  intro ws hws2
  rcases List.mem_filter.mp hws2 with ⟨hmem, hpred⟩
  rcases List.mem_map.mp hmem with ⟨p, hp, rfl⟩
  have hsub : p ⊆ t := by
    intro c hc
    exact pyStripNL_subset t (splitBlank_chars _ p hp hc)
  have hwmem : ∀ w ∈ pyWords p, w ∈ pyWords t := by
    intro w hw0
    have hflat := splitBlank_words (pyStripNL t)
    rw [pyWords_pyStripNL] at hflat
    rw [← hflat]
    exact List.mem_flatten.mpr ⟨pyWords p, List.mem_map_of_mem pyWords hp, hw0⟩
  have hne : pyWords p ≠ [] := by
    intro h0
    rw [h0] at hpred
    cases hpred
  refine ⟨hne, ?_, ?_⟩
  · intro w hw0
    obtain ⟨h1, h2⟩ := pyWords_props p w hw0
    exact ⟨h1, hlen w (hwmem w hw0), fun c hc => (h2 c hc).2⟩
  · intro w hw0
    constructor
    · intro hcmem
      exact (hh '-' (hsub ((pyWords_props p w hw0).2 '-' hcmem).1)).1 rfl
    · intro hcmem
      exact (hh _ (hsub ((pyWords_props p w hw0).2 _ hcmem).1)).2 rfl

/-- C2 amended witness: a concrete clean two-paragraph text at width 5. -/
theorem C2_reflow_amended_witness :
    dehyphenate_and_reflow (dehyphenate_and_reflow ("ab cd ef\n\ngh".toList) 5) 5
      = dehyphenate_and_reflow ("ab cd ef\n\ngh".toList) 5 :=
  C2_reflow_amended 5 ("ab cd ef\n\ngh".toList) (by decide) (by decide) (by decide)
    (by decide)

end BMS
